import Mathlib

/-!
# Verification of the cplibs 2D computational-geometry kernel

This file gives a shallow embedding of the geometry crates of the repository
(`plane::line`, `convex-hull`, `nearest-points`) and proves or refutes the
frozen claims about them.

Conventions of the embedding:

* The Rust code is generic over a coordinate type `C` that is copyable,
  ordered, and supports subtraction and multiplication.  We embed it over an
  arbitrary `LinearOrderedCommRing`, and instantiate at `ℤ` (the integer
  instances) and at `ℚ` (an exact-arithmetic idealization of the `f64`
  instances; `f64::EPSILON` is the exact rational `2 ^ (-52)`, and every
  concrete input used below is a dyadic rational on which the modelled
  `f64` arithmetic is exact).
* Rust tuples `(C, C)` are `α × α`; tuple `PartialOrd` is the lexicographic
  order, written out explicitly below as `lexLt`.
* `Vec` values become `List`s; in-place mutation becomes explicit state
  passing; `sort_unstable_by` becomes `List.insertionSort` (a sorted
  permutation, which is all the code relies on for a total comparator).
* The `unwrap` in the sweep line's end-event handling is modelled by an
  `Except Unit` result: `.error ()` is a panic.
-/

set_option linter.unusedVariables false
set_option linter.unusedSectionVars false

/-- A 2-D point, `type Point<C> = (C, C)` in the source. -/
abbrev PPoint (α : Type) := α × α

/-- `pub struct Segment<C>(pub Point<C>, pub Point<C>);` from `plane::line`. -/
structure Segment (α : Type) where
  fst : PPoint α
  snd : PPoint α
deriving DecidableEq, Repr

section Geometry

variable {α : Type} [LinearOrderedCommRing α]

/-- Lexicographic strict order on points: the order of Rust's derived
`PartialOrd` on 2-tuples (total on a totally ordered coordinate type). -/
def lexLt (p q : PPoint α) : Prop :=
  p.1 < q.1 ∨ (p.1 = q.1 ∧ p.2 < q.2)

instance (p q : PPoint α) : Decidable (lexLt p q) := by
  unfold lexLt; infer_instance

/-- Lexicographic non-strict order on points. -/
def lexLe (p q : PPoint α) : Prop :=
  p.1 < q.1 ∨ (p.1 = q.1 ∧ p.2 ≤ q.2)

instance (p q : PPoint α) : Decidable (lexLe p q) := by
  unfold lexLe; infer_instance

/-- `cross_product(o, a, b) = (a.0 - o.0) * (b.1 - o.1) - (a.1 - o.1) * (b.0 - o.0)`. -/
def cross_product (o a b : PPoint α) : α :=
  (a.1 - o.1) * (b.2 - o.2) - (a.2 - o.2) * (b.1 - o.1)

/-- `is_in_rectangle(p, diagonal)`: is `p` inside (or on the border of) the
axis-parallel bounding rectangle of `diagonal`?  The source computes
`x_min`, `x_max`, `y_min`, `y_max` by `partial_cmp` matches, which on a
total order are exactly `min` and `max` (the `None` escapes are unreachable). -/
def is_in_rectangle (p : PPoint α) (diagonal : Segment α) : Bool :=
  let c1 := diagonal.fst
  let c2 := diagonal.snd
  decide (min c1.1 c2.1 ≤ p.1 ∧ p.1 ≤ max c1.1 c2.1 ∧
          min c1.2 c2.2 ≤ p.2 ∧ p.2 ≤ max c1.2 c2.2)

/-- `do_intersect(line1, line2)` from `plane::line`: the boolean fast path;
straddle test, plus point-in-rectangle checks on the four zero-orientation
cases. -/
def do_intersect (line1 line2 : Segment α) : Bool :=
  let p1 := line1.fst
  let q1 := line1.snd
  let p2 := line2.fst
  let q2 := line2.snd
  let o1 := cross_product p1 q1 p2
  let o2 := cross_product p1 q1 q2
  let o3 := cross_product p2 q2 p1
  let o4 := cross_product p2 q2 q1
  (decide ((o1 > 0 ∧ o2 < 0 ∨ o1 < 0 ∧ o2 > 0) ∧
           (o3 > 0 ∧ o4 < 0 ∨ o3 < 0 ∧ o4 > 0)))
    || (decide (o1 = 0) && is_in_rectangle p2 line1)
    || (decide (o2 = 0) && is_in_rectangle q2 line1)
    || (decide (o3 = 0) && is_in_rectangle p1 line2)
    || (decide (o4 = 0) && is_in_rectangle q1 line2)

/-- The five-way classification `IntersectionType` of `plane::line`. -/
inductive IntersectionType where
  | none           -- Segments don't meet
  | proper         -- Segments meet at one point other than endpoints
  | collinear      -- Segments overlap and share more than one point
  | oneSided       -- One endpoint lies on the middle of the other segment
  | mutualEndpoint -- Segments meet at a mutual endpoint
deriving DecidableEq, Repr

/-- `relationship_between_segments(seg1, seg2)` from `plane::line`, with the
source's endpoint swaps written as rebindings. -/
def relationship_between_segments (seg1 seg2 : Segment α) : IntersectionType :=
  let p1 := seg1.fst
  let q1 := seg1.snd
  let p2 := seg2.fst
  let q2 := seg2.snd
  let o1 := cross_product p1 q1 p2
  let o2 := cross_product p1 q1 q2
  let o3 := cross_product p2 q2 p1
  let o4 := cross_product p2 q2 q1
  if o1 ≠ 0 ∧ o2 ≠ 0 ∧ o3 ≠ 0 ∧ o4 ≠ 0 then
    if (o1 > 0 ∧ o2 > 0) ∨ (o1 < 0 ∧ o2 < 0) ∨ (o3 > 0 ∧ o4 > 0) ∨ (o3 < 0 ∧ o4 < 0) then
      IntersectionType.none
    else
      IntersectionType.proper
  else if o1 = 0 ∧ o2 = 0 then
    -- all four points collinear (by the branch condition): normalize each
    -- segment to p ≤ q, then order the segments by start point
    let s1 := if lexLt q1 p1 then (q1, p1) else (p1, q1)
    let s2 := if lexLt q2 p2 then (q2, p2) else (p2, q2)
    let t := if lexLt s2.1 s1.1 then (s2, s1) else (s1, s2)
    if lexLt t.2.1 t.1.2 then IntersectionType.collinear
    else if t.2.1 = t.1.2 then IntersectionType.mutualEndpoint
    else IntersectionType.none
  else
    -- at least one of the cross products is zero but not both of o1, o2:
    -- pick the zero-orientation point as p2 of the (possibly swapped) pair
    let t :=
      if o1 = 0 ∨ o2 = 0 then
        if o2 = 0 then (p1, q1, q2, p2) else (p1, q1, p2, q2)
      else
        if o4 = 0 then (p2, q2, q1, p1) else (p2, q2, p1, q1)
    if is_in_rectangle t.2.2.1 ⟨t.1, t.2.1⟩ then
      if t.2.2.1 = t.1 ∨ t.2.2.1 = t.2.1 then IntersectionType.mutualEndpoint
      else IntersectionType.oneSided
    else
      IntersectionType.none

end Geometry

section GeometryLemmas

variable {α : Type} [LinearOrderedCommRing α]

-- Basic facts about the lexicographic point order.

theorem lexLt_irrefl (p : PPoint α) : ¬ lexLt p p := by
  simp [lexLt]

theorem lexLe_refl (p : PPoint α) : lexLe p p := by
  simp [lexLe]

theorem lexLe_of_lexLt {p q : PPoint α} (h : lexLt p q) : lexLe p q := by
  rcases h with h | ⟨h1, h2⟩
  · exact Or.inl h
  · exact Or.inr ⟨h1, le_of_lt h2⟩

theorem lexLe_iff_not_lexLt {p q : PPoint α} : lexLe p q ↔ ¬ lexLt q p := by
  constructor
  · rintro (h | ⟨h1, h2⟩) (h' | ⟨h1', h2'⟩) <;> linarith
  · intro h
    rcases lt_trichotomy p.1 q.1 with h1 | h1 | h1
    · exact Or.inl h1
    · rcases le_or_lt p.2 q.2 with h2 | h2
      · exact Or.inr ⟨h1, h2⟩
      · exact absurd (Or.inr ⟨h1.symm, h2⟩) h
    · exact absurd (Or.inl h1) h

theorem lexLt_iff_not_lexLe {p q : PPoint α} : lexLt p q ↔ ¬ lexLe q p := by
  rw [lexLe_iff_not_lexLt, not_not]

theorem lexLe_trans {p q r : PPoint α} (h1 : lexLe p q) (h2 : lexLe q r) : lexLe p r := by
  rcases h1 with h1 | ⟨h1, h1'⟩ <;> rcases h2 with h2 | ⟨h2, h2'⟩
  · exact Or.inl (h1.trans h2)
  · exact Or.inl (h2 ▸ h1)
  · exact Or.inl (h1 ▸ h2)
  · exact Or.inr ⟨h1.trans h2, h1'.trans h2'⟩

theorem lexLe_antisymm {p q : PPoint α} (h1 : lexLe p q) (h2 : lexLe q p) : p = q := by
  rcases h1 with h1 | ⟨h1, h1'⟩ <;> rcases h2 with h2 | ⟨h2, h2'⟩ <;>
    [skip; skip; skip; exact Prod.ext h1 (le_antisymm h1' h2')] <;> exfalso <;> linarith

theorem lexLe_total (p q : PPoint α) : lexLe p q ∨ lexLe q p := by
  rcases lt_trichotomy p.1 q.1 with h | h | h
  · exact Or.inl (Or.inl h)
  · rcases le_total p.2 q.2 with h2 | h2
    · exact Or.inl (Or.inr ⟨h, h2⟩)
    · exact Or.inr (Or.inr ⟨h.symm, h2⟩)
  · exact Or.inr (Or.inl h)

theorem lexLt_of_lexLe_of_lexLt {p q r : PPoint α} (h1 : lexLe p q) (h2 : lexLt q r) :
    lexLt p r := by
  rw [lexLt_iff_not_lexLe] at h2 ⊢
  intro h3
  exact h2 (lexLe_trans h3 h1)

theorem lexLt_of_lexLt_of_lexLe {p q r : PPoint α} (h1 : lexLt p q) (h2 : lexLe q r) :
    lexLt p r := by
  rw [lexLt_iff_not_lexLe] at h1 ⊢
  intro h3
  exact h1 (lexLe_trans h2 h3)

-- Cross-product identities (pure ring identities).

theorem cross_product_cycle (o a b : PPoint α) :
    cross_product o a b = cross_product a b o := by
  unfold cross_product; ring

theorem cross_product_swap (o a b : PPoint α) :
    cross_product o a b = -cross_product o b a := by
  unfold cross_product; ring

theorem cross_product_self (o a : PPoint α) : cross_product o a a = 0 := by
  unfold cross_product; ring

theorem cross_product_swap01 (o a b : PPoint α) :
    cross_product o a b = -cross_product a o b := by
  unfold cross_product; ring

/-- Parallel transitivity: if `r` and `s` both lie on the line through the
distinct points `p` and `q`, then `p` lies on the line through `r` and `s`. -/
theorem collinear_pivot {p q r s : PPoint α} (hpq : p ≠ q)
    (hr : cross_product p q r = 0) (hs : cross_product p q s = 0) :
    cross_product r s p = 0 := by
  have key : (q.1 - p.1) * cross_product r s p = 0 ∧ (q.2 - p.2) * cross_product r s p = 0 := by
    constructor
    · have : (q.1 - p.1) * cross_product r s p =
          (r.1 - p.1) * cross_product p q s - (s.1 - p.1) * cross_product p q r := by
        unfold cross_product; ring
      rw [this, hr, hs]; ring
    · have : (q.2 - p.2) * cross_product r s p =
          (r.2 - p.2) * cross_product p q s - (s.2 - p.2) * cross_product p q r := by
        unfold cross_product; ring
      rw [this, hr, hs]; ring
  rcases key with ⟨k1, k2⟩
  rcases mul_eq_zero.1 k1 with h1 | h1
  · rcases mul_eq_zero.1 k2 with h2 | h2
    · exact absurd (Prod.ext (by linarith) (by linarith)).symm hpq
    · exact h2
  · exact h1

/-- All four points of two collinear-tested segments lie on one line:
transfer of the zero cross products from segment 1 to segment 2. -/
theorem collinear_transfer {p1 q1 p2 q2 : PPoint α} (h1 : p1 ≠ q1)
    (h2 : cross_product p1 q1 p2 = 0) (h3 : cross_product p1 q1 q2 = 0) :
    cross_product p2 q2 p1 = 0 ∧ cross_product p2 q2 q1 = 0 := by
  constructor
  · exact collinear_pivot h1 h2 h3
  · have h2' : cross_product q1 p1 p2 = 0 := by
      rw [cross_product_swap01, h2, neg_zero]
    have h3' : cross_product q1 p1 q2 = 0 := by
      rw [cross_product_swap01, h3, neg_zero]
    exact collinear_pivot (fun h => h1 h.symm) h2' h3'

-- Bounding-rectangle facts.

theorem is_in_rectangle_iff (p : PPoint α) (d : Segment α) :
    is_in_rectangle p d = true ↔
      (min d.fst.1 d.snd.1 ≤ p.1 ∧ p.1 ≤ max d.fst.1 d.snd.1 ∧
       min d.fst.2 d.snd.2 ≤ p.2 ∧ p.2 ≤ max d.fst.2 d.snd.2) := by
  simp [is_in_rectangle]

theorem is_in_rectangle_comm (p : PPoint α) (a b : PPoint α) :
    is_in_rectangle p ⟨a, b⟩ = is_in_rectangle p ⟨b, a⟩ := by
  simp [is_in_rectangle, min_comm, max_comm]

theorem fst_mem_own_box (a b : PPoint α) : is_in_rectangle a ⟨a, b⟩ = true := by
  rw [is_in_rectangle_iff]
  exact ⟨min_le_left _ _, le_max_left _ _, min_le_left _ _, le_max_left _ _⟩

theorem snd_mem_own_box (a b : PPoint α) : is_in_rectangle b ⟨a, b⟩ = true := by
  rw [is_in_rectangle_iff]
  exact ⟨min_le_right _ _, le_max_right _ _, min_le_right _ _, le_max_right _ _⟩

/-- On the line through `p ≤ q` (lexicographically), membership in the bounding
rectangle of `(p, q)` is exactly lexicographic betweenness. -/
theorem collinear_box_iff {p q r : PPoint α} (hc : cross_product p q r = 0)
    (hpq : lexLe p q) :
    is_in_rectangle r ⟨p, q⟩ = true ↔ (lexLe p r ∧ lexLe r q) := by
  have hx : p.1 ≤ q.1 := by
    rcases hpq with h | ⟨h, _⟩
    · exact le_of_lt h
    · exact le_of_eq h
  have hcross : (q.1 - p.1) * (r.2 - p.2) = (q.2 - p.2) * (r.1 - p.1) := by
    unfold cross_product at hc; linarith
  rw [is_in_rectangle_iff]
  simp only [min_eq_left hx, max_eq_right hx]
  rcases eq_or_lt_of_le hx with hv | hv
  · -- vertical: p.1 = q.1, so lex order is the y order
    have hy : p.2 ≤ q.2 := by
      rcases hpq with h | ⟨_, h⟩
      · exact absurd h (by rw [hv]; exact lt_irrefl _)
      · exact h
    rcases eq_or_lt_of_le hy with hy2 | hy2
    · -- p = q: the box degenerates to the single point p
      have hqp : p = q := Prod.ext hv hy2
      rw [← hqp]
      simp only [min_self, max_self]
      constructor
      · rintro ⟨h1, h2, h3, h4⟩
        have e : r = p := Prod.ext (le_antisymm h2 h1) (le_antisymm h4 h3)
        rw [e]
        exact ⟨lexLe_refl p, lexLe_refl p⟩
      · rintro ⟨h1, h2⟩
        have e : r = p := lexLe_antisymm h2 h1
        rw [e]
        exact ⟨le_refl _, le_refl _, le_refl _, le_refl _⟩
    · -- p.1 = q.1, p.2 < q.2: the cross product forces r.1 = p.1
      have hr1 : r.1 = p.1 := by
        have : (q.2 - p.2) * (r.1 - p.1) = 0 := by
          rw [← hcross, ← hv]; ring
        rcases mul_eq_zero.1 this with h | h
        · exact absurd h (by intro h'; linarith)
        · linarith
      rw [min_eq_left hy, max_eq_right hy]
      constructor
      · rintro ⟨h1, h2, h3, h4⟩
        exact ⟨Or.inr ⟨hr1.symm, h3⟩, Or.inr ⟨by rw [hr1, hv], h4⟩⟩
      · rintro ⟨h1, h2⟩
        have hy3 : p.2 ≤ r.2 := by
          rcases h1 with h | ⟨_, h⟩
          · exact absurd h (by rw [hr1]; exact lt_irrefl _)
          · exact h
        have hy4 : r.2 ≤ q.2 := by
          rcases h2 with h | ⟨_, h⟩
          · exact absurd h (by rw [hr1, hv]; exact lt_irrefl _)
          · exact h
        exact ⟨le_of_eq hr1.symm, by rw [hr1, hv], hy3, hy4⟩
  · -- p.1 < q.1: y-betweenness follows from the cross product
    constructor
    · rintro ⟨h1, h2, h3, h4⟩
      constructor
      · rcases eq_or_lt_of_le h1 with he | he
        · -- r.1 = p.1 forces r.2 = p.2
          have : (q.1 - p.1) * (r.2 - p.2) = 0 := by rw [hcross, ← he]; ring
          rcases mul_eq_zero.1 this with h | h
          · exact absurd h (by intro h'; linarith)
          · exact Or.inr ⟨he, by linarith⟩
        · exact Or.inl he
      · rcases eq_or_lt_of_le h2 with he | he
        · -- r.1 = q.1 forces r.2 = q.2
          have : (q.1 - p.1) * (r.2 - q.2) = 0 := by
            have : (q.1 - p.1) * (r.2 - q.2) =
                (q.1 - p.1) * (r.2 - p.2) - (q.2 - p.2) * (q.1 - p.1) := by ring
            rw [this, hcross, he]; ring
          rcases mul_eq_zero.1 this with h | h
          · exact absurd h (by intro h'; linarith)
          · exact Or.inr ⟨he, by linarith⟩
        · exact Or.inl he
    · rintro ⟨h1, h2⟩
      have hx1 : p.1 ≤ r.1 := by
        rcases h1 with h | ⟨h, _⟩
        · exact le_of_lt h
        · exact le_of_eq h
      have hx2 : r.1 ≤ q.1 := by
        rcases h2 with h | ⟨h, _⟩
        · exact le_of_lt h
        · exact le_of_eq h
      refine ⟨hx1, hx2, ?_, ?_⟩
      · rcases le_total p.2 q.2 with hy | hy
        · rw [min_eq_left hy]
          nlinarith [mul_nonneg (sub_nonneg.2 hy) (sub_nonneg.2 hx1)]
        · rw [min_eq_right hy]
          nlinarith [mul_nonneg (sub_nonneg.2 hy) (sub_nonneg.2 hx2)]
      · rcases le_total p.2 q.2 with hy | hy
        · rw [max_eq_right hy]
          nlinarith [mul_nonneg (sub_nonneg.2 hy) (sub_nonneg.2 hx2)]
        · rw [max_eq_left hy]
          nlinarith [mul_nonneg (sub_nonneg.2 hy) (sub_nonneg.2 hx1)]

-- Propositional characterization of the boolean fast path.

theorem do_intersect_iff (s1 s2 : Segment α) :
    do_intersect s1 s2 = true ↔
      ((((cross_product s1.fst s1.snd s2.fst > 0 ∧ cross_product s1.fst s1.snd s2.snd < 0 ∨
          cross_product s1.fst s1.snd s2.fst < 0 ∧ cross_product s1.fst s1.snd s2.snd > 0) ∧
         (cross_product s2.fst s2.snd s1.fst > 0 ∧ cross_product s2.fst s2.snd s1.snd < 0 ∨
          cross_product s2.fst s2.snd s1.fst < 0 ∧ cross_product s2.fst s2.snd s1.snd > 0)) ∨
        (cross_product s1.fst s1.snd s2.fst = 0 ∧ is_in_rectangle s2.fst s1 = true)) ∨
       (cross_product s1.fst s1.snd s2.snd = 0 ∧ is_in_rectangle s2.snd s1 = true)) ∨
      ((cross_product s2.fst s2.snd s1.fst = 0 ∧ is_in_rectangle s1.fst s2 = true) ∨
       (cross_product s2.fst s2.snd s1.snd = 0 ∧ is_in_rectangle s1.snd s2 = true)) := by
  simp only [do_intersect, Bool.or_eq_true, Bool.and_eq_true, decide_eq_true_eq]
  rw [or_assoc]

-- Branch-evaluation lemmas for the classifier.

theorem rel_eval_nonzero (s1 s2 : Segment α)
    (h1 : cross_product s1.fst s1.snd s2.fst ≠ 0)
    (h2 : cross_product s1.fst s1.snd s2.snd ≠ 0)
    (h3 : cross_product s2.fst s2.snd s1.fst ≠ 0)
    (h4 : cross_product s2.fst s2.snd s1.snd ≠ 0) :
    relationship_between_segments s1 s2 =
      if (cross_product s1.fst s1.snd s2.fst > 0 ∧ cross_product s1.fst s1.snd s2.snd > 0) ∨
         (cross_product s1.fst s1.snd s2.fst < 0 ∧ cross_product s1.fst s1.snd s2.snd < 0) ∨
         (cross_product s2.fst s2.snd s1.fst > 0 ∧ cross_product s2.fst s2.snd s1.snd > 0) ∨
         (cross_product s2.fst s2.snd s1.fst < 0 ∧ cross_product s2.fst s2.snd s1.snd < 0) then
        IntersectionType.none
      else IntersectionType.proper := by
  unfold relationship_between_segments
  rw [if_pos ⟨h1, h2, h3, h4⟩]

/-- The endpoint normalization `if p > q { swap }` of the collinear branch. -/
def sortPair (p q : PPoint α) : PPoint α × PPoint α :=
  if lexLt q p then (q, p) else (p, q)

/-- The tail of the collinear branch, on already-normalized segments: order the
two segments by start point, then compare the second start with the first end. -/
def classifySorted (s1 s2 : PPoint α × PPoint α) : IntersectionType :=
  let t := if lexLt s2.1 s1.1 then (s2, s1) else (s1, s2)
  if lexLt t.2.1 t.1.2 then IntersectionType.collinear
  else if t.2.1 = t.1.2 then IntersectionType.mutualEndpoint
  else IntersectionType.none

/-- The collinear branch of the classifier, as a standalone function:
normalize both segments to `p ≤ q`, order the two segments by start point, then
compare the second start against the first end. -/
def collinearClassify (p1 q1 p2 q2 : PPoint α) : IntersectionType :=
  classifySorted (sortPair p1 q1) (sortPair p2 q2)

theorem rel_eval_collinear (s1 s2 : Segment α)
    (h1 : cross_product s1.fst s1.snd s2.fst = 0)
    (h2 : cross_product s1.fst s1.snd s2.snd = 0) :
    relationship_between_segments s1 s2 = collinearClassify s1.fst s1.snd s2.fst s2.snd := by
  unfold relationship_between_segments collinearClassify classifySorted sortPair
  rw [if_neg (by intro h; exact h.1 h1), if_pos ⟨h1, h2⟩]

-- Facts about the normalization helpers.

theorem sortPair_le (p q : PPoint α) : lexLe (sortPair p q).1 (sortPair p q).2 := by
  unfold sortPair
  split_ifs with h
  · exact lexLe_of_lexLt h
  · exact lexLe_iff_not_lexLt.2 h

theorem sortPair_cases (p q : PPoint α) : sortPair p q = (p, q) ∨ sortPair p q = (q, p) := by
  unfold sortPair
  split_ifs <;> [exact Or.inr rfl; exact Or.inl rfl]

theorem sortPair_ne {p q : PPoint α} (h : p ≠ q) : (sortPair p q).1 ≠ (sortPair p q).2 := by
  rcases sortPair_cases p q with hc | hc <;> rw [hc]
  · exact h
  · exact fun h' => h h'.symm

theorem sortPair_swap (p q : PPoint α) : sortPair q p = sortPair p q := by
  unfold sortPair
  split_ifs with h1 h2 h2
  · exact absurd (lexLt_of_lexLt_of_lexLe h1 (lexLe_of_lexLt h2)) (lexLt_irrefl p)
  · rfl
  · rfl
  · have := lexLe_antisymm (lexLe_iff_not_lexLt.2 h1) (lexLe_iff_not_lexLt.2 h2)
    rw [this]

theorem classifySorted_eval_ge (s1 s2 : PPoint α × PPoint α) (h : ¬ lexLt s2.1 s1.1) :
    classifySorted s1 s2 =
      if lexLt s2.1 s1.2 then IntersectionType.collinear
      else if s2.1 = s1.2 then IntersectionType.mutualEndpoint
      else IntersectionType.none := by
  unfold classifySorted
  rw [if_neg h]

theorem classifySorted_eval_lt (s1 s2 : PPoint α × PPoint α) (h : lexLt s2.1 s1.1) :
    classifySorted s1 s2 =
      if lexLt s1.1 s2.2 then IntersectionType.collinear
      else if s1.1 = s2.2 then IntersectionType.mutualEndpoint
      else IntersectionType.none := by
  unfold classifySorted
  rw [if_pos h]

theorem lexLe_iff_lt_or_eq {p q : PPoint α} : lexLe p q ↔ lexLt p q ∨ p = q := by
  constructor
  · rintro (h | ⟨h1, h2⟩)
    · exact Or.inl (Or.inl h)
    · rcases eq_or_lt_of_le h2 with h2 | h2
      · exact Or.inr (Prod.ext h1 h2)
      · exact Or.inl (Or.inr ⟨h1, h2⟩)
  · rintro (h | h)
    · exact lexLe_of_lexLt h
    · rw [h]; exact lexLe_refl q

theorem classifySorted_ne_none_ge (s1 s2 : PPoint α × PPoint α) (h : ¬ lexLt s2.1 s1.1) :
    classifySorted s1 s2 ≠ IntersectionType.none ↔ lexLe s2.1 s1.2 := by
  rw [classifySorted_eval_ge s1 s2 h, lexLe_iff_lt_or_eq]
  split_ifs with hlt heq
  · simp [hlt]
  · simp [heq]
  · simp [hlt, heq]

theorem classifySorted_ne_none_lt (s1 s2 : PPoint α × PPoint α) (h : lexLt s2.1 s1.1) :
    classifySorted s1 s2 ≠ IntersectionType.none ↔ lexLe s1.1 s2.2 := by
  rw [classifySorted_eval_lt s1 s2 h, lexLe_iff_lt_or_eq]
  split_ifs with hlt heq
  · simp [hlt]
  · simp [heq]
  · simp [hlt, heq]

/-- Core of the collinear-overlap analysis, on normalized segments: some
endpoint of one segment lies in the bounding box of the other iff the
ordered-overlap test of the collinear branch is not `None`. -/
theorem collinear_core_equiv {a1 b1 a2 b2 : PPoint α}
    (hs1 : lexLe a1 b1) (hs2 : lexLe a2 b2)
    (h12 : cross_product a1 b1 a2 = 0) (h12' : cross_product a1 b1 b2 = 0)
    (h21 : cross_product a2 b2 a1 = 0) (h21' : cross_product a2 b2 b1 = 0) :
    (is_in_rectangle a2 ⟨a1, b1⟩ = true ∨ is_in_rectangle b2 ⟨a1, b1⟩ = true ∨
     is_in_rectangle a1 ⟨a2, b2⟩ = true ∨ is_in_rectangle b1 ⟨a2, b2⟩ = true) ↔
    classifySorted (a1, b1) (a2, b2) ≠ IntersectionType.none := by
  rw [collinear_box_iff h12 hs1, collinear_box_iff h12' hs1,
    collinear_box_iff h21 hs2, collinear_box_iff h21' hs2]
  by_cases hlt : lexLt a2 a1
  · rw [classifySorted_ne_none_lt _ _ hlt]
    constructor
    · rintro (⟨hx, hy⟩ | ⟨hx, hy⟩ | ⟨hx, hy⟩ | ⟨hx, hy⟩)
      · exact absurd (lexLt_of_lexLe_of_lexLt hx hlt) (lexLt_irrefl a1)
      · exact hx
      · exact hy
      · exact lexLe_trans hs1 hy
    · intro h
      exact Or.inr (Or.inr (Or.inl ⟨lexLe_of_lexLt hlt, h⟩))
  · rw [classifySorted_ne_none_ge _ _ hlt]
    have hle : lexLe a1 a2 := lexLe_iff_not_lexLt.2 hlt
    constructor
    · rintro (⟨hx, hy⟩ | ⟨hx, hy⟩ | ⟨hx, hy⟩ | ⟨hx, hy⟩)
      · exact hy
      · exact lexLe_trans hs2 hy
      · rw [lexLe_antisymm hle hx] at hs1
        exact hs1
      · exact hx
    · intro h
      exact Or.inl ⟨hle, h⟩

/-- In the collinear branch (both orientations of segment 2 against segment 1
vanish), for non-degenerate segments the boolean fast path agrees with the
classifier being something other than `None`. -/
theorem collinear_branch_equiv (s1 s2 : Segment α)
    (hnd1 : s1.fst ≠ s1.snd)
    (h1 : cross_product s1.fst s1.snd s2.fst = 0)
    (h2 : cross_product s1.fst s1.snd s2.snd = 0) :
    (do_intersect s1 s2 = true ↔
      relationship_between_segments s1 s2 ≠ IntersectionType.none) := by
  obtain ⟨h3, h4⟩ := collinear_transfer hnd1 h1 h2
  rw [rel_eval_collinear s1 s2 h1 h2, do_intersect_iff]
  simp only [h1, h2, h3, h4, lt_irrefl, false_and, and_false, false_or, or_false, true_and]
  unfold collinearClassify
  obtain ⟨p1, q1⟩ := s1
  obtain ⟨p2, q2⟩ := s2
  simp only at h1 h2 h3 h4 ⊢
  have key : ∀ u1 v1 u2 v2 : PPoint α, sortPair p1 q1 = (u1, v1) → sortPair p2 q2 = (u2, v2) →
      (((is_in_rectangle p2 ⟨p1, q1⟩ = true ∨ is_in_rectangle q2 ⟨p1, q1⟩ = true) ∨
        (is_in_rectangle p1 ⟨p2, q2⟩ = true ∨ is_in_rectangle q1 ⟨p2, q2⟩ = true)) ↔
      classifySorted (u1, v1) (u2, v2) ≠ IntersectionType.none) := by
    intro u1 v1 u2 v2 e1 e2
    have hb1 : ∀ r : PPoint α, is_in_rectangle r (⟨p1, q1⟩ : Segment α) =
        is_in_rectangle r ⟨u1, v1⟩ := by
      intro r
      rcases sortPair_cases p1 q1 with hc | hc <;> rw [hc] at e1 <;>
        injection e1 with e1a e1b <;> subst e1a <;> subst e1b
      · rfl
      · exact is_in_rectangle_comm r p1 q1
    have hb2 : ∀ r : PPoint α, is_in_rectangle r (⟨p2, q2⟩ : Segment α) =
        is_in_rectangle r ⟨u2, v2⟩ := by
      intro r
      rcases sortPair_cases p2 q2 with hc | hc <;> rw [hc] at e2 <;>
        injection e2 with e2a e2b <;> subst e2a <;> subst e2b
      · rfl
      · exact is_in_rectangle_comm r p2 q2
    have hc1 : ∀ r : PPoint α, cross_product p1 q1 r = 0 → cross_product u1 v1 r = 0 := by
      intro r hr
      rcases sortPair_cases p1 q1 with hc | hc <;> rw [hc] at e1 <;>
        injection e1 with e1a e1b <;> subst e1a <;> subst e1b
      · exact hr
      · rw [cross_product_swap01, hr, neg_zero]
    have hc2 : ∀ r : PPoint α, cross_product p2 q2 r = 0 → cross_product u2 v2 r = 0 := by
      intro r hr
      rcases sortPair_cases p2 q2 with hc | hc <;> rw [hc] at e2 <;>
        injection e2 with e2a e2b <;> subst e2a <;> subst e2b
      · exact hr
      · rw [cross_product_swap01, hr, neg_zero]
    have hmem2 : (is_in_rectangle p2 (⟨p1, q1⟩ : Segment α) = true ∨
        is_in_rectangle q2 (⟨p1, q1⟩ : Segment α) = true) ↔
        (is_in_rectangle u2 ⟨u1, v1⟩ = true ∨ is_in_rectangle v2 ⟨u1, v1⟩ = true) := by
      rw [hb1 p2, hb1 q2]
      rcases sortPair_cases p2 q2 with hc | hc <;> rw [hc] at e2 <;>
        injection e2 with e2a e2b <;> subst e2a <;> subst e2b
      · exact Iff.rfl
      · exact or_comm
    have hmem1 : (is_in_rectangle p1 (⟨p2, q2⟩ : Segment α) = true ∨
        is_in_rectangle q1 (⟨p2, q2⟩ : Segment α) = true) ↔
        (is_in_rectangle u1 ⟨u2, v2⟩ = true ∨ is_in_rectangle v1 ⟨u2, v2⟩ = true) := by
      rw [hb2 p1, hb2 q1]
      rcases sortPair_cases p1 q1 with hc | hc <;> rw [hc] at e1 <;>
        injection e1 with e1a e1b <;> subst e1a <;> subst e1b
      · exact Iff.rfl
      · exact or_comm
    rw [hmem2, hmem1]
    have hu1v1 : lexLe u1 v1 := by
      have := sortPair_le p1 q1
      rw [e1] at this
      exact this
    have hu2v2 : lexLe u2 v2 := by
      have := sortPair_le p2 q2
      rw [e2] at this
      exact this
    have c12 : cross_product u1 v1 u2 = 0 := by
      rcases sortPair_cases p2 q2 with hc | hc <;> rw [hc] at e2 <;>
        injection e2 with e2a e2b <;> subst e2a <;> subst e2b
      · exact hc1 p2 h1
      · exact hc1 q2 h2
    have c12' : cross_product u1 v1 v2 = 0 := by
      rcases sortPair_cases p2 q2 with hc | hc <;> rw [hc] at e2 <;>
        injection e2 with e2a e2b <;> subst e2a <;> subst e2b
      · exact hc1 q2 h2
      · exact hc1 p2 h1
    have c21 : cross_product u2 v2 u1 = 0 := by
      rcases sortPair_cases p1 q1 with hc | hc <;> rw [hc] at e1 <;>
        injection e1 with e1a e1b <;> subst e1a <;> subst e1b
      · exact hc2 p1 h3
      · exact hc2 q1 h4
    have c21' : cross_product u2 v2 v1 = 0 := by
      rcases sortPair_cases p1 q1 with hc | hc <;> rw [hc] at e1 <;>
        injection e1 with e1a e1b <;> subst e1a <;> subst e1b
      · exact hc2 q1 h4
      · exact hc2 p1 h3
    rw [or_assoc]
    exact collinear_core_equiv hu1v1 hu2v2 c12 c12' c21 c21'
  rcases e1 : sortPair p1 q1 with ⟨u1, v1⟩
  rcases e2 : sortPair p2 q2 with ⟨u2, v2⟩
  exact key u1 v1 u2 v2 e1 e2

theorem rel_eval_mixed_o1 (s1 s2 : Segment α)
    (h1 : cross_product s1.fst s1.snd s2.fst = 0)
    (h2 : cross_product s1.fst s1.snd s2.snd ≠ 0) :
    relationship_between_segments s1 s2 =
      if is_in_rectangle s2.fst ⟨s1.fst, s1.snd⟩ = true then
        if s2.fst = s1.fst ∨ s2.fst = s1.snd then IntersectionType.mutualEndpoint
        else IntersectionType.oneSided
      else IntersectionType.none := by
  unfold relationship_between_segments
  rw [if_neg (by intro h; exact h.1 h1), if_neg (by intro h; exact h2 h.2),
    if_pos (Or.inl h1), if_neg h2]

theorem rel_eval_mixed_o2 (s1 s2 : Segment α)
    (h1 : cross_product s1.fst s1.snd s2.fst ≠ 0)
    (h2 : cross_product s1.fst s1.snd s2.snd = 0) :
    relationship_between_segments s1 s2 =
      if is_in_rectangle s2.snd ⟨s1.fst, s1.snd⟩ = true then
        if s2.snd = s1.fst ∨ s2.snd = s1.snd then IntersectionType.mutualEndpoint
        else IntersectionType.oneSided
      else IntersectionType.none := by
  unfold relationship_between_segments
  rw [if_neg (by intro h; exact h.2.1 h2), if_neg (by intro h; exact h1 h.1),
    if_pos (Or.inr h2), if_pos h2]

theorem rel_eval_mixed_o4 (s1 s2 : Segment α)
    (h1 : cross_product s1.fst s1.snd s2.fst ≠ 0)
    (h2 : cross_product s1.fst s1.snd s2.snd ≠ 0)
    (h4 : cross_product s2.fst s2.snd s1.snd = 0) :
    relationship_between_segments s1 s2 =
      if is_in_rectangle s1.snd ⟨s2.fst, s2.snd⟩ = true then
        if s1.snd = s2.fst ∨ s1.snd = s2.snd then IntersectionType.mutualEndpoint
        else IntersectionType.oneSided
      else IntersectionType.none := by
  unfold relationship_between_segments
  rw [if_neg (by intro h; exact h.2.2.2 h4), if_neg (by intro h; exact h1 h.1),
    if_neg (show ¬(cross_product s1.fst s1.snd s2.fst = 0 ∨
      cross_product s1.fst s1.snd s2.snd = 0) from fun h => h.elim (fun h => h1 h)
        (fun h => h2 h)), if_pos h4]

theorem rel_eval_mixed_o3 (s1 s2 : Segment α)
    (h1 : cross_product s1.fst s1.snd s2.fst ≠ 0)
    (h2 : cross_product s1.fst s1.snd s2.snd ≠ 0)
    (h3 : cross_product s2.fst s2.snd s1.fst = 0)
    (h4 : cross_product s2.fst s2.snd s1.snd ≠ 0) :
    relationship_between_segments s1 s2 =
      if is_in_rectangle s1.fst ⟨s2.fst, s2.snd⟩ = true then
        if s1.fst = s2.fst ∨ s1.fst = s2.snd then IntersectionType.mutualEndpoint
        else IntersectionType.oneSided
      else IntersectionType.none := by
  unfold relationship_between_segments
  rw [if_neg (by intro h; exact h.2.2.1 h3), if_neg (by intro h; exact h1 h.1),
    if_neg (show ¬(cross_product s1.fst s1.snd s2.fst = 0 ∨
      cross_product s1.fst s1.snd s2.snd = 0) from fun h => h.elim (fun h => h1 h)
        (fun h => h2 h)), if_neg h4]

/-- Sign analysis: for nonzero orientations the straddle test is exactly the
negation of the same-sign test of the classifier. -/
theorem sign_straddle_iff {a b c d : α} (ha : a ≠ 0) (hb : b ≠ 0) (hc : c ≠ 0) (hd : d ≠ 0) :
    ((a > 0 ∧ b < 0 ∨ a < 0 ∧ b > 0) ∧ (c > 0 ∧ d < 0 ∨ c < 0 ∧ d > 0)) ↔
      ¬((a > 0 ∧ b > 0) ∨ (a < 0 ∧ b < 0) ∨ (c > 0 ∧ d > 0) ∨ (c < 0 ∧ d < 0)) := by
  rcases ha.lt_or_lt with s1 | s1 <;> rcases hb.lt_or_lt with s2 | s2 <;>
    rcases hc.lt_or_lt with s3 | s3 <;> rcases hd.lt_or_lt with s4 | s4 <;>
    simp [s1, s2, s3, s4, s1.asymm, s2.asymm, s3.asymm, s4.asymm]

/-- In the all-nonzero branch the boolean fast path agrees with the classifier. -/
theorem nonzero_branch_equiv (s1 s2 : Segment α)
    (h1 : cross_product s1.fst s1.snd s2.fst ≠ 0)
    (h2 : cross_product s1.fst s1.snd s2.snd ≠ 0)
    (h3 : cross_product s2.fst s2.snd s1.fst ≠ 0)
    (h4 : cross_product s2.fst s2.snd s1.snd ≠ 0) :
    (do_intersect s1 s2 = true ↔
      relationship_between_segments s1 s2 ≠ IntersectionType.none) := by
  rw [do_intersect_iff, rel_eval_nonzero s1 s2 h1 h2 h3 h4]
  rw [sign_straddle_iff h1 h2 h3 h4]
  split_ifs with hC
  · simp [h1, h2, h3, h4, hC]
  · simp [h1, h2, h3, h4, hC]

/-- If one endpoint `c` of segment 1 has zero orientation against segment 2,
while segment 2's `p2` lies on segment 1's line but `q2` does not, then `p2`
must be the endpoint `c` itself. -/
theorem shared_endpoint_of_zeros {p1 q1 p2 q2 c : PPoint α}
    (hc1 : c = p1 ∨ c = q1)
    (hp2 : cross_product p1 q1 p2 = 0)
    (hq2 : cross_product p1 q1 q2 ≠ 0)
    (hcc : cross_product p2 q2 c = 0) : p2 = c := by
  by_contra hne
  have hne' : c ≠ p2 := fun h => hne h.symm
  have hq2' : cross_product c p2 q2 = 0 := by
    rw [cross_product_cycle]
    exact hcc
  rcases hc1 with rfl | rfl
  · -- c = p1: q1 and q2 both lie on the line through c and p2
    have hX : cross_product c p2 q1 = 0 := by
      rw [cross_product_swap, hp2, neg_zero]
    have hpiv := collinear_pivot hne' hX hq2'
    -- cross q1 q2 c = 0, cyclic to cross c q1 q2 = 0
    refine hq2 ?_
    rw [cross_product_cycle]
    exact hpiv
  · -- c = q1: p1 and q2 both lie on the line through c and p2
    have hX : cross_product c p2 p1 = 0 := by
      rw [cross_product_cycle] at hp2
      exact hp2
    have hpiv := collinear_pivot hne' hX hq2'
    -- cross p1 q2 c = 0 with c = q1; reorder to cross p1 q1 q2 = 0
    refine hq2 ?_
    rw [cross_product_swap, hpiv, neg_zero]

theorem box_point_iff (r z : PPoint α) : is_in_rectangle r ⟨z, z⟩ = true ↔ r = z := by
  rw [is_in_rectangle_iff]
  simp only [min_self, max_self]
  constructor
  · rintro ⟨a, b, c, d⟩
    exact Prod.ext (le_antisymm b a) (le_antisymm d c)
  · rintro rfl
    exact ⟨le_refl _, le_refl _, le_refl _, le_refl _⟩

theorem ite_classify_ne_none (c : Prop) [Decidable c] (d : Prop) [Decidable d] :
    (if c then (if d then IntersectionType.mutualEndpoint else IntersectionType.oneSided)
     else IntersectionType.none) ≠ IntersectionType.none ↔ c := by
  split_ifs with hc hd <;> simp [hc]

/-- In the mixed branch (some orientation zero, but not both of `o1`, `o2`),
for non-degenerate segments the boolean fast path agrees with the classifier. -/
theorem mixed_branch_equiv (s1 s2 : Segment α)
    (hnd1 : s1.fst ≠ s1.snd) (hnd2 : s2.fst ≠ s2.snd)
    (hn12 : ¬(cross_product s1.fst s1.snd s2.fst = 0 ∧
              cross_product s1.fst s1.snd s2.snd = 0))
    (hsome : cross_product s1.fst s1.snd s2.fst = 0 ∨
             cross_product s1.fst s1.snd s2.snd = 0 ∨
             cross_product s2.fst s2.snd s1.fst = 0 ∨
             cross_product s2.fst s2.snd s1.snd = 0) :
    (do_intersect s1 s2 = true ↔
      relationship_between_segments s1 s2 ≠ IntersectionType.none) := by
  obtain ⟨p1, q1⟩ := s1
  obtain ⟨p2, q2⟩ := s2
  simp only at hnd1 hnd2 hn12 hsome
  have hn34 : ¬(cross_product p2 q2 p1 = 0 ∧ cross_product p2 q2 q1 = 0) := by
    rintro ⟨h3, h4⟩
    exact hn12 (collinear_transfer hnd2 h3 h4)
  rcases eq_or_ne (cross_product p1 q1 p2) 0 with h1 | h1
  · -- o1 = 0, so o2 ≠ 0: the classifier checks p2 against segment 1's box
    have h2 : cross_product p1 q1 q2 ≠ 0 := fun h2 => hn12 ⟨h1, h2⟩
    rw [do_intersect_iff, rel_eval_mixed_o1 ⟨p1, q1⟩ ⟨p2, q2⟩ h1 h2]
    simp only [h1, lt_self_iff_false, false_and, and_false, false_or, or_false,
      eq_self_iff_true, true_and, h2]
    rw [ite_classify_ne_none]
    rcases eq_or_ne (cross_product p2 q2 p1) 0 with h3 | h3
    · -- shared endpoint p2 = p1; both sides hold
      have hpp : p2 = p1 := shared_endpoint_of_zeros (Or.inl rfl) h1 h2 h3
      subst hpp
      simp [fst_mem_own_box]
    · rcases eq_or_ne (cross_product p2 q2 q1) 0 with h4 | h4
      · -- shared endpoint p2 = q1; both sides hold
        have hpp : p2 = q1 := shared_endpoint_of_zeros (Or.inr rfl) h1 h2 h4
        subst hpp
        simp [snd_mem_own_box]
      · simp [h3, h4]
  · rcases eq_or_ne (cross_product p1 q1 q2) 0 with h2 | h2
    · -- o2 = 0, o1 ≠ 0: the classifier checks q2 against segment 1's box
      rw [do_intersect_iff, rel_eval_mixed_o2 ⟨p1, q1⟩ ⟨p2, q2⟩ h1 h2]
      simp only [h2, lt_self_iff_false, false_and, and_false, false_or, or_false,
        eq_self_iff_true, true_and, h1]
      rw [ite_classify_ne_none]
      rcases eq_or_ne (cross_product p2 q2 p1) 0 with h3 | h3
      · have hpp : q2 = p1 := by
          refine shared_endpoint_of_zeros (Or.inl rfl) h2 h1 ?_
          rw [cross_product_swap01, neg_eq_zero]
          exact h3
        subst hpp
        simp [fst_mem_own_box]
      · rcases eq_or_ne (cross_product p2 q2 q1) 0 with h4 | h4
        · have hpp : q2 = q1 := by
            refine shared_endpoint_of_zeros (Or.inr rfl) h2 h1 ?_
            rw [cross_product_swap01, neg_eq_zero]
            exact h4
          subst hpp
          simp [snd_mem_own_box]
        · simp [h3, h4]
    · -- o1 ≠ 0, o2 ≠ 0: one of o3, o4 is zero
      rcases eq_or_ne (cross_product p2 q2 q1) 0 with h4 | h4
      · -- o4 = 0 (the code tests o4 first): check q1 against segment 2's box
        have h3 : cross_product p2 q2 p1 ≠ 0 := fun h3 => hn34 ⟨h3, h4⟩
        rw [do_intersect_iff, rel_eval_mixed_o4 ⟨p1, q1⟩ ⟨p2, q2⟩ h1 h2 h4]
        simp only [h4, lt_self_iff_false, false_and, and_false, false_or, or_false,
          eq_self_iff_true, true_and, h1, h2, h3]
        rw [ite_classify_ne_none]
      · -- o3 = 0, o4 ≠ 0: check p1 against segment 2's box
        have h3 : cross_product p2 q2 p1 = 0 := by
          rcases hsome with h | h | h | h
          · exact absurd h h1
          · exact absurd h h2
          · exact h
          · exact absurd h h4
        rw [do_intersect_iff, rel_eval_mixed_o3 ⟨p1, q1⟩ ⟨p2, q2⟩ h1 h2 h3 h4]
        simp only [h3, lt_self_iff_false, false_and, and_false, false_or, or_false,
          eq_self_iff_true, true_and, h1, h2, h4]
        rw [ite_classify_ne_none]

/-- The non-degenerate equivalence between the boolean fast path and the
five-way classifier: `do_intersect` holds iff the classification is not `None`. -/
theorem do_intersect_iff_rel_ne_none (s1 s2 : Segment α)
    (hnd1 : s1.fst ≠ s1.snd) (hnd2 : s2.fst ≠ s2.snd) :
    (do_intersect s1 s2 = true ↔
      relationship_between_segments s1 s2 ≠ IntersectionType.none) := by
  rcases eq_or_ne (cross_product s1.fst s1.snd s2.fst) 0 with h1 | h1
  · rcases eq_or_ne (cross_product s1.fst s1.snd s2.snd) 0 with h2 | h2
    · exact collinear_branch_equiv s1 s2 hnd1 h1 h2
    · exact mixed_branch_equiv s1 s2 hnd1 hnd2 (fun h => h2 h.2) (Or.inl h1)
  · rcases eq_or_ne (cross_product s1.fst s1.snd s2.snd) 0 with h2 | h2
    · exact mixed_branch_equiv s1 s2 hnd1 hnd2 (fun h => h1 h.1) (Or.inr (Or.inl h2))
    · rcases eq_or_ne (cross_product s2.fst s2.snd s1.fst) 0 with h3 | h3
      · exact mixed_branch_equiv s1 s2 hnd1 hnd2 (fun h => h1 h.1)
          (Or.inr (Or.inr (Or.inl h3)))
      · rcases eq_or_ne (cross_product s2.fst s2.snd s1.snd) 0 with h4 | h4
        · exact mixed_branch_equiv s1 s2 hnd1 hnd2 (fun h => h1 h.1)
            (Or.inr (Or.inr (Or.inr h4)))
        · exact nonzero_branch_equiv s1 s2 h1 h2 h3 h4

-- Symmetry of the classifier for non-degenerate segments.

theorem classifySorted_comm (A B : PPoint α × PPoint α)
    (hAlt : lexLt A.1 A.2) (hBlt : lexLt B.1 B.2) :
    classifySorted A B = classifySorted B A := by
  by_cases h : lexLt B.1 A.1
  · rw [classifySorted_eval_lt A B h,
      classifySorted_eval_ge B A (lexLe_iff_not_lexLt.1 (lexLe_of_lexLt h))]
  · by_cases h2 : lexLt A.1 B.1
    · rw [classifySorted_eval_ge A B h, classifySorted_eval_lt B A h2]
    · have heq : A.1 = B.1 :=
        lexLe_antisymm (lexLe_iff_not_lexLt.2 h) (lexLe_iff_not_lexLt.2 h2)
      rw [classifySorted_eval_ge A B h, classifySorted_eval_ge B A h2]
      rw [if_pos (heq ▸ hAlt), if_pos (heq ▸ hBlt)]

theorem rel_symm_nonzero_aux {a b c d : α} :
    ((a > 0 ∧ b > 0) ∨ (a < 0 ∧ b < 0) ∨ (c > 0 ∧ d > 0) ∨ (c < 0 ∧ d < 0)) ↔
    ((c > 0 ∧ d > 0) ∨ (c < 0 ∧ d < 0) ∨ (a > 0 ∧ b > 0) ∨ (a < 0 ∧ b < 0)) := by
  tauto

/-- `relationship(a, b) = relationship(b, a)` for non-degenerate segments. -/
theorem rel_symm (s1 s2 : Segment α)
    (hnd1 : s1.fst ≠ s1.snd) (hnd2 : s2.fst ≠ s2.snd) :
    relationship_between_segments s1 s2 = relationship_between_segments s2 s1 := by
  obtain ⟨p1, q1⟩ := s1
  obtain ⟨p2, q2⟩ := s2
  simp only at hnd1 hnd2
  rcases eq_or_ne (cross_product p1 q1 p2) 0 with h1 | h1 <;>
    rcases eq_or_ne (cross_product p1 q1 q2) 0 with h2 | h2
  · -- collinear branch on both sides
    obtain ⟨h3, h4⟩ := collinear_transfer hnd1 h1 h2
    rw [rel_eval_collinear ⟨p1, q1⟩ ⟨p2, q2⟩ h1 h2,
      rel_eval_collinear ⟨p2, q2⟩ ⟨p1, q1⟩ h3 h4]
    unfold collinearClassify
    refine classifySorted_comm _ _ ?_ ?_
    · rcases lexLe_iff_lt_or_eq.1 (sortPair_le p1 q1) with h | h
      · exact h
      · exact absurd h (sortPair_ne hnd1)
    · rcases lexLe_iff_lt_or_eq.1 (sortPair_le p2 q2) with h | h
      · exact h
      · exact absurd h (sortPair_ne hnd2)
  · -- o1 = 0, o2 ≠ 0
    rcases eq_or_ne (cross_product p2 q2 p1) 0 with h3 | h3
    · -- shared endpoint p2 = p1
      have h4 : cross_product p2 q2 q1 ≠ 0 := by
        intro h4
        rcases collinear_transfer hnd2 h3 h4 with ⟨ha, hb⟩
        exact h2 hb
      have hpp : p2 = p1 := shared_endpoint_of_zeros (Or.inl rfl) h1 h2 h3
      rw [rel_eval_mixed_o1 ⟨p1, q1⟩ ⟨p2, q2⟩ h1 h2,
        rel_eval_mixed_o1 ⟨p2, q2⟩ ⟨p1, q1⟩ h3 h4]
      simp only [hpp]
      simp [fst_mem_own_box]
    · rcases eq_or_ne (cross_product p2 q2 q1) 0 with h4 | h4
      · -- shared endpoint p2 = q1
        have hpp : p2 = q1 := shared_endpoint_of_zeros (Or.inr rfl) h1 h2 h4
        rw [rel_eval_mixed_o1 ⟨p1, q1⟩ ⟨p2, q2⟩ h1 h2,
          rel_eval_mixed_o2 ⟨p2, q2⟩ ⟨p1, q1⟩ h3 h4]
        simp only [hpp]
        simp [snd_mem_own_box, fst_mem_own_box]
      · -- only o1 vanishes
        rw [rel_eval_mixed_o1 ⟨p1, q1⟩ ⟨p2, q2⟩ h1 h2,
          rel_eval_mixed_o3 ⟨p2, q2⟩ ⟨p1, q1⟩ h3 h4 h1 h2]
  · -- o2 = 0, o1 ≠ 0
    rcases eq_or_ne (cross_product p2 q2 p1) 0 with h3 | h3
    · -- shared endpoint q2 = p1
      have h4 : cross_product p2 q2 q1 ≠ 0 := by
        intro h4
        rcases collinear_transfer hnd2 h3 h4 with ⟨ha, hb⟩
        exact h1 ha
      have hpp : q2 = p1 := by
        refine shared_endpoint_of_zeros (Or.inl rfl) h2 h1 ?_
        rw [cross_product_swap01, neg_eq_zero]
        exact h3
      rw [rel_eval_mixed_o2 ⟨p1, q1⟩ ⟨p2, q2⟩ h1 h2,
        rel_eval_mixed_o1 ⟨p2, q2⟩ ⟨p1, q1⟩ h3 h4]
      simp only [hpp]
      simp [fst_mem_own_box, snd_mem_own_box]
    · rcases eq_or_ne (cross_product p2 q2 q1) 0 with h4 | h4
      · -- shared endpoint q2 = q1
        have hpp : q2 = q1 := by
          refine shared_endpoint_of_zeros (Or.inr rfl) h2 h1 ?_
          rw [cross_product_swap01, neg_eq_zero]
          exact h4
        rw [rel_eval_mixed_o2 ⟨p1, q1⟩ ⟨p2, q2⟩ h1 h2,
          rel_eval_mixed_o2 ⟨p2, q2⟩ ⟨p1, q1⟩ h3 h4]
        simp only [hpp]
        simp [snd_mem_own_box]
      · -- only o2 vanishes
        rw [rel_eval_mixed_o2 ⟨p1, q1⟩ ⟨p2, q2⟩ h1 h2,
          rel_eval_mixed_o4 ⟨p2, q2⟩ ⟨p1, q1⟩ h3 h4 h2]
  · -- o1 ≠ 0, o2 ≠ 0
    rcases eq_or_ne (cross_product p2 q2 q1) 0 with h4 | h4
    · have h3 : cross_product p2 q2 p1 ≠ 0 := by
        intro h3
        rcases collinear_transfer hnd2 h3 h4 with ⟨ha, hb⟩
        exact h1 ha
      rw [rel_eval_mixed_o4 ⟨p1, q1⟩ ⟨p2, q2⟩ h1 h2 h4,
        rel_eval_mixed_o2 ⟨p2, q2⟩ ⟨p1, q1⟩ h3 h4]
    · rcases eq_or_ne (cross_product p2 q2 p1) 0 with h3 | h3
      · rw [rel_eval_mixed_o3 ⟨p1, q1⟩ ⟨p2, q2⟩ h1 h2 h3 h4,
          rel_eval_mixed_o1 ⟨p2, q2⟩ ⟨p1, q1⟩ h3 h4]
      · rw [rel_eval_nonzero ⟨p1, q1⟩ ⟨p2, q2⟩ h1 h2 h3 h4,
          rel_eval_nonzero ⟨p2, q2⟩ ⟨p1, q1⟩ h3 h4 h1 h2]
        exact if_congr rel_symm_nonzero_aux rfl rfl

theorem rel_swap_nonzero_aux {a b c d : α} :
    ((-a > 0 ∧ -b > 0) ∨ (-a < 0 ∧ -b < 0) ∨ (d > 0 ∧ c > 0) ∨ (d < 0 ∧ c < 0)) ↔
    ((a > 0 ∧ b > 0) ∨ (a < 0 ∧ b < 0) ∨ (c > 0 ∧ d > 0) ∨ (c < 0 ∧ d < 0)) := by
  simp only [neg_pos, neg_lt_zero]
  tauto

/-- Swapping the first segment's endpoints does not change the classification
(non-degenerate segments). -/
theorem rel_swap_fst (s1 s2 : Segment α) (hnd2 : s2.fst ≠ s2.snd) :
    relationship_between_segments ⟨s1.snd, s1.fst⟩ s2 =
      relationship_between_segments s1 s2 := by
  obtain ⟨p1, q1⟩ := s1
  obtain ⟨p2, q2⟩ := s2
  simp only at hnd2 ⊢
  have e1 : cross_product q1 p1 p2 = -cross_product p1 q1 p2 := cross_product_swap01 q1 p1 p2
  have e2 : cross_product q1 p1 q2 = -cross_product p1 q1 q2 := cross_product_swap01 q1 p1 q2
  rcases eq_or_ne (cross_product p1 q1 p2) 0 with h1 | h1 <;>
    rcases eq_or_ne (cross_product p1 q1 q2) 0 with h2 | h2
  · -- collinear branch on both sides
    rw [rel_eval_collinear ⟨q1, p1⟩ ⟨p2, q2⟩ (by rw [e1, h1, neg_zero])
        (by rw [e2, h2, neg_zero]),
      rel_eval_collinear ⟨p1, q1⟩ ⟨p2, q2⟩ h1 h2]
    unfold collinearClassify
    rw [sortPair_swap]
  · -- o1 = 0 only among o1, o2
    rw [rel_eval_mixed_o1 ⟨q1, p1⟩ ⟨p2, q2⟩ (by rw [e1, h1, neg_zero])
        (by rw [e2]; exact neg_ne_zero.2 h2),
      rel_eval_mixed_o1 ⟨p1, q1⟩ ⟨p2, q2⟩ h1 h2]
    simp only [is_in_rectangle_comm p2 q1 p1]
    exact if_congr Iff.rfl (if_congr or_comm rfl rfl) rfl
  · -- o2 = 0 only among o1, o2
    rw [rel_eval_mixed_o2 ⟨q1, p1⟩ ⟨p2, q2⟩ (by rw [e1]; exact neg_ne_zero.2 h1)
        (by rw [e2, h2, neg_zero]),
      rel_eval_mixed_o2 ⟨p1, q1⟩ ⟨p2, q2⟩ h1 h2]
    simp only [is_in_rectangle_comm q2 q1 p1]
    exact if_congr Iff.rfl (if_congr or_comm rfl rfl) rfl
  · -- o1 ≠ 0, o2 ≠ 0: some of o3, o4 is zero or none
    rcases eq_or_ne (cross_product p2 q2 q1) 0 with h4 | h4
    · have h3 : cross_product p2 q2 p1 ≠ 0 := by
        intro h3
        rcases collinear_transfer hnd2 h3 h4 with ⟨ha, hb⟩
        exact h1 ha
      rw [rel_eval_mixed_o3 ⟨q1, p1⟩ ⟨p2, q2⟩ (by rw [e1]; exact neg_ne_zero.2 h1)
          (by rw [e2]; exact neg_ne_zero.2 h2) h4 h3,
        rel_eval_mixed_o4 ⟨p1, q1⟩ ⟨p2, q2⟩ h1 h2 h4]
    · rcases eq_or_ne (cross_product p2 q2 p1) 0 with h3 | h3
      · rw [rel_eval_mixed_o4 ⟨q1, p1⟩ ⟨p2, q2⟩ (by rw [e1]; exact neg_ne_zero.2 h1)
            (by rw [e2]; exact neg_ne_zero.2 h2) h3,
          rel_eval_mixed_o3 ⟨p1, q1⟩ ⟨p2, q2⟩ h1 h2 h3 h4]
      · rw [rel_eval_nonzero ⟨q1, p1⟩ ⟨p2, q2⟩ (by rw [e1]; exact neg_ne_zero.2 h1)
            (by rw [e2]; exact neg_ne_zero.2 h2) h4 h3,
          rel_eval_nonzero ⟨p1, q1⟩ ⟨p2, q2⟩ h1 h2 h3 h4]
        simp only [e1, e2]
        exact if_congr rel_swap_nonzero_aux rfl rfl

/-- Swapping the second segment's endpoints does not change the classification
(non-degenerate segments). -/
theorem rel_swap_snd (s1 s2 : Segment α)
    (hnd1 : s1.fst ≠ s1.snd) (hnd2 : s2.fst ≠ s2.snd) :
    relationship_between_segments s1 ⟨s2.snd, s2.fst⟩ =
      relationship_between_segments s1 s2 := by
  have hnd2' : (Segment.mk s2.snd s2.fst).fst ≠ (Segment.mk s2.snd s2.fst).snd :=
    fun h => hnd2 h.symm
  rw [rel_symm s1 ⟨s2.snd, s2.fst⟩ hnd1 hnd2', rel_swap_fst s2 s1 hnd1,
    rel_symm s2 s1 hnd2 hnd1]

end GeometryLemmas

-- Sanity checks replicating the unit tests of `plane::line` (integer instances).

theorem do_intersect_unit_tests :
    do_intersect (Segment.mk ((1:ℤ),1) (5,5)) (Segment.mk (2,2) (6,6)) = true ∧
    do_intersect (Segment.mk ((1:ℤ),1) (5,5)) (Segment.mk (3,1) (1,3)) = true ∧
    do_intersect (Segment.mk ((1:ℤ),1) (5,5)) (Segment.mk (5,5) (5,8)) = true ∧
    do_intersect (Segment.mk ((1:ℤ),1) (5,5)) (Segment.mk (2,3) (6,7)) = false ∧
    do_intersect (Segment.mk ((1:ℤ),1) (5,5)) (Segment.mk (2,2) (3,3)) = true ∧
    do_intersect (Segment.mk ((1:ℤ),1) (5,5)) (Segment.mk (6,6) (10,10)) = false ∧
    do_intersect (Segment.mk ((1:ℤ),1) (5,5)) (Segment.mk (5,5) (10,10)) = true := by
  decide

theorem relationship_unit_tests :
    relationship_between_segments (Segment.mk ((1:ℤ),1) (5,5)) (Segment.mk (0,2) (0,4)) =
      IntersectionType.none ∧
    relationship_between_segments (Segment.mk ((1:ℤ),1) (5,5)) (Segment.mk (6,6) (10,10)) =
      IntersectionType.none ∧
    relationship_between_segments (Segment.mk ((1:ℤ),1) (5,5)) (Segment.mk (5,5) (6,6)) =
      IntersectionType.mutualEndpoint ∧
    relationship_between_segments (Segment.mk ((1:ℤ),1) (5,5)) (Segment.mk (2,5) (4,1)) =
      IntersectionType.proper ∧
    relationship_between_segments (Segment.mk ((1:ℤ),1) (2,2)) (Segment.mk (0,0) (3,3)) =
      IntersectionType.collinear ∧
    relationship_between_segments (Segment.mk ((1:ℤ),1) (5,5)) (Segment.mk (2,2) (4,4)) =
      IntersectionType.collinear ∧
    relationship_between_segments (Segment.mk ((1:ℤ),1) (5,5)) (Segment.mk (2,2) (6,6)) =
      IntersectionType.collinear ∧
    relationship_between_segments (Segment.mk ((0:ℤ),0) (1,1)) (Segment.mk (0,0) (2,2)) =
      IntersectionType.collinear ∧
    relationship_between_segments (Segment.mk ((0:ℤ),0) (1,1)) (Segment.mk (1,1) (0,1)) =
      IntersectionType.mutualEndpoint ∧
    relationship_between_segments (Segment.mk ((0:ℤ),0) (4,0)) (Segment.mk (4,5) (4,1)) =
      IntersectionType.none ∧
    relationship_between_segments (Segment.mk ((0:ℤ),0) (0,1)) (Segment.mk (1,0) (0,0)) =
      IntersectionType.mutualEndpoint ∧
    relationship_between_segments (Segment.mk ((0:ℤ),1) (0,0)) (Segment.mk (-1,0) (2,0)) =
      IntersectionType.oneSided := by
  decide

/-! ## Claim C3 -/

/-- C3 counterexample: the claimed equivalence between `do_intersect` and
`relationship_between_segments ≠ None` fails for a degenerate (zero-length)
segment lying off the other segment's line: the classifier reports
`Collinear` (its collinear branch triggers because both orientations of a
point-segment vanish identically), yet `do_intersect` is `false`. -/
theorem c3_counterexample :
    do_intersect (Segment.mk ((0:ℤ), 5) (0, 5)) (Segment.mk (-1, 0) (1, 0)) = false ∧
    relationship_between_segments (Segment.mk ((0:ℤ), 5) (0, 5)) (Segment.mk (-1, 0) (1, 0)) =
      IntersectionType.collinear ∧
    IntersectionType.collinear ≠ IntersectionType.none := by
  decide

/-- C3 (amended): for segments with distinct endpoints (both non-degenerate),
`do_intersect(a, b)` returns true if and only if
`relationship_between_segments(a, b)` is one of Proper, Collinear, OneSided,
or MutualEndpoint — that is, `do_intersect` is false exactly when the full
classification is `None`. -/
theorem c3_amended {α : Type} [LinearOrderedCommRing α] (s1 s2 : Segment α)
    (hnd1 : s1.fst ≠ s1.snd) (hnd2 : s2.fst ≠ s2.snd) :
    (do_intersect s1 s2 = true ↔
      relationship_between_segments s1 s2 ≠ IntersectionType.none) :=
  do_intersect_iff_rel_ne_none s1 s2 hnd1 hnd2

/-- Witness for C3 (amended) at a concrete input. -/
theorem c3_witness :
    ((Segment.mk ((1:ℤ), 1) (5, 5)).fst ≠ (Segment.mk ((1:ℤ), 1) (5, 5)).snd) ∧
    ((Segment.mk ((3:ℤ), 1) (1, 3)).fst ≠ (Segment.mk ((3:ℤ), 1) (1, 3)).snd) ∧
    (do_intersect (Segment.mk ((1:ℤ), 1) (5, 5)) (Segment.mk (3, 1) (1, 3)) = true ↔
      relationship_between_segments (Segment.mk ((1:ℤ), 1) (5, 5)) (Segment.mk (3, 1) (1, 3)) ≠
        IntersectionType.none) :=
  ⟨by decide, by decide,
    c3_amended (Segment.mk ((1:ℤ), 1) (5, 5)) (Segment.mk (3, 1) (1, 3))
      (by decide) (by decide)⟩

/-! ## Claim C6 -/

/-- C6 counterexample: the segments `(0,0)-(5,5)` and `(2,2)-(5,5)` are
collinear and share exactly one endpoint, `(5,5)` (the other endpoints are
not shared), yet the classifier reports `Collinear`, not `MutualEndpoint`. -/
theorem c6_counterexample :
    (Segment.mk ((0:ℤ), 0) (5, 5)).snd = (Segment.mk ((2:ℤ), 2) (5, 5)).snd ∧
    (Segment.mk ((0:ℤ), 0) (5, 5)).fst ≠ (Segment.mk ((2:ℤ), 2) (5, 5)).fst ∧
    (Segment.mk ((0:ℤ), 0) (5, 5)).fst ≠ (Segment.mk ((2:ℤ), 2) (5, 5)).snd ∧
    (Segment.mk ((2:ℤ), 2) (5, 5)).fst ≠ (Segment.mk ((0:ℤ), 0) (5, 5)).snd ∧
    cross_product ((0:ℤ), 0) (5, 5) (2, 2) = 0 ∧
    cross_product ((0:ℤ), 0) (5, 5) (5, 5) = 0 ∧
    relationship_between_segments (Segment.mk ((0:ℤ), 0) (5, 5)) (Segment.mk (2, 2) (5, 5)) =
      IntersectionType.collinear := by
  decide

/-- C6 (amended): in the `o1 = o2 = 0` branch the classifier normalizes each
segment to `p ≤ q`, orders the segments by start point, and returns Collinear
if the second start is strictly before the first end, MutualEndpoint if they
are exactly equal, and None otherwise.  Consequently two collinear segments
that share exactly one endpoint *and overlap nowhere else* (in normalized
order `a < b ≤ c` with `b` the shared endpoint) classify as MutualEndpoint;
a collinear pair sharing an endpoint but overlapping classifies as Collinear
instead. -/
theorem c6_amended {α : Type} [LinearOrderedCommRing α] :
    (∀ s1 s2 : Segment α,
      cross_product s1.fst s1.snd s2.fst = 0 →
      cross_product s1.fst s1.snd s2.snd = 0 →
      relationship_between_segments s1 s2 =
        classifySorted (sortPair s1.fst s1.snd) (sortPair s2.fst s2.snd)) ∧
    (∀ a b c : PPoint α, cross_product a b c = 0 → lexLt a b → lexLe b c →
      relationship_between_segments (Segment.mk a b) (Segment.mk b c) =
        IntersectionType.mutualEndpoint) := by
  constructor
  · intro s1 s2 h1 h2
    exact rel_eval_collinear s1 s2 h1 h2
  · intro a b c hc hab hbc
    have h1 : cross_product a b b = 0 := cross_product_self a b
    have h2 : cross_product a b c = 0 := hc
    rw [rel_eval_collinear (Segment.mk a b) (Segment.mk b c) h1 h2]
    unfold collinearClassify sortPair
    rw [if_neg (lexLe_iff_not_lexLt.1 (lexLe_of_lexLt hab)),
      if_neg (lexLe_iff_not_lexLt.1 hbc)]
    rw [classifySorted_eval_ge ((a, b) : PPoint α × PPoint α) ((b, c) : PPoint α × PPoint α)
      (lexLe_iff_not_lexLt.1 (lexLe_of_lexLt hab))]
    simp [lexLt_irrefl]

/-- Witness for C6 (amended) at concrete inputs. -/
theorem c6_witness :
    (relationship_between_segments (Segment.mk ((1:ℤ), 1) (5, 5)) (Segment.mk (2, 2) (6, 6)) =
      classifySorted (sortPair ((1:ℤ), 1) (5, 5)) (sortPair ((2:ℤ), 2) (6, 6))) ∧
    (relationship_between_segments (Segment.mk ((1:ℤ), 1) (5, 5)) (Segment.mk (5, 5) (6, 6)) =
      IntersectionType.mutualEndpoint) :=
  ⟨(c6_amended (α := ℤ)).1 (Segment.mk (1, 1) (5, 5)) (Segment.mk (2, 2) (6, 6))
      (by decide) (by decide),
    (c6_amended (α := ℤ)).2 (1, 1) (5, 5) (6, 6) (by decide) (by decide) (by decide)⟩

/-! ## Claim C8 -/

/-- C8 counterexample: argument-order invariance fails for a degenerate
(zero-length) segment: the point-segment `(0,5)-(0,5)` against
`(-1,0)-(1,0)` classifies as `Collinear`, but with the arguments exchanged
the classification is `None`. -/
theorem c8_counterexample :
    relationship_between_segments (Segment.mk ((0:ℤ), 5) (0, 5)) (Segment.mk (-1, 0) (1, 0)) =
      IntersectionType.collinear ∧
    relationship_between_segments (Segment.mk ((-1:ℤ), 0) (1, 0)) (Segment.mk (0, 5) (0, 5)) =
      IntersectionType.none ∧
    IntersectionType.collinear ≠ IntersectionType.none := by
  decide

/-- C8 (amended): for segments with distinct endpoints (both non-degenerate),
`relationship_between_segments` is invariant under argument order and under
swapping either segment's own endpoints. -/
theorem c8_amended {α : Type} [LinearOrderedCommRing α] (s1 s2 : Segment α)
    (hnd1 : s1.fst ≠ s1.snd) (hnd2 : s2.fst ≠ s2.snd) :
    relationship_between_segments s1 s2 = relationship_between_segments s2 s1 ∧
    relationship_between_segments (Segment.mk s1.snd s1.fst) s2 =
      relationship_between_segments s1 s2 ∧
    relationship_between_segments s1 (Segment.mk s2.snd s2.fst) =
      relationship_between_segments s1 s2 :=
  ⟨rel_symm s1 s2 hnd1 hnd2, rel_swap_fst s1 s2 hnd2, rel_swap_snd s1 s2 hnd1 hnd2⟩

/-- Witness for C8 (amended) at a concrete input. -/
theorem c8_witness :
    ((Segment.mk ((1:ℤ), 1) (5, 5)).fst ≠ (Segment.mk ((1:ℤ), 1) (5, 5)).snd) ∧
    ((Segment.mk ((2:ℤ), 5) (4, 1)).fst ≠ (Segment.mk ((2:ℤ), 5) (4, 1)).snd) ∧
    (relationship_between_segments (Segment.mk ((1:ℤ), 1) (5, 5)) (Segment.mk (2, 5) (4, 1)) =
      relationship_between_segments (Segment.mk ((2:ℤ), 5) (4, 1)) (Segment.mk (1, 1) (5, 5)) ∧
     relationship_between_segments (Segment.mk ((5:ℤ), 5) (1, 1)) (Segment.mk (2, 5) (4, 1)) =
      relationship_between_segments (Segment.mk ((1:ℤ), 1) (5, 5)) (Segment.mk (2, 5) (4, 1)) ∧
     relationship_between_segments (Segment.mk ((1:ℤ), 1) (5, 5)) (Segment.mk (4, 1) (2, 5)) =
      relationship_between_segments (Segment.mk ((1:ℤ), 1) (5, 5)) (Segment.mk (2, 5) (4, 1))) :=
  ⟨by decide, by decide,
    c8_amended (Segment.mk ((1:ℤ), 1) (5, 5)) (Segment.mk (2, 5) (4, 1))
      (by decide) (by decide)⟩

/-!
## The nearest-points crate: `min_distance2`

The generic coordinate type with its `UpperBounded` trait is embedded by an
explicit parameter `M` for `max_value()` (`i64::MAX` and `f64::MAX` in the
provided instances).
-/

section NearestPoints

variable {α : Type} [LinearOrderedCommRing α]

/-- The squared Euclidean distance computed inline by the crate. -/
def dist2 (p q : PPoint α) : α :=
  (p.1 - q.1) * (p.1 - q.1) + (p.2 - q.2) * (p.2 - q.2)

/-- `if dist < dist_min { dist_min = dist }`. -/
def updMin (d x : α) : α := if x < d then x else d

/-- The inner loop of the brute-force base case: fold the update over the
later points. -/
def scanPairsInner (p : PPoint α) (qs : List (PPoint α)) (d : α) : α :=
  qs.foldl (fun d q => updMin d (dist2 p q)) d

/-- The brute-force base case: all pairs `(i, j)` with `i < j`, in order. -/
def scanPairs : List (PPoint α) → α → α
  | [], d => d
  | p :: rest, d => scanPairs rest (scanPairsInner p rest d)

/-- Sort key of the base case's re-sort and of the strip: the y-coordinate. -/
def yLe (p q : PPoint α) : Prop := p.2 ≤ q.2

instance (p q : PPoint α) : Decidable (yLe p q) := by unfold yLe; infer_instance

instance : IsTotal (PPoint α) yLe := ⟨fun a b => le_total a.2 b.2⟩

instance : IsTrans (PPoint α) yLe := ⟨fun a b c h1 h2 => le_trans h1 h2⟩

instance : IsTotal (PPoint α) lexLe := ⟨lexLe_total⟩

instance : IsTrans (PPoint α) lexLe := ⟨fun a b c h1 h2 => lexLe_trans h1 h2⟩

/-- `merge_by_y`: linear merge of two y-sorted lists (ties take the right). -/
def merge_by_y : List (PPoint α) → List (PPoint α) → List (PPoint α)
  | [], r => r
  | l, [] => l
  | a :: ls, b :: rs =>
    if a.2 < b.2 then a :: merge_by_y ls (b :: rs) else b :: merge_by_y (a :: ls) rs
termination_by l r => l.length + r.length

/-- The inner strip loop: walk the already-kept points `tmp` from the most
recent backwards, stopping when the y-gap squared reaches the current
minimum. -/
def stripInner (p : PPoint α) : List (PPoint α) → α → α
  | [], d => d
  | q :: qs, d =>
    if (p.2 - q.2) * (p.2 - q.2) ≥ d then d
    else stripInner p qs (updMin d (dist2 p q))

/-- The strip scan over the merged list: skip points far from the split line
in x, otherwise compare against the kept stack and push. `tmp` keeps the
most recently kept point first, matching `tmp.iter().rev()`. -/
def stripScan (xmid : α) : List (PPoint α) → List (PPoint α) → α → α
  | [], _tmp, d => d
  | p :: rest, tmp, d =>
    if (p.1 - xmid) * (p.1 - xmid) ≥ d then stripScan xmid rest tmp d
    else stripScan xmid rest (p :: tmp) (stripInner p tmp d)

/-- `min_distance2_inner`: divide and conquer on an x-sorted slice; returns
the slice re-sorted by y together with the minimal squared distance found
(starting from `max_value`). -/
def min_distance2_inner (M : α) (ps : List (PPoint α)) : List (PPoint α) × α :=
  if _h : ps.length ≤ 3 then
    (List.insertionSort yLe ps, scanPairs ps M)
  else
    let mid := ps.length / 2
    let xmid := (ps.getD mid (0, 0)).1
    let left := min_distance2_inner M (ps.take mid)
    let right := min_distance2_inner M (ps.drop mid)
    let d0 := if left.2 < right.2 then left.2 else right.2
    let merged := merge_by_y left.1 right.1
    (merged, stripScan xmid merged [] d0)
termination_by ps.length
decreasing_by
  · simp only [List.length_take]
    omega
  · simp only [List.length_drop]
    omega

/-- `min_distance2`: sort by x (ties by y), then run the inner solver. -/
def min_distance2 (M : α) (ps : List (PPoint α)) : α :=
  (min_distance2_inner M (List.insertionSort lexLe ps)).2

/-- Occurrence count of a point in a list. -/
def cntP (a : PPoint α) : List (PPoint α) → ℕ
  | [] => 0
  | x :: l => (if x = a then 1 else 0) + cntP a l

/-- Two points at distinct positions of `l` (an unordered pair of distinct
indices): either two distinct values both present, or a value present at
least twice. -/
def PairIn (a b : PPoint α) (l : List (PPoint α)) : Prop :=
  if a = b then 2 ≤ cntP a l else a ∈ l ∧ b ∈ l

instance (a b : PPoint α) (l : List (PPoint α)) : Decidable (PairIn a b l) := by
  unfold PairIn; infer_instance

end NearestPoints

section NearestPointsLemmas

variable {α : Type} [LinearOrderedCommRing α]

theorem dist2_comm (a b : PPoint α) : dist2 a b = dist2 b a := by
  unfold dist2; ring

theorem dx2_le_dist2 (a b : PPoint α) : (a.1 - b.1) * (a.1 - b.1) ≤ dist2 a b := by
  unfold dist2
  nlinarith [mul_self_nonneg (a.2 - b.2)]

theorem dy2_le_dist2 (a b : PPoint α) : (a.2 - b.2) * (a.2 - b.2) ≤ dist2 a b := by
  unfold dist2
  nlinarith [mul_self_nonneg (a.1 - b.1)]

theorem updMin_le_left (d x : α) : updMin d x ≤ d := by
  unfold updMin
  split_ifs with h
  · exact le_of_lt h
  · exact le_refl d

theorem updMin_le_right (d x : α) : updMin d x ≤ x := by
  unfold updMin
  split_ifs with h
  · exact le_refl x
  · exact not_lt.1 h

theorem updMin_cases (d x : α) : updMin d x = d ∨ updMin d x = x := by
  unfold updMin
  split_ifs <;> [exact Or.inr rfl; exact Or.inl rfl]

theorem scanPairsInner_le (p : PPoint α) (qs : List (PPoint α)) (d : α) :
    scanPairsInner p qs d ≤ d := by
  induction qs generalizing d with
  | nil => exact le_refl d
  | cons q qs ih =>
    unfold scanPairsInner at ih ⊢
    simp only [List.foldl_cons]
    exact le_trans (ih (updMin d (dist2 p q))) (updMin_le_left d _)

theorem scanPairsInner_le_mem (p : PPoint α) (qs : List (PPoint α)) :
    ∀ d : α, ∀ q ∈ qs, scanPairsInner p qs d ≤ dist2 p q := by
  induction qs with
  | nil =>
    intro d q hq
    cases hq
  | cons r qs ih =>
    intro d q hq
    unfold scanPairsInner at ih ⊢
    simp only [List.foldl_cons]
    rcases List.mem_cons.1 hq with rfl | hq
    · exact le_trans (scanPairsInner_le p qs _) (updMin_le_right d _)
    · exact ih _ q hq

theorem scanPairsInner_cases (p : PPoint α) (qs : List (PPoint α)) :
    ∀ d : α, scanPairsInner p qs d = d ∨ ∃ q ∈ qs, scanPairsInner p qs d = dist2 p q := by
  induction qs with
  | nil =>
    intro d
    exact Or.inl rfl
  | cons r qs ih =>
    intro d
    unfold scanPairsInner at ih ⊢
    simp only [List.foldl_cons]
    rcases ih (updMin d (dist2 p r)) with h | ⟨q, hq, h⟩
    · rw [h]
      rcases updMin_cases d (dist2 p r) with h2 | h2
      · exact Or.inl h2
      · exact Or.inr ⟨r, List.mem_cons_self r qs, h2⟩
    · exact Or.inr ⟨q, List.mem_cons_of_mem r hq, h⟩

theorem scanPairs_le (l : List (PPoint α)) : ∀ d : α, scanPairs l d ≤ d := by
  induction l with
  | nil =>
    intro d
    exact le_refl d
  | cons p rest ih =>
    intro d
    unfold scanPairs
    exact le_trans (ih _) (scanPairsInner_le p rest d)

-- Facts about the occurrence counter and distinct-position pairs.

theorem cntP_append (a : PPoint α) (l₁ l₂ : List (PPoint α)) :
    cntP a (l₁ ++ l₂) = cntP a l₁ + cntP a l₂ := by
  induction l₁ with
  | nil => simp [cntP]
  | cons x l₁ ih =>
    simp only [List.cons_append, cntP, List.append_eq]
    rw [ih]
    omega

theorem cntP_singleton (a p : PPoint α) : cntP a [p] = if p = a then 1 else 0 := by
  simp [cntP]

theorem cntP_pos_iff_mem (a : PPoint α) (l : List (PPoint α)) : 1 ≤ cntP a l ↔ a ∈ l := by
  induction l with
  | nil => simp [cntP]
  | cons x l ih =>
    simp only [cntP, List.mem_cons]
    split_ifs with h
    · subst h
      constructor
      · intro _
        exact Or.inl rfl
      · intro _
        omega
    · rw [Nat.zero_add, ih]
      constructor
      · intro h2
        exact Or.inr h2
      · rintro (rfl | h2)
        · exact absurd rfl h
        · exact h2

theorem cntP_perm (a : PPoint α) {l l' : List (PPoint α)} (hp : l.Perm l') :
    cntP a l = cntP a l' := by
  induction hp with
  | nil => rfl
  | cons x _hp ih => simp [cntP, ih]
  | swap x y l => simp [cntP]; omega
  | trans _h1 _h2 ih1 ih2 => exact ih1.trans ih2

theorem pairIn_comm {a b : PPoint α} {l : List (PPoint α)} (h : PairIn a b l) :
    PairIn b a l := by
  unfold PairIn at h ⊢
  by_cases hab : a = b
  · subst hab
    simpa using h
  · rw [if_neg hab] at h
    rw [if_neg (fun h' => hab h'.symm)]
    exact ⟨h.2, h.1⟩

theorem pairIn_cons_of {a b p : PPoint α} {l : List (PPoint α)} (h : PairIn a b l) :
    PairIn a b (p :: l) := by
  unfold PairIn at h ⊢
  by_cases hab : a = b
  · rw [if_pos hab] at h ⊢
    simp only [cntP]
    omega
  · rw [if_neg hab] at h ⊢
    exact ⟨List.mem_cons_of_mem p h.1, List.mem_cons_of_mem p h.2⟩

theorem pairIn_head_mem {b : PPoint α} (p : PPoint α) {l : List (PPoint α)} (hb : b ∈ l) :
    PairIn p b (p :: l) := by
  unfold PairIn
  by_cases hab : p = b
  · rw [if_pos hab]
    subst hab
    have h1 : 1 ≤ cntP p l := (cntP_pos_iff_mem p l).2 hb
    have h2 : cntP p (p :: l) = 1 + cntP p l := by simp [cntP]
    rw [h2]
    omega
  · rw [if_neg hab]
    exact ⟨List.mem_cons_self p l, List.mem_cons_of_mem p hb⟩

theorem pairIn_perm {a b : PPoint α} {l l' : List (PPoint α)} (hp : l.Perm l') :
    PairIn a b l ↔ PairIn a b l' := by
  unfold PairIn
  rw [cntP_perm a hp]
  constructor <;> intro h <;> split_ifs at h ⊢ with hab
  · exact h
  · exact ⟨hp.mem_iff.1 h.1, hp.mem_iff.1 h.2⟩
  · exact h
  · exact ⟨hp.mem_iff.2 h.1, hp.mem_iff.2 h.2⟩

theorem pairIn_of_mem_mem {a b : PPoint α} {l₁ l₂ : List (PPoint α)}
    (ha : a ∈ l₁) (hb : b ∈ l₂) : PairIn a b (l₁ ++ l₂) := by
  unfold PairIn
  by_cases hab : a = b
  · rw [if_pos hab]
    subst hab
    rw [cntP_append]
    have h1 : 1 ≤ cntP a l₁ := (cntP_pos_iff_mem a l₁).2 ha
    have h2 : 1 ≤ cntP a l₂ := (cntP_pos_iff_mem a l₂).2 hb
    omega
  · rw [if_neg hab]
    exact ⟨List.mem_append_left _ ha, List.mem_append_right _ hb⟩

theorem pairIn_append_or {a b : PPoint α} {l₁ l₂ : List (PPoint α)}
    (h : PairIn a b (l₁ ++ l₂)) :
    PairIn a b l₁ ∨ PairIn a b l₂ ∨ (a ∈ l₁ ∧ b ∈ l₂) ∨ (b ∈ l₁ ∧ a ∈ l₂) := by
  unfold PairIn at h ⊢
  by_cases hab : a = b
  · subst hab
    rw [if_pos rfl] at h
    rw [cntP_append] at h
    simp only [if_pos rfl]
    by_cases h1 : 2 ≤ cntP a l₁
    · exact Or.inl h1
    · by_cases h2 : 2 ≤ cntP a l₂
      · exact Or.inr (Or.inl h2)
      · refine Or.inr (Or.inr (Or.inl ⟨?_, ?_⟩))
        · exact (cntP_pos_iff_mem a l₁).1 (by omega)
        · exact (cntP_pos_iff_mem a l₂).1 (by omega)
  · rw [if_neg hab] at h
    simp only [if_neg hab]
    rcases List.mem_append.1 h.1 with ha | ha <;> rcases List.mem_append.1 h.2 with hb | hb
    · exact Or.inl ⟨ha, hb⟩
    · exact Or.inr (Or.inr (Or.inl ⟨ha, hb⟩))
    · exact Or.inr (Or.inr (Or.inr ⟨hb, ha⟩))
    · exact Or.inr (Or.inl ⟨ha, hb⟩)

theorem pairIn_cons_or {a b p : PPoint α} {l : List (PPoint α)}
    (h : PairIn a b (p :: l)) :
    PairIn a b l ∨ (p = a ∧ b ∈ l) ∨ (p = b ∧ a ∈ l) := by
  have h' : PairIn a b ([p] ++ l) := by simpa using h
  rcases pairIn_append_or h' with h1 | h1 | ⟨h1, h2⟩ | ⟨h1, h2⟩
  · unfold PairIn at h1
    split_ifs at h1 with hab
    · rw [cntP_singleton] at h1
      split_ifs at h1 <;> omega
    · simp only [List.mem_singleton] at h1
      exact absurd (h1.1.trans h1.2.symm) hab
  · exact Or.inl h1
  · simp only [List.mem_singleton] at h1
    exact Or.inr (Or.inl ⟨h1.symm, h2⟩)
  · simp only [List.mem_singleton] at h1
    exact Or.inr (Or.inr ⟨h1.symm, h2⟩)

theorem pairIn_nil_elim {a b : PPoint α} (h : PairIn a b ([] : List (PPoint α))) : False := by
  unfold PairIn at h
  split_ifs at h with hab
  · simp [cntP] at h
  · exact absurd h.1 (List.not_mem_nil a)

theorem scanPairs_le_pair {a b : PPoint α} (l : List (PPoint α))
    (h : PairIn a b l) : ∀ d : α, scanPairs l d ≤ dist2 a b := by
  induction l with
  | nil => exact absurd h pairIn_nil_elim
  | cons p rest ih =>
    intro d
    unfold scanPairs
    rcases pairIn_cons_or h with h1 | ⟨rfl, hb⟩ | ⟨rfl, ha⟩
    · exact ih h1 _
    · exact le_trans (scanPairs_le rest _) (scanPairsInner_le_mem p rest d b hb)
    · rw [dist2_comm]
      exact le_trans (scanPairs_le rest _) (scanPairsInner_le_mem p rest d a ha)

theorem scanPairs_cases (l : List (PPoint α)) :
    ∀ d : α, scanPairs l d = d ∨ ∃ x y, PairIn x y l ∧ scanPairs l d = dist2 x y := by
  induction l with
  | nil =>
    intro d
    exact Or.inl rfl
  | cons p rest ih =>
    intro d
    unfold scanPairs
    rcases ih (scanPairsInner p rest d) with h | ⟨x, y, hxy, h⟩
    · rw [h]
      rcases scanPairsInner_cases p rest d with h2 | ⟨q, hq, h2⟩
      · exact Or.inl h2
      · exact Or.inr ⟨p, q, pairIn_head_mem p hq, h2⟩
    · exact Or.inr ⟨x, y, pairIn_cons_of hxy, h⟩

end NearestPointsLemmas

section NearestPointsLemmas2

variable {α : Type} [LinearOrderedCommRing α]

/-- `a` and `b` lie on opposite sides of the vertical split line. -/
def Opp (xmid : α) (a b : PPoint α) : Prop :=
  (a.1 ≤ xmid ∧ xmid ≤ b.1) ∨ (b.1 ≤ xmid ∧ xmid ≤ a.1)

theorem opp_symm {xmid : α} {a b : PPoint α} (h : Opp xmid a b) : Opp xmid b a := by
  rcases h with h | h
  · exact Or.inr h
  · exact Or.inl h

theorem opp_sq_le_dist2 {xmid : α} {a b : PPoint α} (h : Opp xmid a b) :
    (b.1 - xmid) * (b.1 - xmid) ≤ dist2 a b := by
  refine le_trans ?_ (dx2_le_dist2 a b)
  have key : (b.1 - xmid) * (b.1 - xmid) ≤ (a.1 - b.1) * (a.1 - b.1) := by
    rcases h with ⟨h1, h2⟩ | ⟨h1, h2⟩ <;> nlinarith
  exact key

theorem cntP_sublist_le (a : PPoint α) {l₁ l₂ : List (PPoint α)} (h : l₁.Sublist l₂) :
    cntP a l₁ ≤ cntP a l₂ := by
  induction h with
  | slnil => exact le_refl 0
  | cons x _h ih =>
    simp only [cntP]
    omega
  | cons₂ x _h ih =>
    simp only [cntP]
    omega

theorem pairIn_sublist {a b : PPoint α} {l₁ l₂ : List (PPoint α)}
    (hsub : l₁.Sublist l₂) (h : PairIn a b l₁) : PairIn a b l₂ := by
  unfold PairIn at h ⊢
  split_ifs at h ⊢ with hab
  · exact le_trans h (cntP_sublist_le a hsub)
  · exact ⟨hsub.mem h.1, hsub.mem h.2⟩

theorem sublist_pair_of_mem_ne {a b : PPoint α} {l : List (PPoint α)}
    (ha : a ∈ l) (hb : b ∈ l) (hab : a ≠ b) :
    [a, b].Sublist l ∨ [b, a].Sublist l := by
  induction l with
  | nil => cases ha
  | cons x l ih =>
    rcases List.mem_cons.1 ha with rfl | ha'
    · have hb' : b ∈ l := by
        rcases List.mem_cons.1 hb with rfl | hb'
        · exact absurd rfl hab
        · exact hb'
      exact Or.inl (List.Sublist.cons₂ a (List.singleton_sublist.2 hb'))
    · rcases List.mem_cons.1 hb with rfl | hb'
      · exact Or.inr (List.Sublist.cons₂ b (List.singleton_sublist.2 ha'))
      · rcases ih ha' hb' with h | h
        · exact Or.inl (h.cons x)
        · exact Or.inr (h.cons x)

theorem sublist_pair_of_two_le_cntP {a : PPoint α} {l : List (PPoint α)}
    (h : 2 ≤ cntP a l) : [a, a].Sublist l := by
  induction l with
  | nil => simp [cntP] at h
  | cons x l ih =>
    simp only [cntP] at h
    by_cases hx : x = a
    · subst hx
      rw [if_pos rfl] at h
      have h1 : 1 ≤ cntP x l := by omega
      exact List.Sublist.cons₂ x (List.singleton_sublist.2 ((cntP_pos_iff_mem x l).1 h1))
    · rw [if_neg hx] at h
      exact (ih (by omega)).cons x

-- The y-merge.

theorem merge_by_y_perm (l r : List (PPoint α)) : (merge_by_y l r).Perm (l ++ r) := by
  induction l, r using merge_by_y.induct with
  | case1 r => simp [merge_by_y]
  | case2 l h =>
    cases l with
    | nil => simp [merge_by_y]
    | cons a ls => simp [merge_by_y]
  | case3 a ls b rs hlt ih =>
    rw [merge_by_y, if_pos hlt]
    exact ih.cons a
  | case4 a ls b rs hlt ih =>
    rw [merge_by_y, if_neg hlt]
    exact (ih.cons b).trans List.perm_middle.symm

theorem merge_by_y_sorted {l r : List (PPoint α)}
    (hl : List.Pairwise yLe l) (hr : List.Pairwise yLe r) :
    List.Pairwise yLe (merge_by_y l r) := by
  induction l, r using merge_by_y.induct with
  | case1 r => simpa [merge_by_y] using hr
  | case2 l h =>
    cases l with
    | nil => simp [merge_by_y]
    | cons a ls => simpa [merge_by_y] using hl
  | case3 a ls b rs hlt ih =>
    rw [merge_by_y, if_pos hlt]
    rw [List.pairwise_cons] at hl ⊢
    refine ⟨?_, ih hl.2 hr⟩
    intro x hx
    have hx' : x ∈ ls ++ b :: rs := (merge_by_y_perm ls (b :: rs)).mem_iff.1 hx
    rcases List.mem_append.1 hx' with hx' | hx'
    · exact hl.1 x hx'
    · rcases List.mem_cons.1 hx' with rfl | hx'
      · exact le_of_lt hlt
      · rw [List.pairwise_cons] at hr
        exact le_trans (le_of_lt hlt) (hr.1 x hx')
  | case4 a ls b rs hlt ih =>
    rw [merge_by_y, if_neg hlt]
    rw [List.pairwise_cons] at hr ⊢
    refine ⟨?_, ih hl hr.2⟩
    intro x hx
    have hx' : x ∈ (a :: ls) ++ rs := (merge_by_y_perm (a :: ls) rs).mem_iff.1 hx
    have hba : yLe b a := not_lt.1 hlt
    rcases List.mem_append.1 hx' with hx' | hx'
    · rcases List.mem_cons.1 hx' with rfl | hx'
      · exact hba
      · rw [List.pairwise_cons] at hl
        exact le_trans hba (hl.1 x hx')
    · exact hr.1 x hx'

-- The strip scan.

theorem stripInner_le (p : PPoint α) (qs : List (PPoint α)) :
    ∀ d : α, stripInner p qs d ≤ d := by
  induction qs with
  | nil =>
    intro d
    exact le_refl d
  | cons q qs ih =>
    intro d
    unfold stripInner
    split_ifs with h
    · exact le_refl d
    · exact le_trans (ih _) (updMin_le_left d _)

theorem mul_self_le_mul_self' {x y : α} (h0 : 0 ≤ x) (hxy : x ≤ y) : x * x ≤ y * y :=
  mul_le_mul hxy hxy h0 (le_trans h0 hxy)

theorem stripInner_le_mem (p : PPoint α) (qs : List (PPoint α))
    (hdesc : List.Pairwise (fun u v : PPoint α => v.2 ≤ u.2) qs)
    (hple : ∀ q ∈ qs, q.2 ≤ p.2) :
    ∀ d : α, ∀ a ∈ qs, stripInner p qs d ≤ dist2 p a := by
  induction qs with
  | nil =>
    intro d a ha
    cases ha
  | cons q qs ih =>
    intro d a ha
    unfold stripInner
    have hq : q.2 ≤ p.2 := hple q (List.mem_cons_self q qs)
    have haq : a.2 ≤ q.2 := by
      rcases List.mem_cons.1 ha with rfl | ha'
      · exact le_refl a.2
      · rw [List.pairwise_cons] at hdesc
        exact hdesc.1 a ha'
    split_ifs with h
    · refine le_trans (le_trans h ?_) (dy2_le_dist2 p a)
      exact mul_self_le_mul_self' (by linarith) (by linarith)
    · rcases List.mem_cons.1 ha with rfl | ha'
      · exact le_trans (stripInner_le p qs _) (updMin_le_right d _)
      · rw [List.pairwise_cons] at hdesc
        exact ih hdesc.2 (fun x hx => hple x (List.mem_cons_of_mem q hx)) _ a ha'

theorem stripInner_cases (p : PPoint α) (qs : List (PPoint α)) :
    ∀ d : α, stripInner p qs d = d ∨ ∃ q ∈ qs, stripInner p qs d = dist2 p q := by
  induction qs with
  | nil =>
    intro d
    exact Or.inl rfl
  | cons q qs ih =>
    intro d
    unfold stripInner
    split_ifs with h
    · exact Or.inl rfl
    · rcases ih (updMin d (dist2 p q)) with h2 | ⟨x, hx, h2⟩
      · rw [h2]
        rcases updMin_cases d (dist2 p q) with h3 | h3
        · exact Or.inl h3
        · exact Or.inr ⟨q, List.mem_cons_self q qs, h3⟩
      · exact Or.inr ⟨x, List.mem_cons_of_mem q hx, h2⟩

theorem stripScan_le (xmid : α) :
    ∀ (sfx tmp : List (PPoint α)) (d : α), stripScan xmid sfx tmp d ≤ d := by
  intro sfx
  induction sfx with
  | nil =>
    intro tmp d
    exact le_refl d
  | cons p rest ih =>
    intro tmp d
    unfold stripScan
    split_ifs with h
    · exact ih tmp d
    · exact le_trans (ih (p :: tmp) _) (stripInner_le p tmp d)

end NearestPointsLemmas2

section NearestPointsLemmas3

variable {α : Type} [LinearOrderedCommRing α]

/-- Coverage of the strip scan: for every opposite-side pair with one point
in the kept stack and one in the remaining suffix, or both in the suffix in
traversal order, the final minimum is at most that pair's squared distance. -/
theorem stripScan_covers (xmid : α) :
    ∀ (sfx tmp : List (PPoint α)) (d : α),
      List.Pairwise yLe (tmp.reverse ++ sfx) →
      ((∀ a ∈ tmp, ∀ b ∈ sfx, Opp xmid a b → stripScan xmid sfx tmp d ≤ dist2 a b) ∧
       (∀ a b : PPoint α, [a, b].Sublist sfx → Opp xmid a b →
         stripScan xmid sfx tmp d ≤ dist2 a b)) := by
  intro sfx
  induction sfx with
  | nil =>
    intro tmp d _hs
    constructor
    · intro a _ha b hb
      exact absurd hb (List.not_mem_nil b)
    · intro a b hsub _hopp
      exact absurd (hsub.mem (List.mem_cons_self a [b])) (List.not_mem_nil a)
  | cons p rest ih =>
    intro tmp d hs
    have hs' : List.Pairwise yLe (tmp.reverse ++ rest) :=
      hs.sublist ((List.sublist_cons_self p rest).append_left tmp.reverse)
    have heq : (p :: tmp).reverse ++ rest = tmp.reverse ++ p :: rest := by
      simp
    have happ := List.pairwise_append.1 hs
    have hdesc : List.Pairwise (fun u v : PPoint α => v.2 ≤ u.2) tmp := by
      have h1 : List.Pairwise yLe tmp.reverse := happ.1
      have h2 := List.pairwise_reverse.2 h1
      simpa using h2
    have hple : ∀ q ∈ tmp, q.2 ≤ p.2 := by
      intro q hq
      exact happ.2.2 q (List.mem_reverse.2 hq) p (List.mem_cons_self p rest)
    unfold stripScan
    split_ifs with hskip
    · -- p is skipped: its distance to the split line already exceeds d
      obtain ⟨ihG1, ihG2⟩ := ih tmp d hs'
      constructor
      · intro a ha b hb hopp
        rcases List.mem_cons.1 hb with rfl | hb'
        · refine le_trans (stripScan_le xmid rest tmp d) (le_trans hskip ?_)
          exact opp_sq_le_dist2 hopp
        · exact ihG1 a ha b hb' hopp
      · intro a b hsub hopp
        cases hsub with
        | cons _ h => exact ihG2 a b h hopp
        | cons₂ _ h =>
          refine le_trans (stripScan_le xmid rest tmp d) (le_trans hskip ?_)
          rw [dist2_comm]
          exact opp_sq_le_dist2 (opp_symm hopp)
    · -- p is kept: compare against the stack, then continue with p pushed
      have hs2 : List.Pairwise yLe ((p :: tmp).reverse ++ rest) := by
        rw [heq]
        exact hs
      obtain ⟨ihG1, ihG2⟩ := ih (p :: tmp) (stripInner p tmp d) hs2
      constructor
      · intro a ha b hb hopp
        rcases List.mem_cons.1 hb with rfl | hb'
        · refine le_trans (stripScan_le xmid rest (b :: tmp) _) ?_
          rw [dist2_comm]
          exact stripInner_le_mem b tmp hdesc hple d a ha
        · exact ihG1 a (List.mem_cons_of_mem p ha) b hb' hopp
      · intro a b hsub hopp
        cases hsub with
        | cons _ h => exact ihG2 a b h hopp
        | cons₂ _ h =>
          exact ihG1 p (List.mem_cons_self p tmp) b (List.singleton_sublist.1 h) hopp

/-- Every value the strip scan returns is either the incoming minimum or the
squared distance of a genuine pair of distinct positions. -/
theorem stripScan_cases (xmid : α) :
    ∀ (sfx tmp : List (PPoint α)) (d : α),
      stripScan xmid sfx tmp d = d ∨
      ∃ a b, PairIn a b (tmp ++ sfx) ∧ stripScan xmid sfx tmp d = dist2 a b := by
  intro sfx
  induction sfx with
  | nil =>
    intro tmp d
    exact Or.inl rfl
  | cons p rest ih =>
    intro tmp d
    unfold stripScan
    split_ifs with hskip
    · rcases ih tmp d with h | ⟨a, b, hpair, h⟩
      · exact Or.inl h
      · refine Or.inr ⟨a, b, ?_, h⟩
        exact pairIn_sublist ((List.sublist_cons_self p rest).append_left tmp) hpair
    · rcases ih (p :: tmp) (stripInner p tmp d) with h | ⟨a, b, hpair, h⟩
      · rcases stripInner_cases p tmp d with h2 | ⟨q, hq, h2⟩
        · exact Or.inl (h.trans h2)
        · refine Or.inr ⟨q, p, ?_, ?_⟩
          · exact pairIn_of_mem_mem hq (List.mem_cons_self p rest)
          · rw [h, h2, dist2_comm]
      · refine Or.inr ⟨a, b, ?_, h⟩
        exact (pairIn_perm List.perm_middle).2 hpair

end NearestPointsLemmas3

section NearestPointsLemmas4

variable {α : Type} [LinearOrderedCommRing α]

/-- Specification of the conquer step: merging two correct halves and
scanning the strip yields the y-sorted union together with a value that is
a lower bound for every pair of the union and is attained (or is `M`). -/
theorem combine_spec (xm dl dr d0 M : α)
    (lft rgt merged psL psR : List (PPoint α))
    (hd0 : d0 = if dl < dr then dl else dr)
    (hmg : merged = merge_by_y lft rgt)
    (hLperm : lft.Perm psL) (hRperm : rgt.Perm psR)
    (hLsort : List.Pairwise yLe lft) (hRsort : List.Pairwise yLe rgt)
    (hdlM : dl ≤ M) (hdrM : dr ≤ M)
    (hLub : ∀ a b : PPoint α, PairIn a b psL → dl ≤ dist2 a b)
    (hRub : ∀ a b : PPoint α, PairIn a b psR → dr ≤ dist2 a b)
    (hLmem : dl = M ∨ ∃ a b, PairIn a b psL ∧ dl = dist2 a b)
    (hRmem : dr = M ∨ ∃ a b, PairIn a b psR ∧ dr = dist2 a b)
    (xLb : ∀ a ∈ psL, a.1 ≤ xm) (xRb : ∀ b ∈ psR, xm ≤ b.1) :
    merged.Perm (psL ++ psR) ∧
    List.Pairwise yLe merged ∧
    stripScan xm merged [] d0 ≤ M ∧
    (∀ a b : PPoint α, PairIn a b (psL ++ psR) →
      stripScan xm merged [] d0 ≤ dist2 a b) ∧
    (stripScan xm merged [] d0 = M ∨
     ∃ a b, PairIn a b (psL ++ psR) ∧ stripScan xm merged [] d0 = dist2 a b) := by
  subst hd0
  subst hmg
  have hperm : (merge_by_y lft rgt).Perm (psL ++ psR) :=
    (merge_by_y_perm lft rgt).trans (hLperm.append hRperm)
  have hsort : List.Pairwise yLe (merge_by_y lft rgt) := merge_by_y_sorted hLsort hRsort
  have hd0l : (if dl < dr then dl else dr) ≤ dl := by
    split_ifs with h
    · exact le_refl dl
    · exact not_lt.1 h
  have hd0r : (if dl < dr then dl else dr) ≤ dr := by
    split_ifs with h
    · exact le_of_lt h
    · exact le_refl dr
  obtain ⟨-, hcov2⟩ :=
    stripScan_covers xm (merge_by_y lft rgt) [] (if dl < dr then dl else dr)
      (by simpa using hsort)
  refine ⟨hperm, hsort, ?_, ?_, ?_⟩
  · exact le_trans (stripScan_le xm _ _ _) (le_trans hd0l hdlM)
  · intro a b hab
    rcases pairIn_append_or hab with h1 | h1 | ⟨ha, hb⟩ | ⟨hb, ha⟩
    · exact le_trans (stripScan_le xm _ _ _) (le_trans hd0l (hLub a b h1))
    · exact le_trans (stripScan_le xm _ _ _) (le_trans hd0r (hRub a b h1))
    · have hopp : Opp xm a b := Or.inl ⟨xLb a ha, xRb b hb⟩
      by_cases hab2 : a = b
      · subst hab2
        have h2 : 2 ≤ cntP a (merge_by_y lft rgt) := by
          rw [cntP_perm a hperm, cntP_append]
          have h3 := (cntP_pos_iff_mem a psL).2 ha
          have h4 := (cntP_pos_iff_mem a psR).2 hb
          omega
        exact hcov2 a a (sublist_pair_of_two_le_cntP h2) hopp
      · have ham : a ∈ merge_by_y lft rgt := hperm.mem_iff.2 (List.mem_append_left _ ha)
        have hbm : b ∈ merge_by_y lft rgt := hperm.mem_iff.2 (List.mem_append_right _ hb)
        rcases sublist_pair_of_mem_ne ham hbm hab2 with hs | hs
        · exact hcov2 a b hs hopp
        · rw [dist2_comm]
          exact hcov2 b a hs (opp_symm hopp)
    · have hopp : Opp xm a b := Or.inr ⟨xLb b hb, xRb a ha⟩
      by_cases hab2 : a = b
      · subst hab2
        have h2 : 2 ≤ cntP a (merge_by_y lft rgt) := by
          rw [cntP_perm a hperm, cntP_append]
          have h3 := (cntP_pos_iff_mem a psL).2 hb
          have h4 := (cntP_pos_iff_mem a psR).2 ha
          omega
        exact hcov2 a a (sublist_pair_of_two_le_cntP h2) hopp
      · have ham : a ∈ merge_by_y lft rgt := hperm.mem_iff.2 (List.mem_append_right _ ha)
        have hbm : b ∈ merge_by_y lft rgt := hperm.mem_iff.2 (List.mem_append_left _ hb)
        rcases sublist_pair_of_mem_ne ham hbm hab2 with hs | hs
        · exact hcov2 a b hs hopp
        · rw [dist2_comm]
          exact hcov2 b a hs (opp_symm hopp)
  · rcases stripScan_cases xm (merge_by_y lft rgt) [] (if dl < dr then dl else dr) with
      h | ⟨a, b, hpair, h⟩
    · rw [h]
      by_cases hc : dl < dr
      · rw [if_pos hc]
        rcases hLmem with h2 | ⟨a, b, hab, h2⟩
        · exact Or.inl h2
        · exact Or.inr ⟨a, b, pairIn_sublist (List.sublist_append_left psL psR) hab, h2⟩
      · rw [if_neg hc]
        rcases hRmem with h2 | ⟨a, b, hab, h2⟩
        · exact Or.inl h2
        · exact Or.inr ⟨a, b, pairIn_sublist (List.sublist_append_right psL psR) hab, h2⟩
    · refine Or.inr ⟨a, b, (pairIn_perm hperm).1 hpair, h⟩

/-- Unfolding equation of `min_distance2_inner` in the base case. -/
theorem min_distance2_inner_base (M : α) (ps : List (PPoint α)) (h : ps.length ≤ 3) :
    min_distance2_inner M ps = (List.insertionSort yLe ps, scanPairs ps M) := by
  rw [min_distance2_inner]
  exact dif_pos h

/-- Unfolding equation of `min_distance2_inner` in the recursive case. -/
theorem min_distance2_inner_rec (M : α) (ps : List (PPoint α)) (h : ¬ ps.length ≤ 3) :
    min_distance2_inner M ps =
      (merge_by_y (min_distance2_inner M (ps.take (ps.length / 2))).1
                  (min_distance2_inner M (ps.drop (ps.length / 2))).1,
       stripScan (ps.getD (ps.length / 2) (0, 0)).1
         (merge_by_y (min_distance2_inner M (ps.take (ps.length / 2))).1
                     (min_distance2_inner M (ps.drop (ps.length / 2))).1)
         []
         (if (min_distance2_inner M (ps.take (ps.length / 2))).2 <
             (min_distance2_inner M (ps.drop (ps.length / 2))).2
          then (min_distance2_inner M (ps.take (ps.length / 2))).2
          else (min_distance2_inner M (ps.drop (ps.length / 2))).2)) := by
  rw [min_distance2_inner]
  exact dif_neg h

/-- Specification of the base case of the solver. -/
theorem min_distance2_inner_base_spec (M : α) (ps : List (PPoint α)) (h : ps.length ≤ 3) :
    (min_distance2_inner M ps).1.Perm ps ∧
    List.Pairwise yLe (min_distance2_inner M ps).1 ∧
    (min_distance2_inner M ps).2 ≤ M ∧
    (∀ a b : PPoint α, PairIn a b ps → (min_distance2_inner M ps).2 ≤ dist2 a b) ∧
    ((min_distance2_inner M ps).2 = M ∨
     ∃ a b, PairIn a b ps ∧ (min_distance2_inner M ps).2 = dist2 a b) := by
  rw [min_distance2_inner_base M ps h]
  refine ⟨?_, ?_, ?_, ?_, ?_⟩
  · exact List.perm_insertionSort yLe ps
  · exact List.sorted_insertionSort yLe ps
  · exact scanPairs_le ps M
  · intro a b hab
    exact scanPairs_le_pair ps hab M
  · rcases scanPairs_cases ps M with h2 | ⟨x, y, hxy, h2⟩
    · exact Or.inl h2
    · exact Or.inr ⟨x, y, hxy, h2⟩

/-- Full specification of `min_distance2_inner` on an x-sorted input: it
returns a y-sorted permutation of the input together with a value that is
at most `M`, is a lower bound on the squared distance of every pair of
distinct positions, and is either `M` or attained by such a pair. -/
theorem min_distance2_inner_spec (M : α) :
    ∀ n : ℕ, ∀ ps : List (PPoint α), ps.length ≤ n →
      List.Pairwise (fun u v : PPoint α => u.1 ≤ v.1) ps →
      ((min_distance2_inner M ps).1.Perm ps ∧
       List.Pairwise yLe (min_distance2_inner M ps).1 ∧
       (min_distance2_inner M ps).2 ≤ M ∧
       (∀ a b : PPoint α, PairIn a b ps → (min_distance2_inner M ps).2 ≤ dist2 a b) ∧
       ((min_distance2_inner M ps).2 = M ∨
        ∃ a b, PairIn a b ps ∧ (min_distance2_inner M ps).2 = dist2 a b)) := by
  intro n
  induction n with
  | zero =>
    intro ps hlen _hsorted
    exact min_distance2_inner_base_spec M ps (by omega)
  | succ n ih =>
    intro ps hlen hsorted
    by_cases hb : ps.length ≤ 3
    · exact min_distance2_inner_base_spec M ps hb
    · obtain ⟨c, rest, hdp⟩ : ∃ c rest, ps.drop (ps.length / 2) = c :: rest := by
        cases hdp : ps.drop (ps.length / 2) with
        | nil =>
          exfalso
          have h2 := congrArg List.length hdp
          simp only [List.length_drop, List.length_nil] at h2
          omega
        | cons c rest => exact ⟨c, rest, rfl⟩
      have hxmid : ps.getD (ps.length / 2) (0, 0) = c := by
        have h1 : ps[ps.length / 2]? = some c := by
          rw [← List.head?_drop, hdp, List.head?_cons]
        rw [List.getD_eq_getElem?_getD, h1, Option.getD_some]
      have hsortL : List.Pairwise (fun u v : PPoint α => u.1 ≤ v.1)
          (ps.take (ps.length / 2)) :=
        hsorted.sublist (List.take_sublist (ps.length / 2) ps)
      have hsortR : List.Pairwise (fun u v : PPoint α => u.1 ≤ v.1)
          (ps.drop (ps.length / 2)) :=
        hsorted.sublist (List.drop_sublist (ps.length / 2) ps)
      have hlenL : (ps.take (ps.length / 2)).length ≤ n := by
        simp only [List.length_take]
        omega
      have hlenR : (ps.drop (ps.length / 2)).length ≤ n := by
        simp only [List.length_drop]
        omega
      obtain ⟨Lperm, Lsort, Lle, Lub, Lmem⟩ := ih (ps.take (ps.length / 2)) hlenL hsortL
      obtain ⟨Rperm, Rsort, Rle, Rub, Rmem⟩ := ih (ps.drop (ps.length / 2)) hlenR hsortR
      have xR : ∀ b ∈ ps.drop (ps.length / 2), c.1 ≤ b.1 := by
        intro b hb'
        have hdpw := hsortR
        rw [hdp] at hdpw hb'
        rcases List.mem_cons.1 hb' with rfl | hb''
        · exact le_refl _
        · exact (List.pairwise_cons.1 hdpw).1 b hb''
      have xL : ∀ a ∈ ps.take (ps.length / 2), a.1 ≤ c.1 := by
        intro a ha
        have hpw : List.Pairwise (fun u v : PPoint α => u.1 ≤ v.1)
            (ps.take (ps.length / 2) ++ ps.drop (ps.length / 2)) := by
          rw [List.take_append_drop]
          exact hsorted
        refine (List.pairwise_append.1 hpw).2.2 a ha c ?_
        rw [hdp]
        exact List.mem_cons_self c rest
      have key := min_distance2_inner_rec M ps hb
      rw [hxmid] at key
      have hcomb := combine_spec c.1
        (min_distance2_inner M (ps.take (ps.length / 2))).2
        (min_distance2_inner M (ps.drop (ps.length / 2))).2
        _ M
        (min_distance2_inner M (ps.take (ps.length / 2))).1
        (min_distance2_inner M (ps.drop (ps.length / 2))).1
        _ (ps.take (ps.length / 2)) (ps.drop (ps.length / 2))
        rfl rfl Lperm Rperm Lsort Rsort Lle Rle Lub Rub Lmem Rmem xL xR
      have h1 := hcomb.1
      have h2 := hcomb.2.1
      have h3 := hcomb.2.2.1
      have h4 := hcomb.2.2.2.1
      have h5 := hcomb.2.2.2.2
      rw [List.take_append_drop] at h1 h4 h5
      rw [key]
      exact ⟨h1, h2, h3, h4, h5⟩

end NearestPointsLemmas4

/-- C2: for every list of at least two points containing some pair of
distinct positions whose squared distance is at most the starting bound `M`
(the idealization of the coordinate type's maximum value), `min_distance2`
returns exactly the minimum over all unordered pairs of distinct positions
of the squared Euclidean distance: the result is attained by such a pair
and is a lower bound for every such pair. In particular a list containing
two equal points yields 0. -/
theorem c2_theorem {α : Type} [LinearOrderedCommRing α] (M : α) (ps : List (PPoint α))
    (h2 : 2 ≤ ps.length)
    (hM : ∃ a b : PPoint α, PairIn a b ps ∧ dist2 a b ≤ M) :
    (∃ a b : PPoint α, PairIn a b ps ∧ min_distance2 M ps = dist2 a b) ∧
    (∀ a b : PPoint α, PairIn a b ps → min_distance2 M ps ≤ dist2 a b) := by
  have hsort : List.Pairwise lexLe (List.insertionSort lexLe ps) :=
    List.sorted_insertionSort lexLe ps
  have hsx : List.Pairwise (fun u v : PPoint α => u.1 ≤ v.1)
      (List.insertionSort lexLe ps) := by
    refine hsort.imp ?_
    intro u v h
    rcases h with h | ⟨h, -⟩
    · exact le_of_lt h
    · exact le_of_eq h
  have hperm : (List.insertionSort lexLe ps).Perm ps := List.perm_insertionSort lexLe ps
  obtain ⟨-, -, -, hub, hmem⟩ :=
    min_distance2_inner_spec M (List.insertionSort lexLe ps).length
      (List.insertionSort lexLe ps) (le_refl _) hsx
  have hub' : ∀ a b : PPoint α, PairIn a b ps → min_distance2 M ps ≤ dist2 a b := by
    intro a b hab
    exact hub a b ((pairIn_perm hperm).2 hab)
  refine ⟨?_, hub'⟩
  rcases hmem with hm | ⟨a, b, hab, hm⟩
  · obtain ⟨a, b, hab, hle⟩ := hM
    refine ⟨a, b, hab, le_antisymm ?_ ?_⟩
    · exact hub' a b hab
    · rw [min_distance2, hm]
      exact hle
  · exact ⟨a, b, (pairIn_perm hperm).1 hab, hm⟩

theorem c2_witness :
    (2 ≤ ([((0 : ℤ), (0 : ℤ)), ((0 : ℤ), (0 : ℤ))] : List (PPoint ℤ)).length ∧
     ∃ a b : PPoint ℤ,
       PairIn a b [((0 : ℤ), (0 : ℤ)), ((0 : ℤ), (0 : ℤ))] ∧ dist2 a b ≤ (10 : ℤ)) ∧
    ((∃ a b : PPoint ℤ,
        PairIn a b [((0 : ℤ), (0 : ℤ)), ((0 : ℤ), (0 : ℤ))] ∧
        min_distance2 (10 : ℤ) [((0 : ℤ), (0 : ℤ)), ((0 : ℤ), (0 : ℤ))] = dist2 a b) ∧
     (∀ a b : PPoint ℤ,
        PairIn a b [((0 : ℤ), (0 : ℤ)), ((0 : ℤ), (0 : ℤ))] →
        min_distance2 (10 : ℤ) [((0 : ℤ), (0 : ℤ)), ((0 : ℤ), (0 : ℤ))] ≤ dist2 a b)) :=
  ⟨⟨by decide, ⟨(0, 0), (0, 0), by decide, by decide⟩⟩,
   c2_theorem 10 [((0 : ℤ), (0 : ℤ)), ((0 : ℤ), (0 : ℤ))] (by decide)
     ⟨(0, 0), (0, 0), by decide, by decide⟩⟩

/-- C10: for every list of fewer than two points, `min_distance2` returns
the starting bound `M` (the coordinate type's maximum value) unchanged. -/
theorem c10_theorem {α : Type} [LinearOrderedCommRing α] (M : α) (ps : List (PPoint α))
    (h : ps.length < 2) : min_distance2 M ps = M := by
  have hlen : (List.insertionSort lexLe ps).length ≤ 3 := by
    rw [List.length_insertionSort]
    omega
  unfold min_distance2
  rw [min_distance2_inner_base M _ hlen]
  cases hs : List.insertionSort lexLe ps with
  | nil => rfl
  | cons p tail =>
    have h2 := congrArg List.length hs
    rw [List.length_insertionSort] at h2
    simp only [List.length_cons] at h2
    have h3 : tail = [] := List.length_eq_zero.1 (by omega)
    subst h3
    rfl

theorem c10_witness :
    ([((3 : ℤ), (4 : ℤ))] : List (PPoint ℤ)).length < 2 ∧
    min_distance2 (99 : ℤ) [((3 : ℤ), (4 : ℤ))] = 99 :=
  ⟨by decide, c10_theorem 99 [((3 : ℤ), (4 : ℤ))] (by decide)⟩

section ConvexHull

variable {α : Type} [LinearOrderedCommRing α]

/-- `counterclockwise`: do three points make a counterclockwise turn?
The source compares the cross product against `C::default()`, i.e. zero. -/
def counterclockwise (o a b : PPoint α) : Bool :=
  decide ((0 : α) < cross_product o a b)

/-- One iteration of `half_hull`'s inner loop: pop while the turn predicate
fails on (second-to-last, last, new), then push the new point. The stack is
kept most-recent-first. -/
def hhStep (turn : PPoint α → PPoint α → PPoint α → Bool) :
    List (PPoint α) → PPoint α → List (PPoint α)
  | a :: o :: rest, b =>
    if turn o a b then b :: a :: o :: rest else hhStep turn (o :: rest) b
  | hull, b => b :: hull

/-- `half_hull`: scan the points, maintaining the half-hull stack; the
source's `Vec` is bottom-first, hence the final reverse. -/
def half_hull (turn : PPoint α → PPoint α → PPoint α → Bool)
    (pts : List (PPoint α)) : List (PPoint α) :=
  (pts.foldl (hhStep turn) []).reverse

/-- `convex_hull` with the lexicographic key: sort, build one half hull,
drop its last point, append the half hull of the reversed order, and drop
the last point again. -/
def convex_hull (pts : List (PPoint α))
    (turn : PPoint α → PPoint α → PPoint α → Bool) : List (PPoint α) :=
  ((half_hull turn (List.insertionSort lexLe pts)).dropLast ++
    half_hull turn (List.insertionSort lexLe pts).reverse).dropLast

end ConvexHull

/-- C4 counterexample: the hull of a single point is the empty list, not
the singleton point set. -/
theorem c4_counterexample :
    convex_hull [((0 : ℤ), (0 : ℤ))] counterclockwise = [] ∧
    ([] : List (PPoint ℤ)) ≠ [((0 : ℤ), (0 : ℤ))] :=
  ⟨rfl, by decide⟩

/-- C4 (amended): with the lexicographic key and the counterclockwise
predicate, the hull of the empty list is empty, the hull of a single point
is empty (not the singleton, refuting the claim there), and the hull of two
distinct points is exactly those two points in lexicographic order; no
computation aborts (the embedding is total). -/
theorem c4_amended {α : Type} [LinearOrderedCommRing α] (p q : PPoint α) (hpq : p ≠ q) :
    convex_hull ([] : List (PPoint α)) counterclockwise = [] ∧
    convex_hull [p] counterclockwise = [] ∧
    ((convex_hull [p, q] counterclockwise = [p, q] ∧ lexLe p q) ∨
     (convex_hull [p, q] counterclockwise = [q, p] ∧ lexLe q p)) := by
  refine ⟨rfl, rfl, ?_⟩
  by_cases h : lexLe p q
  · refine Or.inl ⟨?_, h⟩
    unfold convex_hull
    simp only [List.insertionSort, List.orderedInsert]
    rw [if_pos h]
    rfl
  · have h' : lexLe q p := (lexLe_total p q).resolve_left h
    refine Or.inr ⟨?_, h'⟩
    unfold convex_hull
    simp only [List.insertionSort, List.orderedInsert]
    rw [if_neg h]
    rfl

theorem c4_witness :
    ((0 : ℤ), (0 : ℤ)) ≠ ((1 : ℤ), (0 : ℤ)) ∧
    (convex_hull ([] : List (PPoint ℤ)) counterclockwise = [] ∧
     convex_hull [((0 : ℤ), (0 : ℤ))] counterclockwise = [] ∧
     ((convex_hull [((0 : ℤ), (0 : ℤ)), ((1 : ℤ), (0 : ℤ))] counterclockwise =
         [((0 : ℤ), (0 : ℤ)), ((1 : ℤ), (0 : ℤ))] ∧
       lexLe ((0 : ℤ), (0 : ℤ)) ((1 : ℤ), (0 : ℤ))) ∨
      (convex_hull [((0 : ℤ), (0 : ℤ)), ((1 : ℤ), (0 : ℤ))] counterclockwise =
         [((1 : ℤ), (0 : ℤ)), ((0 : ℤ), (0 : ℤ))] ∧
       lexLe ((1 : ℤ), (0 : ℤ)) ((0 : ℤ), (0 : ℤ))))) :=
  ⟨by decide, c4_amended ((0 : ℤ), (0 : ℤ)) ((1 : ℤ), (0 : ℤ)) (by decide)⟩

section Antipodal

/-- The signed area the calipers compare: cross product of the edge
`(points[i], points[(i+1) % n])` against candidate vertex `points[j]`. -/
def caliperArea (pts : List (PPoint ℤ)) (i j : ℕ) : ℤ :=
  cross_product (pts.getD i (0, 0)) (pts.getD ((i + 1) % pts.length) (0, 0))
    (pts.getD j (0, 0))

/-- The `while next_area > curr_area` loop of `antipodal_pairs`, advancing
`j` forward with wraparound. The source's loop is unbounded; it is given
`pts.length` steps of fuel here, which is proved sufficient (the strict
increase cannot survive a full cycle), so the fuelled function agrees with
the loop. -/
def advance (pts : List (PPoint ℤ)) (i : ℕ) : ℕ → ℕ → ℕ
  | j, 0 => j
  | j, fuel + 1 =>
    if caliperArea pts i ((j + 1) % pts.length) > caliperArea pts i j then
      advance pts i ((j + 1) % pts.length) fuel
    else j

/-- `antipodal_pairs`: fewer than two points give no pairs, exactly two
give `[(0, 1)]`, otherwise one pair per edge with `j` carried across
iterations, starting from 1. -/
def antipodal_pairs (pts : List (PPoint ℤ)) : List (ℕ × ℕ) :=
  if pts.length < 2 then []
  else if pts.length = 2 then [(0, 1)]
  else
    ((List.range pts.length).foldl
      (fun st i =>
        (st.1 ++ [(i, advance pts i st.2 pts.length)], advance pts i st.2 pts.length))
      ([], 1)).1

/-- Modelled from the spec: the claimed advancing rule moves `j` forward
"while the signed area using the next candidate vertex is not smaller than
the area using the current one", i.e. with `≥` in place of the code's
strict `>`; fuelled like `advance`. -/
def advance_claimed (pts : List (PPoint ℤ)) (i : ℕ) : ℕ → ℕ → ℕ
  | j, 0 => j
  | j, fuel + 1 =>
    if caliperArea pts i ((j + 1) % pts.length) ≥ caliperArea pts i j then
      advance_claimed pts i ((j + 1) % pts.length) fuel
    else j

/-- Modelled from the spec: `antipodal_pairs` with the claimed `≥`
advancing rule instead of the code's strict `>`. -/
def antipodal_pairs_claimed (pts : List (PPoint ℤ)) : List (ℕ × ℕ) :=
  if pts.length < 2 then []
  else if pts.length = 2 then [(0, 1)]
  else
    ((List.range pts.length).foldl
      (fun st i =>
        (st.1 ++ [(i, advance_claimed pts i st.2 pts.length)],
         advance_claimed pts i st.2 pts.length))
      ([], 1)).1

end Antipodal

section AntipodalLemmas

theorem advance_lt (pts : List (PPoint ℤ)) (i : ℕ) :
    ∀ fuel j, j < pts.length → advance pts i j fuel < pts.length := by
  intro fuel
  induction fuel with
  | zero =>
    intro j hj
    exact hj
  | succ fuel ih =>
    intro j hj
    have hn : 0 < pts.length := by omega
    by_cases hc : caliperArea pts i ((j + 1) % pts.length) > caliperArea pts i j
    · have hstep : advance pts i j (fuel + 1) = advance pts i ((j + 1) % pts.length) fuel := by
        simp only [advance]
        rw [if_pos hc]
      rw [hstep]
      exact ih _ (Nat.mod_lt _ hn)
    · have hstep : advance pts i j (fuel + 1) = j := by
        simp only [advance]
        rw [if_neg hc]
      rw [hstep]
      exact hj

theorem advance_progress (pts : List (PPoint ℤ)) (i : ℕ) :
    ∀ fuel j, j < pts.length →
      ¬ (caliperArea pts i ((advance pts i j fuel + 1) % pts.length) >
         caliperArea pts i (advance pts i j fuel)) ∨
      (advance pts i j fuel = (j + fuel) % pts.length ∧
       (fuel = 0 ∨ caliperArea pts i (advance pts i j fuel) > caliperArea pts i j)) := by
  intro fuel
  induction fuel with
  | zero =>
    intro j hj
    right
    refine ⟨?_, Or.inl rfl⟩
    show j = (j + 0) % pts.length
    rw [Nat.add_zero, Nat.mod_eq_of_lt hj]
  | succ fuel ih =>
    intro j hj
    have hn : 0 < pts.length := by omega
    by_cases hc : caliperArea pts i ((j + 1) % pts.length) > caliperArea pts i j
    · have hj1 : (j + 1) % pts.length < pts.length := Nat.mod_lt _ hn
      have hstep : advance pts i j (fuel + 1) = advance pts i ((j + 1) % pts.length) fuel := by
        simp only [advance]
        rw [if_pos hc]
      rcases ih ((j + 1) % pts.length) hj1 with h | ⟨heq, hinc⟩
      · left
        rw [hstep]
        exact h
      · right
        constructor
        · rw [hstep, heq, Nat.mod_add_mod]
          congr 1
          omega
        · right
          rw [hstep]
          rcases hinc with hfz | hgt
          · subst hfz
            exact hc
          · exact lt_trans hc hgt
    · left
      have hstep : advance pts i j (fuel + 1) = j := by
        simp only [advance]
        rw [if_neg hc]
      rw [hstep]
      exact hc

theorem advance_exit (pts : List (PPoint ℤ)) (i j : ℕ) (hj : j < pts.length) :
    ¬ (caliperArea pts i ((advance pts i j pts.length + 1) % pts.length) >
       caliperArea pts i (advance pts i j pts.length)) := by
  rcases advance_progress pts i pts.length j hj with h | ⟨heq, hinc⟩
  · exact h
  · rcases hinc with hfz | hgt
    · exfalso
      omega
    · exfalso
      have e : (j + pts.length) % pts.length = j := by
        rw [Nat.add_mod_right, Nat.mod_eq_of_lt hj]
      rw [heq, e] at hgt
      exact lt_irrefl _ hgt

theorem antipodal_fold (pts : List (PPoint ℤ)) :
    ∀ (is : List ℕ) (acc : List (ℕ × ℕ)) (j : ℕ), j < pts.length →
      ((is.foldl
          (fun st i =>
            (st.1 ++ [(i, advance pts i st.2 pts.length)], advance pts i st.2 pts.length))
          (acc, j)).1.map Prod.fst = acc.map Prod.fst ++ is) ∧
      ((is.foldl
          (fun st i =>
            (st.1 ++ [(i, advance pts i st.2 pts.length)], advance pts i st.2 pts.length))
          (acc, j)).2 < pts.length) ∧
      (∀ pr ∈ (is.foldl
          (fun st i =>
            (st.1 ++ [(i, advance pts i st.2 pts.length)], advance pts i st.2 pts.length))
          (acc, j)).1,
        pr ∈ acc ∨
        (pr.2 < pts.length ∧
         ¬ (caliperArea pts pr.1 ((pr.2 + 1) % pts.length) >
            caliperArea pts pr.1 pr.2))) := by
  intro is
  induction is with
  | nil =>
    intro acc j hj
    exact ⟨by simp, hj, fun pr hpr => Or.inl hpr⟩
  | cons i is ih =>
    intro acc j hj
    have hj' : advance pts i j pts.length < pts.length := advance_lt pts i pts.length j hj
    obtain ⟨h1, h2, h3⟩ := ih (acc ++ [(i, advance pts i j pts.length)])
      (advance pts i j pts.length) hj'
    refine ⟨h1.trans (by simp), h2, ?_⟩
    intro pr hpr
    rcases h3 pr hpr with hin | hgood
    · rcases List.mem_append.1 hin with hin | hin
      · exact Or.inl hin
      · simp only [List.mem_singleton] at hin
        subst hin
        exact Or.inr ⟨hj', advance_exit pts i j hj⟩
    · exact Or.inr hgood

end AntipodalLemmas

/-- C7 counterexample: on the unit square the code's strict-greater rule
emits (0, 2) for the first edge, while the claimed not-smaller rule would
emit (0, 3); the two pair lists differ. -/
theorem c7_counterexample :
    antipodal_pairs [((0 : ℤ), (0 : ℤ)), ((1 : ℤ), (0 : ℤ)), ((1 : ℤ), (1 : ℤ)),
        ((0 : ℤ), (1 : ℤ))] = [(0, 2), (1, 3), (2, 0), (3, 1)] ∧
    antipodal_pairs_claimed [((0 : ℤ), (0 : ℤ)), ((1 : ℤ), (0 : ℤ)), ((1 : ℤ), (1 : ℤ)),
        ((0 : ℤ), (1 : ℤ))] = [(0, 3), (1, 0), (2, 1), (3, 2)] ∧
    antipodal_pairs [((0 : ℤ), (0 : ℤ)), ((1 : ℤ), (0 : ℤ)), ((1 : ℤ), (1 : ℤ)),
        ((0 : ℤ), (1 : ℤ))] ≠
      antipodal_pairs_claimed [((0 : ℤ), (0 : ℤ)), ((1 : ℤ), (0 : ℤ)), ((1 : ℤ), (1 : ℤ)),
        ((0 : ℤ), (1 : ℤ))] := by
  refine ⟨by decide, by decide, by decide⟩

/-- C7 (amended): `antipodal_pairs` returns no pairs below two points and
exactly `[(0, 1)]` for two points; for at least three points it emits
exactly one pair per hull edge, in order (the first components are
`0, 1, …, n-1`), and every emitted second component `j` is in range and
satisfies the stopping condition of the code's strict rule: the signed
area at the next candidate is NOT strictly greater than at `j` (the
claim's not-smaller rule advances past ties and is refuted separately). -/
theorem c7_amended (pts : List (PPoint ℤ)) :
    (pts.length < 2 → antipodal_pairs pts = []) ∧
    (pts.length = 2 → antipodal_pairs pts = [(0, 1)]) ∧
    (3 ≤ pts.length →
      (antipodal_pairs pts).map Prod.fst = List.range pts.length ∧
      ∀ pr ∈ antipodal_pairs pts,
        pr.2 < pts.length ∧
        ¬ (caliperArea pts pr.1 ((pr.2 + 1) % pts.length) >
           caliperArea pts pr.1 pr.2)) := by
  refine ⟨?_, ?_, ?_⟩
  · intro h
    unfold antipodal_pairs
    rw [if_pos h]
  · intro h
    unfold antipodal_pairs
    rw [if_neg (by omega), if_pos h]
  · intro h3
    unfold antipodal_pairs
    rw [if_neg (by omega), if_neg (by omega)]
    obtain ⟨h1, -, hgood⟩ := antipodal_fold pts (List.range pts.length) [] 1 (by omega)
    refine ⟨by simpa using h1, ?_⟩
    intro pr hpr
    rcases hgood pr hpr with hin | hgood2
    · exact absurd hin (List.not_mem_nil pr)
    · exact hgood2

theorem c7_witness :
    3 ≤ ([((0 : ℤ), (0 : ℤ)), ((1 : ℤ), (0 : ℤ)), ((1 : ℤ), (1 : ℤ)),
        ((0 : ℤ), (1 : ℤ))] : List (PPoint ℤ)).length ∧
    ((antipodal_pairs [((0 : ℤ), (0 : ℤ)), ((1 : ℤ), (0 : ℤ)), ((1 : ℤ), (1 : ℤ)),
        ((0 : ℤ), (1 : ℤ))]).map Prod.fst =
      List.range ([((0 : ℤ), (0 : ℤ)), ((1 : ℤ), (0 : ℤ)), ((1 : ℤ), (1 : ℤ)),
        ((0 : ℤ), (1 : ℤ))] : List (PPoint ℤ)).length ∧
     ∀ pr ∈ antipodal_pairs [((0 : ℤ), (0 : ℤ)), ((1 : ℤ), (0 : ℤ)), ((1 : ℤ), (1 : ℤ)),
        ((0 : ℤ), (1 : ℤ))],
       pr.2 < ([((0 : ℤ), (0 : ℤ)), ((1 : ℤ), (0 : ℤ)), ((1 : ℤ), (1 : ℤ)),
        ((0 : ℤ), (1 : ℤ))] : List (PPoint ℤ)).length ∧
       ¬ (caliperArea [((0 : ℤ), (0 : ℤ)), ((1 : ℤ), (0 : ℤ)), ((1 : ℤ), (1 : ℤ)),
            ((0 : ℤ), (1 : ℤ))] pr.1
            ((pr.2 + 1) % ([((0 : ℤ), (0 : ℤ)), ((1 : ℤ), (0 : ℤ)), ((1 : ℤ), (1 : ℤ)),
              ((0 : ℤ), (1 : ℤ))] : List (PPoint ℤ)).length) >
          caliperArea [((0 : ℤ), (0 : ℤ)), ((1 : ℤ), (0 : ℤ)), ((1 : ℤ), (1 : ℤ)),
            ((0 : ℤ), (1 : ℤ))] pr.1 pr.2)) :=
  ⟨by decide,
   (c7_amended [((0 : ℤ), (0 : ℤ)), ((1 : ℤ), (0 : ℤ)), ((1 : ℤ), (1 : ℤ)),
      ((0 : ℤ), (1 : ℤ))]).2.2 (by decide)⟩

section GeometryLemmas2

variable {α : Type} [LinearOrderedCommRing α]

theorem cross_product_degenerate (o b : PPoint α) : cross_product o o b = 0 := by
  unfold cross_product
  ring

theorem cross_product_third_self (o a : PPoint α) : cross_product o a o = 0 := by
  unfold cross_product
  ring

theorem sortPair_self (p : PPoint α) : sortPair p p = (p, p) := by
  unfold sortPair
  rw [if_neg (lexLt_irrefl p)]

/-- A point lexicographically between the normalized endpoints of a segment
is classified as overlapping with it by the collinear-branch comparison, in
either argument order. -/
theorem classify_point_on (a b p : PPoint α) (h1 : lexLe a p) (h2 : lexLe p b) :
    classifySorted (p, p) (a, b) ≠ IntersectionType.none ∧
    classifySorted (a, b) (p, p) ≠ IntersectionType.none := by
  constructor
  · by_cases hlt : lexLt a p
    · exact (classifySorted_ne_none_lt (p, p) (a, b) hlt).2 h2
    · exact (classifySorted_ne_none_ge (p, p) (a, b) hlt).2 h1
  · by_cases hlt : lexLt p a
    · exact (classifySorted_ne_none_lt (a, b) (p, p) hlt).2 h1
    · exact (classifySorted_ne_none_ge (a, b) (p, p) hlt).2 h2

/-- The universal direction of the fast-path/classifier comparison: whenever
`do_intersect` reports an intersection, the full classifier does not return
`None`, with no non-degeneracy assumption. -/
theorem do_intersect_imp_rel_ne_none (s1 s2 : Segment α)
    (h : do_intersect s1 s2 = true) :
    relationship_between_segments s1 s2 ≠ IntersectionType.none := by
  obtain ⟨p1, q1⟩ := s1
  obtain ⟨p2, q2⟩ := s2
  by_cases hnd1 : p1 = q1
  · subst hnd1
    have h1 : cross_product p1 p1 p2 = 0 := cross_product_degenerate p1 p2
    have h2 : cross_product p1 p1 q2 = 0 := cross_product_degenerate p1 q2
    rw [rel_eval_collinear ⟨p1, p1⟩ ⟨p2, q2⟩ h1 h2]
    unfold collinearClassify
    simp only
    rw [sortPair_self]
    obtain ⟨a2, b2, e2⟩ : ∃ a b, sortPair p2 q2 = (a, b) := ⟨_, _, rfl⟩
    rw [e2]
    have hle2 : lexLe a2 b2 := by
      have hsp := sortPair_le p2 q2
      rw [e2] at hsp
      exact hsp
    rw [do_intersect_iff] at h
    simp only at h
    have key : lexLe a2 p1 ∧ lexLe p1 b2 := by
      rcases h with ((hA | hB) | hC) | (hD | hE)
      · rcases hA with ⟨⟨hz, -⟩ | ⟨hz, -⟩, -⟩ <;> rw [h1] at hz <;>
          exact absurd hz (lt_irrefl 0)
      · have hp2 : p2 = p1 := (box_point_iff p2 p1).1 hB.2
        rcases sortPair_cases p2 q2 with hc | hc <;> rw [hc] at e2 <;>
          injection e2 with ea eb <;> subst ea <;> subst eb
        · rw [hp2] at hle2 ⊢
          exact ⟨lexLe_refl p1, hle2⟩
        · rw [hp2] at hle2 ⊢
          exact ⟨hle2, lexLe_refl p1⟩
      · have hq2 : q2 = p1 := (box_point_iff q2 p1).1 hC.2
        rcases sortPair_cases p2 q2 with hc | hc <;> rw [hc] at e2 <;>
          injection e2 with ea eb <;> subst ea <;> subst eb
        · rw [hq2] at hle2 ⊢
          exact ⟨hle2, lexLe_refl p1⟩
        · rw [hq2] at hle2 ⊢
          exact ⟨lexLe_refl p1, hle2⟩
      · have hcr : cross_product a2 b2 p1 = 0 := by
          rcases sortPair_cases p2 q2 with hc | hc <;> rw [hc] at e2 <;>
            injection e2 with ea eb <;> subst ea <;> subst eb
          · exact hD.1
          · rw [cross_product_swap01, hD.1, neg_zero]
        have hbox : is_in_rectangle p1 ⟨a2, b2⟩ = true := by
          rcases sortPair_cases p2 q2 with hc | hc <;> rw [hc] at e2 <;>
            injection e2 with ea eb <;> subst ea <;> subst eb
          · exact hD.2
          · rw [is_in_rectangle_comm]
            exact hD.2
        exact (collinear_box_iff hcr hle2).1 hbox
      · have hcr : cross_product a2 b2 p1 = 0 := by
          rcases sortPair_cases p2 q2 with hc | hc <;> rw [hc] at e2 <;>
            injection e2 with ea eb <;> subst ea <;> subst eb
          · exact hE.1
          · rw [cross_product_swap01, hE.1, neg_zero]
        have hbox : is_in_rectangle p1 ⟨a2, b2⟩ = true := by
          rcases sortPair_cases p2 q2 with hc | hc <;> rw [hc] at e2 <;>
            injection e2 with ea eb <;> subst ea <;> subst eb
          · exact hE.2
          · rw [is_in_rectangle_comm]
            exact hE.2
        exact (collinear_box_iff hcr hle2).1 hbox
    exact (classify_point_on a2 b2 p1 key.1 key.2).1
  · by_cases hnd2 : p2 = q2
    · subst hnd2
      have h3 : cross_product p2 p2 p1 = 0 := cross_product_degenerate p2 p1
      have h4 : cross_product p2 p2 q1 = 0 := cross_product_degenerate p2 q1
      rw [do_intersect_iff] at h
      simp only at h
      by_cases ho1 : cross_product p1 q1 p2 = 0
      · rw [rel_eval_collinear ⟨p1, q1⟩ ⟨p2, p2⟩ ho1 ho1]
        unfold collinearClassify
        simp only
        rw [sortPair_self]
        obtain ⟨a1, b1, e1⟩ : ∃ a b, sortPair p1 q1 = (a, b) := ⟨_, _, rfl⟩
        rw [e1]
        have hle1 : lexLe a1 b1 := by
          have hsp := sortPair_le p1 q1
          rw [e1] at hsp
          exact hsp
        have hbox0 : is_in_rectangle p2 ⟨p1, q1⟩ = true := by
          rcases h with ((hA | hB) | hC) | (hD | hE)
          · rcases hA with ⟨-, ⟨hz, -⟩ | ⟨hz, -⟩⟩ <;> rw [h3] at hz <;>
              exact absurd hz (lt_irrefl 0)
          · exact hB.2
          · exact hC.2
          · have hp1 : p1 = p2 := (box_point_iff p1 p2).1 hD.2
            rw [← hp1]
            exact fst_mem_own_box p1 q1
          · have hq1 : q1 = p2 := (box_point_iff q1 p2).1 hE.2
            rw [← hq1]
            exact snd_mem_own_box p1 q1
        have hcr : cross_product a1 b1 p2 = 0 := by
          rcases sortPair_cases p1 q1 with hc | hc <;> rw [hc] at e1 <;>
            injection e1 with ea eb <;> subst ea <;> subst eb
          · exact ho1
          · rw [cross_product_swap01, ho1, neg_zero]
        have hbox : is_in_rectangle p2 ⟨a1, b1⟩ = true := by
          rcases sortPair_cases p1 q1 with hc | hc <;> rw [hc] at e1 <;>
            injection e1 with ea eb <;> subst ea <;> subst eb
          · exact hbox0
          · rw [is_in_rectangle_comm]
            exact hbox0
        have key := (collinear_box_iff hcr hle1).1 hbox
        exact (classify_point_on a1 b1 p2 key.1 key.2).2
      · rw [rel_eval_mixed_o4 ⟨p1, q1⟩ ⟨p2, p2⟩ ho1 ho1 h4]
        simp only
        have hq1 : q1 = p2 := by
          rcases h with ((hA | hB) | hC) | (hD | hE)
          · rcases hA with ⟨-, ⟨hz, -⟩ | ⟨hz, -⟩⟩ <;> rw [h3] at hz <;>
              exact absurd hz (lt_irrefl 0)
          · exact absurd hB.1 ho1
          · exact absurd hC.1 ho1
          · exfalso
            apply ho1
            have hp1 : p1 = p2 := (box_point_iff p1 p2).1 hD.2
            rw [← hp1]
            exact cross_product_third_self p1 q1
          · exact (box_point_iff q1 p2).1 hE.2
        rw [if_pos ((box_point_iff q1 p2).2 hq1), if_pos (Or.inl hq1)]
        decide
    · exact fun hc =>
        ((do_intersect_iff_rel_ne_none ⟨p1, q1⟩ ⟨p2, q2⟩ hnd1 hnd2).1 h) hc

end GeometryLemmas2

section SweepLine

/-- `f64::EPSILON`, exactly. -/
def EPSILON : ℚ := 1 / 2 ^ 52

/-- Modelled from the spec: `cmpf64` (imported from the crate root but not
present in `src/`) totally orders the finite `f64` values it is given; on
the exact rational model it is the three-way comparison. -/
def cmpf64 (a b : ℚ) : Ordering :=
  if a < b then Ordering.lt else if a = b then Ordering.eq else Ordering.gt

/-- `minf64` from `plane`: the smaller argument (ties take the first). -/
def minf64 (a b : ℚ) : ℚ := if a ≤ b then a else b

/-- `maxf64` from `plane`: the larger argument (ties take the first). -/
def maxf64 (a b : ℚ) : ℚ := if b ≤ a then a else b

/-- `Segment::y(x)`: the y-coordinate of the segment's supporting line at
abscissa `x`; a segment whose x-extent is below `EPSILON` is treated as
vertical and reports its stored first endpoint's y. -/
def Segment.y (s : Segment ℚ) (x : ℚ) : ℚ :=
  if |s.fst.1 - s.snd.1| < EPSILON then s.fst.2
  else s.fst.2 + (x - s.fst.1) * (s.snd.2 - s.fst.2) / (s.snd.1 - s.fst.1)

/-- `Segment::cmp_at_start`: compare two segments by their y-coordinates at
the later of the two minimal x-coordinates. -/
def cmp_at_start (s1 s2 : Segment ℚ) : Ordering :=
  cmpf64 (s1.y (maxf64 (minf64 s1.fst.1 s1.snd.1) (minf64 s2.fst.1 s2.snd.1)))
    (s2.y (maxf64 (minf64 s1.fst.1 s1.snd.1) (minf64 s2.fst.1 s2.snd.1)))

/-- Rust's `usize::cmp`. -/
def cmpNat (i j : ℕ) : Ordering :=
  if i < j then Ordering.lt else if i = j then Ordering.eq else Ordering.gt

/-- Rust's `bool::cmp` (`false < true`). -/
def cmpBool (a b : Bool) : Ordering :=
  if a = b then Ordering.eq else if b then Ordering.lt else Ordering.gt

/-- The sweep line's `Event`. -/
structure Event where
  x : ℚ
  is_start : Bool
  id : ℕ
deriving DecidableEq, Repr

/-- `Ord for Event`: by x when the difference exceeds `EPSILON`, otherwise
start events before end events (`other.is_start.cmp(&self.is_start)`). -/
def cmpEvent (e1 e2 : Event) : Ordering :=
  if |e1.x - e2.x| > EPSILON then cmpf64 e1.x e2.x
  else cmpBool e2.is_start e1.is_start

/-- The non-strict order induced by `cmpEvent`, used for sorting the event
queue (`sort_unstable` on a slice this small is an insertion sort, which is
what `List.insertionSort` models). -/
def eventLe (e1 e2 : Event) : Prop := cmpEvent e1 e2 ≠ Ordering.gt

instance (e1 e2 : Event) : Decidable (eventLe e1 e2) := by
  unfold eventLe; infer_instance

/-- The sweep line's `ActiveSegment`. -/
structure ActiveSegment where
  segment : Segment ℚ
  id : ℕ
deriving DecidableEq, Repr

/-- `Ord for ActiveSegment`: `cmp_at_start`, ties broken by id. -/
def cmpAS (a b : ActiveSegment) : Ordering :=
  match cmp_at_start a.segment b.segment with
  | Ordering.eq => cmpNat a.id b.id
  | o => o

def ordIsLt (o : Ordering) : Bool :=
  match o with
  | Ordering.lt => true
  | _ => false

def ordIsEq (o : Ordering) : Bool :=
  match o with
  | Ordering.eq => true
  | _ => false

/-- `BTreeSet::range(s..)`: the suffix of comparator-ordered elements not
below `s`.  The active set is modelled as a list kept in comparator order
by `insertAS`, which matches the `BTreeSet` whenever the comparator is
consistent on the live elements. -/
def rangeFrom (s : ActiveSegment) (l : List ActiveSegment) : List ActiveSegment :=
  l.dropWhile (fun x => ordIsLt (cmpAS x s))

/-- `BTreeSet::range(..s)`: the prefix of elements strictly below `s`. -/
def rangeTo (s : ActiveSegment) (l : List ActiveSegment) : List ActiveSegment :=
  l.takeWhile (fun x => ordIsLt (cmpAS x s))

/-- `BTreeSet::insert`: insert in comparator order; a no-op when an element
comparing equal is already present. -/
def insertAS (s : ActiveSegment) : List ActiveSegment → List ActiveSegment
  | [] => [s]
  | x :: xs =>
    if ordIsLt (cmpAS x s) then x :: insertAS s xs
    else if ordIsEq (cmpAS x s) then x :: xs
    else s :: x :: xs

/-- `BTreeSet::remove`: remove the element comparing equal, if any. -/
def removeAS (s : ActiveSegment) (l : List ActiveSegment) : List ActiveSegment :=
  l.eraseP (fun x => ordIsEq (cmpAS x s))

/-- The event loop of `find_intersecting_segments_by` (specialized to the
`do_intersect` predicate, as `find_intersecting_segments` does): start
events probe the neighbour above then below before insertion; end events
skip the segment itself (`iter.next().unwrap()`, a panic — `.error ()` —
when the range is empty), then compare the two new neighbours if both
exist, and remove the segment. -/
def processEvents (segs : List (Segment ℚ)) :
    List Event → List ActiveSegment → Except Unit (Option (ℕ × ℕ))
  | [], _ => Except.ok none
  | e :: rest, active =>
    let s : ActiveSegment := ⟨segs.getD e.id ⟨(0, 0), (0, 0)⟩, e.id⟩
    if e.is_start = true then
      match (rangeFrom s active).head? with
      | some nxt =>
        if do_intersect s.segment nxt.segment then Except.ok (some (e.id, nxt.id))
        else
          match (rangeTo s active).getLast? with
          | some prv =>
            if do_intersect s.segment prv.segment then Except.ok (some (e.id, prv.id))
            else processEvents segs rest (insertAS s active)
          | none => processEvents segs rest (insertAS s active)
      | none =>
        match (rangeTo s active).getLast? with
        | some prv =>
          if do_intersect s.segment prv.segment then Except.ok (some (e.id, prv.id))
          else processEvents segs rest (insertAS s active)
        | none => processEvents segs rest (insertAS s active)
    else
      match rangeFrom s active with
      | [] => Except.error ()
      | _ :: tl =>
        match tl.head?, (rangeTo s active).getLast? with
        | some nxt, some prv =>
          if do_intersect nxt.segment prv.segment then Except.ok (some (nxt.id, prv.id))
          else processEvents segs rest (removeAS s active)
        | _, _ => processEvents segs rest (removeAS s active)

/-- Event construction: for segment `i` (endpoints swapped so the start has
the smaller x), a start event then an end event, blocks in index order. -/
def mkEventsFrom : ℕ → List (Segment ℚ) → List Event
  | _, [] => []
  | i, sg :: rest =>
    (if sg.fst.1 > sg.snd.1 then
       [⟨sg.snd.1, true, i⟩, ⟨sg.fst.1, false, i⟩]
     else
       [⟨sg.fst.1, true, i⟩, ⟨sg.snd.1, false, i⟩]) ++ mkEventsFrom (i + 1) rest

/-- `find_intersecting_segments`: build the events, sort them, and run the
sweep starting from an empty active set. -/
def find_intersecting_segments (segs : List (Segment ℚ)) :
    Except Unit (Option (ℕ × ℕ)) :=
  processEvents segs (List.insertionSort eventLe (mkEventsFrom 0 segs)) []

/-- Well-formedness of an event sequence against a multiset of already
active ids: every start is fresh and every end is currently active. -/
def goodEvents : List Event → List ℕ → Prop
  | [], _ => True
  | e :: rest, act =>
    if e.is_start = true then e.id ∉ act ∧ goodEvents rest (e.id :: act)
    else e.id ∈ act ∧ goodEvents rest (act.erase e.id)

end SweepLine

section SweepLineLemmas

theorem cmpf64_refl (a : ℚ) : cmpf64 a a = Ordering.eq := by
  unfold cmpf64
  rw [if_neg (lt_irrefl a), if_pos rfl]

theorem cmpNat_refl (i : ℕ) : cmpNat i i = Ordering.eq := by
  unfold cmpNat
  rw [if_neg (lt_irrefl i), if_pos rfl]

theorem cmp_at_start_refl (s : Segment ℚ) : cmp_at_start s s = Ordering.eq := by
  unfold cmp_at_start
  exact cmpf64_refl _

theorem cmpAS_refl (s : ActiveSegment) : cmpAS s s = Ordering.eq := by
  unfold cmpAS
  rw [cmp_at_start_refl]
  exact cmpNat_refl _

theorem ordIsEq_iff (o : Ordering) : ordIsEq o = true ↔ o = Ordering.eq := by
  cases o <;> simp [ordIsEq]

theorem ordIsLt_iff (o : Ordering) : ordIsLt o = true ↔ o = Ordering.lt := by
  cases o <;> simp [ordIsLt]

theorem cmpAS_eq_imp_id {x s : ActiveSegment} (h : cmpAS x s = Ordering.eq) :
    x.id = s.id := by
  unfold cmpAS at h
  rcases hc : cmp_at_start x.segment s.segment with _ | _ | _ <;> rw [hc] at h
  · exact absurd (show Ordering.lt = Ordering.eq from h) (by decide)
  · have h2 : cmpNat x.id s.id = Ordering.eq := h
    unfold cmpNat at h2
    by_cases hlt : x.id < s.id
    · rw [if_pos hlt] at h2
      exact absurd h2 (by decide)
    · rw [if_neg hlt] at h2
      by_cases heq : x.id = s.id
      · exact heq
      · rw [if_neg heq] at h2
        exact absurd h2 (by decide)
  · exact absurd (show Ordering.gt = Ordering.eq from h) (by decide)

theorem mem_of_head_eq {γ : Type} {l : List γ} {a : γ} (h : l.head? = some a) :
    a ∈ l := by
  cases l with
  | nil => cases h
  | cons x xs =>
    rw [List.head?_cons] at h
    injection h with h
    rw [← h]
    exact List.mem_cons_self x xs

theorem mem_of_getLast_eq {γ : Type} : ∀ {l : List γ} {a : γ},
    l.getLast? = some a → a ∈ l := by
  intro l
  induction l with
  | nil =>
    intro a h
    cases h
  | cons x xs ih =>
    intro a h
    cases xs with
    | nil =>
      injection h with h
      rw [← h]
      exact List.mem_cons_self x []
    | cons y ys =>
      rw [List.getLast?_cons_cons] at h
      exact List.mem_cons_of_mem x (ih h)

theorem dropWhile_ne_nil_of_mem {γ : Type} {p : γ → Bool} {x : γ} {l : List γ}
    (hx : x ∈ l) (hpx : p x = false) : l.dropWhile p ≠ [] := by
  intro hnil
  rw [List.dropWhile_eq_nil_iff] at hnil
  have h2 := hnil x hx
  rw [hpx] at h2
  exact Bool.false_ne_true h2

theorem insertAS_perm (s : ActiveSegment) :
    ∀ l : List ActiveSegment, (∀ x ∈ l, ordIsEq (cmpAS x s) = false) →
      (insertAS s l).Perm (s :: l) := by
  intro l
  induction l with
  | nil =>
    intro hall
    exact List.Perm.refl [s]
  | cons x xs ih =>
    intro hall
    simp only [insertAS]
    split_ifs with h1 h2
    · exact (List.Perm.cons x (ih (fun y hy => hall y (List.mem_cons_of_mem x hy)))).trans
        (List.Perm.swap s x xs)
    · exfalso
      have h3 := hall x (List.mem_cons_self x xs)
      rw [h3] at h2
      exact Bool.false_ne_true h2
    · exact List.Perm.refl _

theorem mem_insertAS {x s : ActiveSegment} : ∀ {l : List ActiveSegment},
    x ∈ insertAS s l → x = s ∨ x ∈ l := by
  intro l
  induction l with
  | nil =>
    intro h
    simp only [insertAS, List.mem_singleton] at h
    exact Or.inl h
  | cons y ys ih =>
    intro h
    simp only [insertAS] at h
    split_ifs at h with h1 h2
    · rcases List.mem_cons.1 h with rfl | h3
      · exact Or.inr (List.mem_cons_self x ys)
      · rcases ih h3 with h4 | h4
        · exact Or.inl h4
        · exact Or.inr (List.mem_cons_of_mem y h4)
    · exact Or.inr h
    · rcases List.mem_cons.1 h with rfl | h3
      · exact Or.inl rfl
      · exact Or.inr h3

theorem removeAS_map (s : ActiveSegment) :
    ∀ l : List ActiveSegment,
      (∀ x ∈ l, ordIsEq (cmpAS x s) = (x.id == s.id)) →
      (removeAS s l).map (fun x => x.id) = (l.map (fun x => x.id)).erase s.id := by
  intro l
  induction l with
  | nil =>
    intro hall
    rfl
  | cons x xs ih =>
    intro hall
    unfold removeAS at ih ⊢
    rw [List.eraseP_cons, List.map_cons, List.erase_cons]
    by_cases hid : x.id = s.id
    · have h1 : ordIsEq (cmpAS x s) = true := by
        rw [hall x (List.mem_cons_self x xs), hid]
        simp
      rw [h1, if_pos (by simp [hid])]
      rfl
    · have h1 : ordIsEq (cmpAS x s) = false := by
        rw [hall x (List.mem_cons_self x xs)]
        simp [hid]
      rw [h1, if_neg (by simp [hid])]
      simp only [cond_false, List.map_cons]
      rw [ih (fun y hy => hall y (List.mem_cons_of_mem x hy))]

theorem goodEvents_perm : ∀ (evs : List Event) {act act' : List ℕ}, act.Perm act' →
    (goodEvents evs act ↔ goodEvents evs act') := by
  intro evs
  induction evs with
  | nil =>
    intro act act' hp
    simp [goodEvents]
  | cons e rest ih =>
    intro act act' hp
    simp only [goodEvents]
    by_cases hst : e.is_start = true
    · rw [if_pos hst, if_pos hst]
      constructor
      · rintro ⟨h1, h2⟩
        exact ⟨fun hm => h1 (hp.mem_iff.2 hm), (ih (hp.cons e.id)).1 h2⟩
      · rintro ⟨h1, h2⟩
        exact ⟨fun hm => h1 (hp.mem_iff.1 hm), (ih (hp.cons e.id)).2 h2⟩
    · rw [if_neg hst, if_neg hst]
      constructor
      · rintro ⟨h1, h2⟩
        exact ⟨hp.mem_iff.1 h1, (ih (hp.erase e.id)).1 h2⟩
      · rintro ⟨h1, h2⟩
        exact ⟨hp.mem_iff.2 h1, (ih (hp.erase e.id)).2 h2⟩

end SweepLineLemmas

section SweepLineMain

/-- Combined safety and soundness of the event loop: under the sweep-line
invariants (active elements are exactly the active-set entries built from
their ids, active ids are distinct, event ids are in range, and the event
sequence is well formed against the active ids), processing never panics,
and any returned pair consists of two distinct in-range indices whose
segments satisfy `do_intersect`. -/
theorem processEvents_ok (segs : List (Segment ℚ)) :
    ∀ (evs : List Event) (active : List ActiveSegment),
      (∀ x ∈ active, x.segment = segs.getD x.id ⟨(0, 0), (0, 0)⟩ ∧ x.id < segs.length) →
      (active.map (fun x => x.id)).Nodup →
      (∀ e2 ∈ evs, e2.id < segs.length) →
      goodEvents evs (active.map (fun x => x.id)) →
      processEvents segs evs active ≠ Except.error () ∧
      (∀ i j : ℕ, processEvents segs evs active = Except.ok (some (i, j)) →
        i ≠ j ∧ i < segs.length ∧ j < segs.length ∧
        do_intersect (segs.getD i ⟨(0, 0), (0, 0)⟩) (segs.getD j ⟨(0, 0), (0, 0)⟩) = true) := by
  intro evs
  induction evs with
  | nil =>
    intro active hA1 hA2 hE hG
    constructor
    · intro hc
      simp [processEvents] at hc
    · intro i j hc
      simp [processEvents] at hc
  | cons e rest ih =>
    intro active hA1 hA2 hE hG
    have hErest : ∀ e2 ∈ rest, e2.id < segs.length :=
      fun e2 h2 => hE e2 (List.mem_cons_of_mem e h2)
    have heid : e.id < segs.length := hE e (List.mem_cons_self e rest)
    have hix : ∀ x ∈ active, x.id = e.id →
        x = (⟨segs.getD e.id ⟨(0, 0), (0, 0)⟩, e.id⟩ : ActiveSegment) := by
      intro x hx hid
      obtain ⟨hseg, -⟩ := hA1 x hx
      cases x with
      | mk xseg xid =>
        simp only at hid hseg
        subst hid
        rw [hseg]
    by_cases hst : e.is_start = true
    · -- start event
      have hGu : e.id ∉ active.map (fun x => x.id) ∧
          goodEvents rest (e.id :: active.map (fun x => x.id)) := by
        have hG2 := hG
        simp only [goodEvents] at hG2
        rw [if_pos hst] at hG2
        exact hG2
      obtain ⟨hfresh, hGrest⟩ := hGu
      have hnoeq : ∀ x ∈ active,
          ordIsEq (cmpAS x ⟨segs.getD e.id ⟨(0, 0), (0, 0)⟩, e.id⟩) = false := by
        intro x hx
        have hne : ¬ (ordIsEq (cmpAS x ⟨segs.getD e.id ⟨(0, 0), (0, 0)⟩, e.id⟩) = true) := by
          intro ht
          have hid : x.id = e.id := cmpAS_eq_imp_id ((ordIsEq_iff _).1 ht)
          apply hfresh
          rw [← hid]
          exact List.mem_map_of_mem _ hx
        cases h2 : ordIsEq (cmpAS x ⟨segs.getD e.id ⟨(0, 0), (0, 0)⟩, e.id⟩) with
        | false => rfl
        | true => exact absurd h2 hne
      have hperm := insertAS_perm ⟨segs.getD e.id ⟨(0, 0), (0, 0)⟩, e.id⟩ active hnoeq
      have hmapperm : ((insertAS ⟨segs.getD e.id ⟨(0, 0), (0, 0)⟩, e.id⟩ active).map
          (fun x => x.id)).Perm (e.id :: active.map (fun x => x.id)) := by
        have h2 := hperm.map (fun x => x.id)
        simpa using h2
      have hA1new : ∀ x ∈ insertAS ⟨segs.getD e.id ⟨(0, 0), (0, 0)⟩, e.id⟩ active,
          x.segment = segs.getD x.id ⟨(0, 0), (0, 0)⟩ ∧ x.id < segs.length := by
        intro x hx
        rcases mem_insertAS hx with rfl | hx2
        · exact ⟨rfl, heid⟩
        · exact hA1 x hx2
      have hA2new : ((insertAS ⟨segs.getD e.id ⟨(0, 0), (0, 0)⟩, e.id⟩ active).map
          (fun x => x.id)).Nodup := by
        rw [hmapperm.nodup_iff]
        exact List.nodup_cons.2 ⟨hfresh, hA2⟩
      have hGnew := (goodEvents_perm rest hmapperm).2 hGrest
      have hrec := ih (insertAS ⟨segs.getD e.id ⟨(0, 0), (0, 0)⟩, e.id⟩ active)
        hA1new hA2new hErest hGnew
      have hret : ∀ nxt ∈ active,
          do_intersect (segs.getD e.id ⟨(0, 0), (0, 0)⟩) nxt.segment = true →
          e.id ≠ nxt.id ∧ e.id < segs.length ∧ nxt.id < segs.length ∧
          do_intersect (segs.getD e.id ⟨(0, 0), (0, 0)⟩)
            (segs.getD nxt.id ⟨(0, 0), (0, 0)⟩) = true := by
        intro nxt hn hdi
        have hne : e.id ≠ nxt.id := by
          intro heq
          apply hfresh
          rw [heq]
          exact List.mem_map_of_mem _ hn
        refine ⟨hne, heid, (hA1 nxt hn).2, ?_⟩
        rw [← (hA1 nxt hn).1]
        exact hdi
      simp only [processEvents]
      rw [if_pos hst]
      rcases hnx : (rangeFrom ⟨segs.getD e.id ⟨(0, 0), (0, 0)⟩, e.id⟩ active).head?
        with _ | nxt
      · simp only [hnx]
        rcases hpl : (rangeTo ⟨segs.getD e.id ⟨(0, 0), (0, 0)⟩, e.id⟩ active).getLast?
          with _ | prv
        · simp only [hpl]
          exact hrec
        · simp only [hpl]
          have hpmem : prv ∈ active :=
            (List.takeWhile_sublist _).subset (mem_of_getLast_eq hpl)
          by_cases hdi : do_intersect
              (segs.getD e.id ⟨(0, 0), (0, 0)⟩) prv.segment = true
          · rw [if_pos hdi]
            constructor
            · intro hc
              simp at hc
            · intro i j hc
              simp only [Except.ok.injEq, Option.some.injEq, Prod.mk.injEq] at hc
              obtain ⟨rfl, rfl⟩ := hc
              exact hret prv hpmem hdi
          · rw [if_neg hdi]
            exact hrec
      · simp only [hnx]
        have hnmem : nxt ∈ active :=
          (List.dropWhile_sublist _).subset (mem_of_head_eq hnx)
        by_cases hdi : do_intersect
            (segs.getD e.id ⟨(0, 0), (0, 0)⟩) nxt.segment = true
        · rw [if_pos hdi]
          constructor
          · intro hc
            simp at hc
          · intro i j hc
            simp only [Except.ok.injEq, Option.some.injEq, Prod.mk.injEq] at hc
            obtain ⟨rfl, rfl⟩ := hc
            exact hret nxt hnmem hdi
        · rw [if_neg hdi]
          rcases hpl : (rangeTo ⟨segs.getD e.id ⟨(0, 0), (0, 0)⟩, e.id⟩ active).getLast?
            with _ | prv
          · simp only [hpl]
            exact hrec
          · simp only [hpl]
            have hpmem : prv ∈ active :=
              (List.takeWhile_sublist _).subset (mem_of_getLast_eq hpl)
            by_cases hdi2 : do_intersect
                (segs.getD e.id ⟨(0, 0), (0, 0)⟩) prv.segment = true
            · rw [if_pos hdi2]
              constructor
              · intro hc
                simp at hc
              · intro i j hc
                simp only [Except.ok.injEq, Option.some.injEq, Prod.mk.injEq] at hc
                obtain ⟨rfl, rfl⟩ := hc
                exact hret prv hpmem hdi2
            · rw [if_neg hdi2]
              exact hrec
    · -- end event
      have hGu : e.id ∈ active.map (fun x => x.id) ∧
          goodEvents rest ((active.map (fun x => x.id)).erase e.id) := by
        have hG2 := hG
        simp only [goodEvents] at hG2
        rw [if_neg hst] at hG2
        exact hG2
      obtain ⟨hmem, hGrest⟩ := hGu
      obtain ⟨x0, hx0mem, hx0id⟩ := List.mem_map.1 hmem
      have hx0s := hix x0 hx0mem hx0id
      have hnonnil : rangeFrom ⟨segs.getD e.id ⟨(0, 0), (0, 0)⟩, e.id⟩ active ≠ [] := by
        apply dropWhile_ne_nil_of_mem hx0mem
        rw [hx0s, cmpAS_refl]
        rfl
      have hA1rm : ∀ x ∈ removeAS ⟨segs.getD e.id ⟨(0, 0), (0, 0)⟩, e.id⟩ active,
          x.segment = segs.getD x.id ⟨(0, 0), (0, 0)⟩ ∧ x.id < segs.length :=
        fun x hx => hA1 x ((List.eraseP_sublist _).subset hx)
      have hmaprm : (removeAS ⟨segs.getD e.id ⟨(0, 0), (0, 0)⟩, e.id⟩ active).map
          (fun x => x.id) = (active.map (fun x => x.id)).erase e.id := by
        apply removeAS_map
        intro x hx
        by_cases hid : x.id = e.id
        · rw [hix x hx hid, cmpAS_refl]
          simp [ordIsEq]
        · have h1 : ordIsEq (cmpAS x ⟨segs.getD e.id ⟨(0, 0), (0, 0)⟩, e.id⟩) = false := by
            cases hoe : ordIsEq (cmpAS x ⟨segs.getD e.id ⟨(0, 0), (0, 0)⟩, e.id⟩) with
            | false => rfl
            | true => exact absurd (cmpAS_eq_imp_id ((ordIsEq_iff _).1 hoe)) hid
          have h2 : (x.id == e.id) = false := by
            simp [hid]
          rw [h1, h2]
      have hA2rm : ((removeAS ⟨segs.getD e.id ⟨(0, 0), (0, 0)⟩, e.id⟩ active).map
          (fun x => x.id)).Nodup := by
        rw [hmaprm]
        exact hA2.erase e.id
      have hGrm : goodEvents rest ((removeAS ⟨segs.getD e.id ⟨(0, 0), (0, 0)⟩, e.id⟩
          active).map (fun x => x.id)) := by
        rw [hmaprm]
        exact hGrest
      have hrec := ih (removeAS ⟨segs.getD e.id ⟨(0, 0), (0, 0)⟩, e.id⟩ active)
        hA1rm hA2rm hErest hGrm
      simp only [processEvents]
      rw [if_neg hst]
      rcases hrf : rangeFrom ⟨segs.getD e.id ⟨(0, 0), (0, 0)⟩, e.id⟩ active
        with _ | ⟨hd0, tl⟩
      · exact absurd hrf hnonnil
      · simp only [hrf]
        rcases htl : tl.head? with _ | nxt
        · simp only [htl]
          exact hrec
        · try simp only [htl]
          rcases hpl : (rangeTo ⟨segs.getD e.id ⟨(0, 0), (0, 0)⟩, e.id⟩ active).getLast?
            with _ | prv
          · simp only [hpl]
            exact hrec
          · simp only [hpl]
            have hnmemFrom : nxt ∈ rangeFrom ⟨segs.getD e.id ⟨(0, 0), (0, 0)⟩, e.id⟩
                active := by
              rw [hrf]
              exact List.mem_cons_of_mem hd0 (mem_of_head_eq htl)
            have hnmem : nxt ∈ active := (List.dropWhile_sublist _).subset hnmemFrom
            have hpmem : prv ∈ active :=
              (List.takeWhile_sublist _).subset (mem_of_getLast_eq hpl)
            have hne : nxt.id ≠ prv.id := by
              have hsplit : rangeTo ⟨segs.getD e.id ⟨(0, 0), (0, 0)⟩, e.id⟩ active ++
                  rangeFrom ⟨segs.getD e.id ⟨(0, 0), (0, 0)⟩, e.id⟩ active = active := by
                unfold rangeTo rangeFrom
                exact List.takeWhile_append_dropWhile _ _
              have hmapeq : (rangeTo ⟨segs.getD e.id ⟨(0, 0), (0, 0)⟩, e.id⟩ active).map
                  (fun x => x.id) ++
                  (rangeFrom ⟨segs.getD e.id ⟨(0, 0), (0, 0)⟩, e.id⟩ active).map
                  (fun x => x.id) = active.map (fun x => x.id) := by
                rw [← List.map_append, hsplit]
              have hnd : ((rangeTo ⟨segs.getD e.id ⟨(0, 0), (0, 0)⟩, e.id⟩ active).map
                  (fun x => x.id) ++
                  (rangeFrom ⟨segs.getD e.id ⟨(0, 0), (0, 0)⟩, e.id⟩ active).map
                  (fun x => x.id)).Nodup := by
                rw [hmapeq]
                exact hA2
              have hdisj := (List.nodup_append.1 hnd).2.2
              intro heq
              have h1 : prv.id ∈ (rangeTo ⟨segs.getD e.id ⟨(0, 0), (0, 0)⟩, e.id⟩
                  active).map (fun x => x.id) :=
                List.mem_map_of_mem _ (mem_of_getLast_eq hpl)
              have h2 : nxt.id ∈ (rangeFrom ⟨segs.getD e.id ⟨(0, 0), (0, 0)⟩, e.id⟩
                  active).map (fun x => x.id) :=
                List.mem_map_of_mem _ hnmemFrom
              have h3 : prv.id ∈ (rangeFrom ⟨segs.getD e.id ⟨(0, 0), (0, 0)⟩, e.id⟩
                  active).map (fun x => x.id) := by
                rw [← heq]
                exact h2
              exact hdisj h1 h3
            by_cases hdi : do_intersect nxt.segment prv.segment = true
            · rw [if_pos hdi]
              constructor
              · intro hc
                simp at hc
              · intro i j hc
                simp only [Except.ok.injEq, Option.some.injEq, Prod.mk.injEq] at hc
                obtain ⟨rfl, rfl⟩ := hc
                refine ⟨hne, (hA1 nxt hnmem).2, (hA1 prv hpmem).2, ?_⟩
                rw [← (hA1 nxt hnmem).1, ← (hA1 prv hpmem).1]
                exact hdi
            · rw [if_neg hdi]
              exact hrec

end SweepLineMain

section SweepLineEvents

theorem mkEventsFrom_id_bound : ∀ (segs : List (Segment ℚ)) (i : ℕ), ∀ e ∈ mkEventsFrom i segs,
    i ≤ e.id ∧ e.id < i + segs.length := by
  intro segs
  induction segs with
  | nil =>
    intro i e he
    simp [mkEventsFrom] at he
  | cons sg rest ih =>
    intro i e he
    simp only [mkEventsFrom] at he
    rcases List.mem_append.1 he with h1 | h1
    · have hid : e.id = i := by
        split_ifs at h1 <;>
          simp only [List.mem_cons, List.mem_singleton, List.not_mem_nil, or_false] at h1 <;>
          rcases h1 with rfl | rfl <;> rfl
      rw [hid]
      simp only [List.length_cons]
      omega
    · have h2 := ih (i + 1) e h1
      simp only [List.length_cons]
      omega

theorem mkEventsFrom_nodup : ∀ (segs : List (Segment ℚ)) (i : ℕ),
    (mkEventsFrom i segs).Nodup := by
  intro segs
  induction segs with
  | nil =>
    intro i
    simp [mkEventsFrom]
  | cons sg rest ih =>
    intro i
    simp only [mkEventsFrom]
    apply List.Nodup.append
    · split_ifs <;> simp
    · exact ih (i + 1)
    · intro e he1 he2
      have hb := mkEventsFrom_id_bound rest (i + 1) e he2
      have hid : e.id = i := by
        split_ifs at he1 <;>
          simp only [List.mem_cons, List.mem_singleton, List.not_mem_nil, or_false] at he1 <;>
          rcases he1 with rfl | rfl <;> rfl
      omega

theorem mkEventsFrom_uniq : ∀ (segs : List (Segment ℚ)) (i : ℕ),
    ∀ e1 ∈ mkEventsFrom i segs, ∀ e2 ∈ mkEventsFrom i segs,
      e1.id = e2.id → e1.is_start = e2.is_start → e1 = e2 := by
  intro segs
  induction segs with
  | nil =>
    intro i e1 h1
    simp [mkEventsFrom] at h1
  | cons sg rest ih =>
    intro i e1 h1 e2 h2 hid hss
    simp only [mkEventsFrom] at h1 h2
    rcases List.mem_append.1 h1 with hb1 | hr1 <;> rcases List.mem_append.1 h2 with hb2 | hr2
    · split_ifs at hb1 hb2 <;>
        simp only [List.mem_cons, List.mem_singleton, List.not_mem_nil, or_false]
          at hb1 hb2 <;>
        rcases hb1 with rfl | rfl <;> rcases hb2 with rfl | rfl <;>
        first
          | rfl
          | simp at hss
    · exfalso
      have hbound := mkEventsFrom_id_bound rest (i + 1) e2 hr2
      have hid1 : e1.id = i := by
        split_ifs at hb1 <;>
          simp only [List.mem_cons, List.mem_singleton, List.not_mem_nil, or_false] at hb1 <;>
          rcases hb1 with rfl | rfl <;> rfl
      omega
    · exfalso
      have hbound := mkEventsFrom_id_bound rest (i + 1) e1 hr1
      have hid2 : e2.id = i := by
        split_ifs at hb2 <;>
          simp only [List.mem_cons, List.mem_singleton, List.not_mem_nil, or_false] at hb2 <;>
          rcases hb2 with rfl | rfl <;> rfl
      omega
    · exact ih (i + 1) e1 hr1 e2 hr2 hid hss

theorem eventLe_start_end (xs xe : ℚ) (i j : ℕ) (h : xs ≤ xe) :
    eventLe ⟨xs, true, i⟩ ⟨xe, false, j⟩ := by
  unfold eventLe cmpEvent
  simp only
  split_ifs with hgt
  · have hlt : xs < xe := by
      rcases lt_or_eq_of_le h with h2 | h2
      · exact h2
      · exfalso
        rw [h2, sub_self, abs_zero] at hgt
        norm_num [EPSILON] at hgt
    unfold cmpf64
    rw [if_pos hlt]
    decide
  · decide

theorem mkEventsFrom_pairing : ∀ (segs : List (Segment ℚ)) (i : ℕ),
    ∀ e ∈ mkEventsFrom i segs, e.is_start = false →
      ∃ st l1 l2, mkEventsFrom i segs = l1 ++ st :: l2 ∧ e ∈ l2 ∧
        st.is_start = true ∧ st.id = e.id ∧ eventLe st e := by
  intro segs
  induction segs with
  | nil =>
    intro i e he
    simp [mkEventsFrom] at he
  | cons sg rest ih =>
    intro i e he hend
    simp only [mkEventsFrom] at he
    rcases List.mem_append.1 he with hb | hr
    · by_cases hc : sg.fst.1 > sg.snd.1
      · rw [if_pos hc] at hb
        simp only [List.mem_cons, List.mem_singleton, List.not_mem_nil, or_false] at hb
        rcases hb with rfl | rfl
        · simp at hend
        · refine ⟨⟨sg.snd.1, true, i⟩, [],
            ⟨sg.fst.1, false, i⟩ :: mkEventsFrom (i + 1) rest, ?_, ?_, rfl, rfl, ?_⟩
          · simp only [mkEventsFrom, if_pos hc]
            rfl
          · exact List.mem_cons_self _ _
          · exact eventLe_start_end sg.snd.1 sg.fst.1 i i (le_of_lt hc)
      · rw [if_neg hc] at hb
        simp only [List.mem_cons, List.mem_singleton, List.not_mem_nil, or_false] at hb
        rcases hb with rfl | rfl
        · simp at hend
        · refine ⟨⟨sg.fst.1, true, i⟩, [],
            ⟨sg.snd.1, false, i⟩ :: mkEventsFrom (i + 1) rest, ?_, ?_, rfl, rfl, ?_⟩
          · simp only [mkEventsFrom, if_neg hc]
            rfl
          · exact List.mem_cons_self _ _
          · exact eventLe_start_end sg.fst.1 sg.snd.1 i i (not_lt.1 hc)
    · obtain ⟨st, l1, l2, heq, hm, hs1, hs2, hs3⟩ := ih (i + 1) e hr hend
      refine ⟨st,
        (if sg.fst.1 > sg.snd.1 then
           [⟨sg.snd.1, true, i⟩, ⟨sg.fst.1, false, i⟩]
         else
           [⟨sg.fst.1, true, i⟩, ⟨sg.snd.1, false, i⟩]) ++ l1, l2, ?_, hm, hs1, hs2, hs3⟩
      simp only [mkEventsFrom]
      rw [heq, List.append_assoc]

theorem sublist_orderedInsert (a : Event) :
    ∀ l : List Event, l.Sublist (List.orderedInsert eventLe a l) := by
  intro l
  induction l with
  | nil => exact List.nil_sublist _
  | cons x xs ih =>
    simp only [List.orderedInsert]
    split_ifs with h
    · exact List.sublist_cons_self a (x :: xs)
    · exact List.Sublist.cons₂ x ih

theorem orderedInsert_pair_sublist {u v : Event} (huv : eventLe u v) :
    ∀ l : List Event, v ∈ l → [u, v].Sublist (List.orderedInsert eventLe u l) := by
  intro l
  induction l with
  | nil =>
    intro hv
    cases hv
  | cons x xs ih =>
    intro hv
    simp only [List.orderedInsert]
    split_ifs with h
    · exact List.Sublist.cons₂ u (List.singleton_sublist.2 hv)
    · rcases List.mem_cons.1 hv with rfl | hv2
      · exact absurd huv h
      · exact (ih hv2).cons x

theorem pair_sublist_insertionSort {st e : Event} (hle : eventLe st e) :
    ∀ l : List Event, (∃ l1 l2, l = l1 ++ st :: l2 ∧ e ∈ l2) →
      [st, e].Sublist (List.insertionSort eventLe l) := by
  intro l
  induction l with
  | nil =>
    rintro ⟨l1, l2, heq, -⟩
    exact absurd heq (by cases l1 <;> simp)
  | cons x xs ih =>
    rintro ⟨l1, l2, heq, hmem⟩
    cases l1 with
    | nil =>
      simp only [List.nil_append] at heq
      injection heq with h1 h2
      subst h1
      subst h2
      simp only [List.insertionSort]
      apply orderedInsert_pair_sublist hle
      exact (List.perm_insertionSort eventLe xs).mem_iff.2 hmem
    | cons y l1t =>
      simp only [List.cons_append] at heq
      injection heq with h1 h2
      simp only [List.insertionSort]
      exact (ih ⟨l1t, l2, h2, hmem⟩).trans (sublist_orderedInsert x _)

theorem before_of_pair_sublist {u v : Event} : ∀ {l1 l2 : List Event},
    [u, v].Sublist (l1 ++ v :: l2) → v ∉ l1 → v ∉ l2 → u ≠ v → u ∈ l1 := by
  intro l1
  induction l1 with
  | nil =>
    intro l2 h hv1 hv2 huv
    simp only [List.nil_append] at h
    cases h with
    | cons _ h2 =>
      exact absurd (h2.subset (List.mem_cons_of_mem u (List.mem_singleton_self v))) hv2
    | cons₂ _ h2 => exact absurd rfl huv
  | cons x l1t ih =>
    intro l2 h hv1 hv2 huv
    simp only [List.cons_append] at h
    cases h with
    | cons _ h2 =>
      have hv1t : v ∉ l1t := fun hh => hv1 (List.mem_cons_of_mem x hh)
      exact List.mem_cons_of_mem x (ih h2 hv1t hv2 huv)
    | cons₂ _ h2 => exact List.mem_cons_self _ _

end SweepLineEvents

section SweepLineTop

theorem goodEvents_of : ∀ (evs : List Event) (act : List ℕ),
    evs.Nodup →
    (∀ e1 ∈ evs, ∀ e2 ∈ evs, e1.id = e2.id → e1.is_start = e2.is_start → e1 = e2) →
    (∀ e ∈ evs, e.is_start = true → e.id ∉ act) →
    (∀ l1 e l2, evs = l1 ++ e :: l2 → e.is_start = false →
      e.id ∈ act ∨ ∃ st ∈ l1, st.is_start = true ∧ st.id = e.id) →
    goodEvents evs act := by
  intro evs
  induction evs with
  | nil =>
    intro act _ _ _ _
    simp [goodEvents]
  | cons e rest ih =>
    intro act hnd huniq hstart hcov
    have hnd2 := List.nodup_cons.1 hnd
    simp only [goodEvents]
    by_cases hst : e.is_start = true
    · rw [if_pos hst]
      refine ⟨hstart e (List.mem_cons_self e rest) hst, ?_⟩
      apply ih (e.id :: act)
      · exact hnd2.2
      · exact fun e1 h1 e2 h2 =>
          huniq e1 (List.mem_cons_of_mem e h1) e2 (List.mem_cons_of_mem e h2)
      · intro e2 h2 hs2 hin
        rcases List.mem_cons.1 hin with heq | hin2
        · have he2 := huniq e2 (List.mem_cons_of_mem e h2) e (List.mem_cons_self e rest)
            heq (by rw [hs2, hst])
          rw [he2] at h2
          exact hnd2.1 h2
        · exact hstart e2 (List.mem_cons_of_mem e h2) hs2 hin2
      · intro l1 e2 l2 heq hend
        have hcov2 := hcov (e :: l1) e2 l2 (by rw [heq]; rfl) hend
        rcases hcov2 with h1 | ⟨st, hstm, hp1, hp2⟩
        · exact Or.inl (List.mem_cons_of_mem _ h1)
        · rcases List.mem_cons.1 hstm with rfl | hstm2
          · refine Or.inl ?_
            rw [← hp2]
            exact List.mem_cons_self _ _
          · exact Or.inr ⟨st, hstm2, hp1, hp2⟩
    · rw [if_neg hst]
      have hend : e.is_start = false := by
        cases hb : e.is_start
        · rfl
        · exact absurd hb hst
      rcases hcov [] e rest rfl hend with hin | ⟨st, hstm, -, -⟩
      · refine ⟨hin, ?_⟩
        apply ih (act.erase e.id)
        · exact hnd2.2
        · exact fun e1 h1 e2 h2 =>
            huniq e1 (List.mem_cons_of_mem e h1) e2 (List.mem_cons_of_mem e h2)
        · intro e2 h2 hs2 hin2
          exact hstart e2 (List.mem_cons_of_mem e h2) hs2 (List.mem_of_mem_erase hin2)
        · intro l1 e2 l2 heq hend2
          have hcov2 := hcov (e :: l1) e2 l2 (by rw [heq]; rfl) hend2
          rcases hcov2 with h1 | ⟨st, hstm, hp1, hp2⟩
          · have hne : e2.id ≠ e.id := by
              intro heq2
              have he2mem : e2 ∈ rest := by
                rw [heq]
                exact List.mem_append_right l1 (List.mem_cons_self e2 l2)
              have he2 := huniq e2 (List.mem_cons_of_mem e he2mem) e
                (List.mem_cons_self e rest) heq2 (by rw [hend2, hend])
              rw [he2] at he2mem
              exact hnd2.1 he2mem
            exact Or.inl ((List.mem_erase_of_ne hne).2 h1)
          · rcases List.mem_cons.1 hstm with rfl | hstm2
            · rw [hend] at hp1
              exact absurd hp1 Bool.false_ne_true
            · exact Or.inr ⟨st, hstm2, hp1, hp2⟩
      · exact absurd hstm (List.not_mem_nil st)

/-- The sorted event queue is well formed against an empty active set:
every end event is preceded by its segment's start event.  This holds in
any insertion-sorted order because a start compares strictly before its
own end (its x is not larger, and ties break starts first). -/
theorem sorted_events_good (segs : List (Segment ℚ)) :
    goodEvents (List.insertionSort eventLe (mkEventsFrom 0 segs)) [] := by
  have hperm := List.perm_insertionSort eventLe (mkEventsFrom 0 segs)
  apply goodEvents_of
  · exact hperm.nodup_iff.2 (mkEventsFrom_nodup segs 0)
  · intro e1 h1 e2 h2
    exact mkEventsFrom_uniq segs 0 e1 (hperm.mem_iff.1 h1) e2 (hperm.mem_iff.1 h2)
  · intro e h hs
    exact List.not_mem_nil e.id
  · intro l1 e l2 heq hend
    right
    have hes : e ∈ mkEventsFrom 0 segs := by
      apply hperm.mem_iff.1
      rw [heq]
      exact List.mem_append_right l1 (List.mem_cons_self e l2)
    obtain ⟨st, m1, m2, hmeq, hm, hs1, hs2, hs3⟩ := mkEventsFrom_pairing segs 0 e hes hend
    have hsub : [st, e].Sublist (List.insertionSort eventLe (mkEventsFrom 0 segs)) :=
      pair_sublist_insertionSort hs3 _ ⟨m1, m2, hmeq, hm⟩
    rw [heq] at hsub
    have hnd : (l1 ++ e :: l2).Nodup := by
      rw [← heq]
      exact hperm.nodup_iff.2 (mkEventsFrom_nodup segs 0)
    obtain ⟨nd1, nd2, disj⟩ := List.nodup_append.1 hnd
    have hv2 : e ∉ l2 := (List.nodup_cons.1 nd2).1
    have hv1 : e ∉ l1 := fun hh => disj hh (List.mem_cons_self e l2)
    have hne : st ≠ e := by
      intro hh
      rw [hh, hend] at hs1
      exact Bool.false_ne_true hs1
    exact ⟨st, before_of_pair_sublist hsub hv1 hv2 hne, hs1, hs2⟩

/-- C5: on every list of segments the sweep terminates without panicking:
the unwrap at each end event always finds the segment being removed in the
active structure. -/
theorem c5_theorem (segs : List (Segment ℚ)) :
    find_intersecting_segments segs ≠ Except.error () := by
  unfold find_intersecting_segments
  refine (processEvents_ok segs (List.insertionSort eventLe (mkEventsFrom 0 segs)) []
    (fun x hx => absurd hx (List.not_mem_nil x)) (by simp) ?_ ?_).1
  · intro e2 h2
    have h3 := (List.perm_insertionSort eventLe (mkEventsFrom 0 segs)).mem_iff.1 h2
    have h4 := mkEventsFrom_id_bound segs 0 e2 h3
    omega
  · exact sorted_events_good segs

theorem c5_witness :
    find_intersecting_segments [] ≠ Except.error () :=
  c5_theorem []

-- Rational arithmetic is sealed irreducible by the library; reopen it
-- locally so the concrete sweep computations below evaluate by `rfl` and
-- `decide` (the kernel re-checks these reductions in full).
attribute [local semireducible] Rat.add Rat.sub Rat.mul Rat.inv

/-- C1 counterexample: three segments whose events all tie under the
EPSILON fuzz of the event order.  Segments 0 and 2 overlap on the segment
x = 0, 1 ≤ y ≤ 2, yet the sweep returns no pair: the blocker (segment 1)
sits comparator-between them in the active set, and the end-event
neighbour check is skipped whenever the predecessor range is empty. -/
theorem c1_counterexample :
    find_intersecting_segments
      [⟨((0 : ℚ), (0 : ℚ)), ((0 : ℚ), (2 : ℚ))⟩,
       ⟨((1 / 2 ^ 53 : ℚ), (1 / 2 : ℚ)), ((1 / 2 ^ 53 : ℚ), (5 / 8 : ℚ))⟩,
       ⟨((0 : ℚ), (1 : ℚ)), ((0 : ℚ), (3 : ℚ))⟩] = Except.ok none ∧
    do_intersect
      (([⟨((0 : ℚ), (0 : ℚ)), ((0 : ℚ), (2 : ℚ))⟩,
         ⟨((1 / 2 ^ 53 : ℚ), (1 / 2 : ℚ)), ((1 / 2 ^ 53 : ℚ), (5 / 8 : ℚ))⟩,
         ⟨((0 : ℚ), (1 : ℚ)), ((0 : ℚ), (3 : ℚ))⟩] : List (Segment ℚ)).getD 0
        ⟨(0, 0), (0, 0)⟩)
      (([⟨((0 : ℚ), (0 : ℚ)), ((0 : ℚ), (2 : ℚ))⟩,
         ⟨((1 / 2 ^ 53 : ℚ), (1 / 2 : ℚ)), ((1 / 2 ^ 53 : ℚ), (5 / 8 : ℚ))⟩,
         ⟨((0 : ℚ), (1 : ℚ)), ((0 : ℚ), (3 : ℚ))⟩] : List (Segment ℚ)).getD 2
        ⟨(0, 0), (0, 0)⟩) = true :=
  ⟨rfl, by decide⟩

/-- C1 (amended, soundness half): any pair the sweep returns consists of
two distinct in-range indices whose segments intersect (`do_intersect`
true and classification not `None`).  The completeness half of the claim
is false: see the counterexample. -/
theorem c1_amended (segs : List (Segment ℚ)) (i j : ℕ)
    (h : find_intersecting_segments segs = Except.ok (some (i, j))) :
    i ≠ j ∧ i < segs.length ∧ j < segs.length ∧
    do_intersect (segs.getD i ⟨(0, 0), (0, 0)⟩) (segs.getD j ⟨(0, 0), (0, 0)⟩) = true ∧
    relationship_between_segments (segs.getD i ⟨(0, 0), (0, 0)⟩)
      (segs.getD j ⟨(0, 0), (0, 0)⟩) ≠ IntersectionType.none := by
  have hok := (processEvents_ok segs (List.insertionSort eventLe (mkEventsFrom 0 segs)) []
    (fun x hx => absurd hx (List.not_mem_nil x)) (by simp)
    (fun e2 h2 => by
      have h3 := (List.perm_insertionSort eventLe (mkEventsFrom 0 segs)).mem_iff.1 h2
      have h4 := mkEventsFrom_id_bound segs 0 e2 h3
      omega)
    (sorted_events_good segs)).2 i j h
  obtain ⟨h1, h2, h3, h4⟩ := hok
  exact ⟨h1, h2, h3, h4, do_intersect_imp_rel_ne_none _ _ h4⟩

theorem c1_witness :
    find_intersecting_segments
      [⟨((0 : ℚ), (0 : ℚ)), ((2 : ℚ), (2 : ℚ))⟩,
       ⟨((0 : ℚ), (2 : ℚ)), ((2 : ℚ), (0 : ℚ))⟩] = Except.ok (some (1, 0)) ∧
    ((1 : ℕ) ≠ 0 ∧
     1 < ([⟨((0 : ℚ), (0 : ℚ)), ((2 : ℚ), (2 : ℚ))⟩,
           ⟨((0 : ℚ), (2 : ℚ)), ((2 : ℚ), (0 : ℚ))⟩] : List (Segment ℚ)).length ∧
     0 < ([⟨((0 : ℚ), (0 : ℚ)), ((2 : ℚ), (2 : ℚ))⟩,
           ⟨((0 : ℚ), (2 : ℚ)), ((2 : ℚ), (0 : ℚ))⟩] : List (Segment ℚ)).length ∧
     do_intersect
       (([⟨((0 : ℚ), (0 : ℚ)), ((2 : ℚ), (2 : ℚ))⟩,
          ⟨((0 : ℚ), (2 : ℚ)), ((2 : ℚ), (0 : ℚ))⟩] : List (Segment ℚ)).getD 1
         ⟨(0, 0), (0, 0)⟩)
       (([⟨((0 : ℚ), (0 : ℚ)), ((2 : ℚ), (2 : ℚ))⟩,
          ⟨((0 : ℚ), (2 : ℚ)), ((2 : ℚ), (0 : ℚ))⟩] : List (Segment ℚ)).getD 0
         ⟨(0, 0), (0, 0)⟩) = true ∧
     relationship_between_segments
       (([⟨((0 : ℚ), (0 : ℚ)), ((2 : ℚ), (2 : ℚ))⟩,
          ⟨((0 : ℚ), (2 : ℚ)), ((2 : ℚ), (0 : ℚ))⟩] : List (Segment ℚ)).getD 1
         ⟨(0, 0), (0, 0)⟩)
       (([⟨((0 : ℚ), (0 : ℚ)), ((2 : ℚ), (2 : ℚ))⟩,
          ⟨((0 : ℚ), (2 : ℚ)), ((2 : ℚ), (0 : ℚ))⟩] : List (Segment ℚ)).getD 0
         ⟨(0, 0), (0, 0)⟩) ≠ IntersectionType.none) :=
  ⟨rfl,
   c1_amended
     [⟨((0 : ℚ), (0 : ℚ)), ((2 : ℚ), (2 : ℚ))⟩,
      ⟨((0 : ℚ), (2 : ℚ)), ((2 : ℚ), (0 : ℚ))⟩] 1 0 rfl⟩

end SweepLineTop

section HullIdem

variable {α : Type} [LinearOrderedCommRing α]

/-- First coordinates are monotone along the lexicographic order. -/
theorem lexLe_fst {p q : PPoint α} (h : lexLe p q) : p.1 ≤ q.1 := by
  rcases h with h | ⟨h, _⟩
  · exact le_of_lt h
  · exact le_of_eq h

/-- With equal first coordinates, the lexicographic order compares the second. -/
theorem lexLe_snd_eq {p q : PPoint α} (h : lexLe p q) (he : p.1 = q.1) : p.2 ≤ q.2 := by
  rcases h with h | ⟨_, h⟩
  · exact absurd he (ne_of_lt h)
  · exact h

/-- Cocycle step: moving the base of a supporting edge one chain vertex down.
If `x` is weakly left of the edge `u → v` and the new point `b` is weakly right
of it, then weak leftness of `x` for `v → b` transfers to `u → b`. -/
theorem cross_step_down (u v b x : PPoint α) (h1 : 0 ≤ cross_product u v x)
    (h2 : cross_product u v b ≤ 0) (h3 : 0 ≤ cross_product v b x) :
    0 ≤ cross_product u b x := by
  have key : cross_product u b x =
      cross_product v b x + cross_product u v x - cross_product u v b := by
    unfold cross_product; ring
  linarith

/-- Span step: a point `x` lexicographically inside the span of a popped edge
`u → v` (with `b` weakly right of that edge and beyond it) is weakly left of
the candidate edge `u → b`. -/
theorem cross_span_edge (u v b x : PPoint α) (hux : lexLe u x) (hxv : lexLe x v)
    (huv : lexLe u v) (hvb : lexLe v b) (h1 : 0 ≤ cross_product u v x)
    (h2 : cross_product u v b ≤ 0) : 0 ≤ cross_product u b x := by
  rcases eq_or_lt_of_le (lexLe_fst huv) with heq | hlt
  · have hx1 : x.1 = u.1 := le_antisymm (by rw [heq]; exact lexLe_fst hxv) (lexLe_fst hux)
    have hy : u.2 ≤ x.2 := lexLe_snd_eq hux hx1.symm
    have hb1 : u.1 ≤ b.1 := by rw [heq]; exact lexLe_fst hvb
    have e : cross_product u b x = (b.1 - u.1) * (x.2 - u.2) := by
      unfold cross_product; rw [hx1]; ring
    rw [e]
    exact mul_nonneg (by linarith) (by linarith)
  · have key : cross_product u x b * (v.1 - u.1) =
        cross_product u v b * (x.1 - u.1) - cross_product u v x * (b.1 - u.1) := by
      unfold cross_product; ring
    have t1 : cross_product u v b * (x.1 - u.1) ≤ 0 :=
      mul_nonpos_iff.2 (Or.inr ⟨h2, by linarith [lexLe_fst hux]⟩)
    have t2 : 0 ≤ cross_product u v x * (b.1 - u.1) :=
      mul_nonneg h1 (by linarith [lexLe_fst (lexLe_trans huv hvb)])
    have hneg : cross_product u x b * (v.1 - u.1) ≤ 0 := by rw [key]; linarith
    have hfin : cross_product u x b ≤ 0 := by
      by_contra hpos
      push_neg at hpos
      have := mul_pos hpos (by linarith : (0:α) < v.1 - u.1)
      linarith
    have hsw := cross_product_swap u x b
    linarith

/-- Stop step: once the scan stops popping because `b` is strictly left of the
surviving top edge `u → v`, every processed point `x` (all of which lie weakly
left of that edge and lexicographically at most `v`) is weakly left of the new
edge `v → b`. -/
theorem cross_stop_edge (u v b x : PPoint α) (huv : lexLe u v) (hxv : lexLe x v)
    (hvb : lexLe v b) (h1 : 0 ≤ cross_product u v x)
    (h2 : 0 < cross_product u v b) : 0 ≤ cross_product v b x := by
  rcases eq_or_lt_of_le (lexLe_fst huv) with heq | hlt
  · exfalso
    have hv1 : v.1 = u.1 := heq.symm
    have e : cross_product u v b = -((v.2 - u.2) * (b.1 - u.1)) := by
      unfold cross_product; rw [hv1]; ring
    have h2y : u.2 ≤ v.2 := lexLe_snd_eq huv heq
    have hb1 : u.1 ≤ b.1 := by rw [heq]; exact lexLe_fst hvb
    have := mul_nonneg (by linarith : (0:α) ≤ v.2 - u.2) (by linarith : (0:α) ≤ b.1 - u.1)
    rw [e] at h2
    linarith
  · have key : cross_product v b x * (v.1 - u.1) =
        cross_product u v x * (b.1 - v.1) + cross_product u v b * (v.1 - x.1) := by
      unfold cross_product; ring
    have t1 : 0 ≤ cross_product u v x * (b.1 - v.1) :=
      mul_nonneg h1 (by linarith [lexLe_fst hvb])
    have t2 : 0 ≤ cross_product u v b * (v.1 - x.1) :=
      mul_nonneg (le_of_lt h2) (by linarith [lexLe_fst hxv])
    by_contra hneg
    push_neg at hneg
    have := mul_neg_of_neg_of_pos hneg (by linarith : (0:α) < v.1 - u.1)
    linarith

/-- Convexity transfer: if `b` lies lexicographically beyond a strictly turning
chain corner `u, v, w` and is weakly left of the upper edge `v → w`, it is
weakly left of the lower edge `u → v` as well. -/
theorem cross_transfer (u v w b : PPoint α) (huv : lexLe u v) (hvw : lexLe v w)
    (hwb : lexLe w b) (ht : 0 < cross_product u v w)
    (hb : 0 ≤ cross_product v w b) : 0 ≤ cross_product u v b := by
  rcases eq_or_lt_of_le (lexLe_fst hvw) with heq | hlt
  · have hw1 : w.1 = v.1 := heq.symm
    have e1 : cross_product u v w = (v.1 - u.1) * (w.2 - v.2) := by
      unfold cross_product; rw [hw1]; ring
    have hvu : (0:α) ≤ v.1 - u.1 := by linarith [lexLe_fst huv]
    have hv1 : (0:α) < v.1 - u.1 := by
      rcases eq_or_lt_of_le hvu with h0 | h0
      · rw [e1] at ht; rw [← h0] at ht; simp at ht
      · exact h0
    have hw2 : (0:α) < w.2 - v.2 := by
      by_contra hc
      push_neg at hc
      rw [e1] at ht
      nlinarith
    have e2 : cross_product v w b = -((w.2 - v.2) * (b.1 - v.1)) := by
      unfold cross_product; rw [hw1]; ring
    have hble : b.1 ≤ v.1 := by
      by_contra hc
      push_neg at hc
      have := mul_pos hw2 (by linarith : (0:α) < b.1 - v.1)
      rw [e2] at hb
      linarith
    have hb1 : b.1 = v.1 := le_antisymm hble (by rw [heq]; exact lexLe_fst hwb)
    have hb2 : w.2 ≤ b.2 := lexLe_snd_eq hwb (by rw [hw1, hb1])
    have e3 : cross_product u v b = (v.1 - u.1) * (b.2 - v.2) := by
      unfold cross_product; rw [hb1]; ring
    rw [e3]
    exact mul_nonneg (le_of_lt hv1) (by linarith)
  · have key : cross_product u v b * (w.1 - v.1) =
        cross_product u v w * (b.1 - v.1) + cross_product v w b * (v.1 - u.1) := by
      unfold cross_product; ring
    have t1 : 0 ≤ cross_product u v w * (b.1 - v.1) :=
      mul_nonneg (le_of_lt ht) (by linarith [lexLe_fst (lexLe_trans hvw hwb)])
    have t2 : 0 ≤ cross_product v w b * (v.1 - u.1) :=
      mul_nonneg hb (by linarith [lexLe_fst huv])
    by_contra hneg
    push_neg at hneg
    have := mul_neg_of_neg_of_pos hneg (by linarith : (0:α) < w.1 - v.1)
    linarith

/-- A chain (bottom-first vertex list) turns strictly counterclockwise at
every interior vertex. -/
def Turning (l : List (PPoint α)) : Prop :=
  ∀ l1 (u v w : PPoint α) l2, l = l1 ++ u :: v :: w :: l2 → 0 < cross_product u v w

/-- Every point of `X` lies weakly left of every directed edge of the chain
`l` (bottom-first): the chain's edges support the whole point set. -/
def Supports (l X : List (PPoint α)) : Prop :=
  ∀ l1 (u v : PPoint α) l2, l = l1 ++ u :: v :: l2 → ∀ x ∈ X, 0 ≤ cross_product u v x

/-- Stack version of `Turning` (the stack is the chain reversed, top-first). -/
def TurnStack (st : List (PPoint α)) : Prop :=
  ∀ l1 (u v w : PPoint α) l2, st = l1 ++ u :: v :: w :: l2 → 0 < cross_product w v u

/-- Stack version of `Supports`: edges read top-first. -/
def SupportsStack (st X : List (PPoint α)) : Prop :=
  ∀ l1 (u v : PPoint α) l2, st = l1 ++ u :: v :: l2 → ∀ x ∈ X, 0 ≤ cross_product v u x

theorem turning_tail {a : PPoint α} {l : List (PPoint α)} (h : Turning (a :: l)) :
    Turning l := by
  intro l1 u v w l2 e
  exact h (a :: l1) u v w l2 (by rw [e]; rfl)

theorem supports_tail {a : PPoint α} {l X : List (PPoint α)} (h : Supports (a :: l) X) :
    Supports l X := by
  intro l1 u v l2 e
  exact h (a :: l1) u v l2 (by rw [e]; rfl)

theorem supports_mono {l X X' : List (PPoint α)} (hs : ∀ x ∈ X', x ∈ X)
    (h : Supports l X) : Supports l X' := by
  intro l1 u v l2 e x hx
  exact h l1 u v l2 e x (hs x hx)

theorem turnStack_suffix {st st' : List (PPoint α)} (hsuf : st' <:+ st)
    (h : TurnStack st) : TurnStack st' := by
  intro l1 u v w l2 e
  obtain ⟨t, rfl⟩ := hsuf
  exact h (t ++ l1) u v w l2 (by rw [e, List.append_assoc])

theorem supportsStack_suffix {st st' X : List (PPoint α)} (hsuf : st' <:+ st)
    (h : SupportsStack st X) : SupportsStack st' X := by
  intro l1 u v l2 e
  obtain ⟨t, rfl⟩ := hsuf
  exact h (t ++ l1) u v l2 (by rw [e, List.append_assoc])

theorem turnStack_reverse {st : List (PPoint α)} (h : TurnStack st) :
    Turning st.reverse := by
  intro l1 u v w l2 e
  have est : st = l2.reverse ++ w :: v :: u :: l1.reverse := by
    rw [← List.reverse_reverse st, e]
    simp [List.reverse_append]
  exact h l2.reverse w v u l1.reverse est

theorem supportsStack_reverse {st X : List (PPoint α)} (h : SupportsStack st X) :
    Supports st.reverse X := by
  intro l1 u v l2 e
  have est : st = l2.reverse ++ v :: u :: l1.reverse := by
    rw [← List.reverse_reverse st, e]
    simp [List.reverse_append]
  exact h l2.reverse v u l1.reverse est

/-- In a lexicographically sorted stack (reverse-sorted list), every element
below the top is at most the top. -/
theorem stack_pairwise_top {a : PPoint α} {t : List (PPoint α)}
    (h : List.Pairwise lexLe (a :: t).reverse) : ∀ p ∈ t, lexLe p a := by
  rw [List.reverse_cons, List.pairwise_append] at h
  intro p hp
  exact h.2.2 p (List.mem_reverse.2 hp) a (List.mem_singleton_self a)

theorem sorted_head_le {l : List (PPoint α)} {h0 : PPoint α}
    (hs : List.Pairwise lexLe l) (hh : l.head? = some h0) :
    ∀ x ∈ l, lexLe h0 x := by
  cases l with
  | nil => cases hh
  | cons a t =>
    injection hh with hh
    subst hh
    intro x hx
    rcases List.mem_cons.1 hx with rfl | hx
    · exact lexLe_refl x
    · exact List.rel_of_pairwise_cons hs hx

theorem sorted_le_getLast : ∀ {l : List (PPoint α)} {t0 : PPoint α},
    List.Pairwise lexLe l → l.getLast? = some t0 → ∀ x ∈ l, lexLe x t0 := by
  intro l
  induction l with
  | nil => intro t0 _ ht; cases ht
  | cons a t ih =>
    intro t0 hs ht x hx
    cases t with
    | nil =>
      rw [List.getLast?_singleton] at ht
      injection ht with ht
      rcases List.mem_cons.1 hx with rfl | hx
      · rw [← ht]; exact lexLe_refl x
      · cases hx
    | cons b t2 =>
      rw [List.getLast?_cons_cons] at ht
      rcases List.mem_cons.1 hx with rfl | hx
      · exact List.rel_of_pairwise_cons hs (mem_of_getLast_eq ht)
      · exact ih hs.of_cons ht x hx

end HullIdem

section HullIdem2

variable {α : Type} [LinearOrderedCommRing α]

/-- If the new point `b` is weakly left of the top edge of a strictly turning
sorted stack whose points all precede `b`, it is weakly left of every edge. -/
theorem stack_edges_b (b : PPoint α) :
    ∀ st : List (PPoint α), TurnStack st → List.Pairwise lexLe st.reverse →
      (∀ p ∈ st, lexLe p b) →
      (∀ u v r, st = u :: v :: r → 0 ≤ cross_product v u b) →
      SupportsStack st [b] := by
  intro st
  induction st with
  | nil =>
    intro _ _ _ _ l1 u v l2 e _ _
    exact absurd e (by simp)
  | cons a tail ih =>
    cases tail with
    | nil =>
      intro _ _ _ _ l1 u v l2 e _ _
      have := congrArg List.length e
      simp at this
      omega
    | cons o rest =>
      intro hturn hsort hmemb htop
      have hsuf0 : (o :: rest) <:+ (a :: o :: rest) := List.suffix_cons a (o :: rest)
      have hsort2 : List.Pairwise lexLe (o :: rest).reverse :=
        List.Pairwise.sublist
          (by rw [List.reverse_cons a (o :: rest)]; exact List.sublist_append_left _ _) hsort
      intro l1 u v l2 e x hx
      rw [List.mem_singleton] at hx
      rw [hx]
      rcases List.cons_eq_append_iff.1 e with ⟨h1, h2⟩ | ⟨l1', h1, h2⟩
      · injection h2 with h2a h2b
        injection h2b with h2c h2d
        rw [h2a, h2c]
        exact htop a o rest rfl
      · have htop2 : ∀ (u1 v1 : PPoint α) (r1 : List (PPoint α)),
            o :: rest = u1 :: v1 :: r1 → 0 ≤ cross_product v1 u1 b := by
          intro u1 v1 r1 e1
          injection e1 with e1a e1b
          rw [← e1a]
          have hv1o : lexLe v1 o := stack_pairwise_top hsort2 v1 (by rw [e1b]; simp)
          have hoa : lexLe o a := stack_pairwise_top hsort o (by simp)
          have hab : lexLe a b := hmemb a (by simp)
          have ht : 0 < cross_product v1 o a := hturn [] a o v1 r1 (by simp [e1b])
          have hb0 : 0 ≤ cross_product o a b := htop a o rest rfl
          exact cross_transfer v1 o a b hv1o hoa hab ht hb0
        exact ih (turnStack_suffix hsuf0 hturn) hsort2
          (fun p hp => hmemb p (List.mem_cons_of_mem a hp)) htop2 l1' u v l2 h2 b
          (List.mem_singleton_self b)

/-- The scan invariant tying the processed prefix `done` to the stack `st`. -/
structure ScanInv (done st : List (PPoint α)) : Prop where
  sub : st.reverse.Sublist done
  nonnil : done ≠ [] → st ≠ []
  bottom : st.getLast? = done.head?
  top : st.head? = done.getLast?
  two : 2 ≤ done.length → 2 ≤ st.length
  turn : TurnStack st
  supp : SupportsStack st done

theorem suffix_getLast? {γ : Type} {st' st : List γ} (h : st' <:+ st) (hne : st' ≠ []) :
    st'.getLast? = st.getLast? := by
  obtain ⟨p, rfl⟩ := h
  rw [List.getLast?_append]
  cases hl : st'.getLast? with
  | none =>
    rw [← List.getLast?_isSome] at hne
    rw [hl] at hne
    cases hne
  | some y => rfl

/-- Full specification of one `hhStep` call of the counterclockwise scan:
the pop loop ends in a suffix of the stack topped by `b`, the surviving top
pair strictly turns towards `b`, and the new top edge supports every
processed point. -/
theorem hhStep_pop_spec (done : List (PPoint α)) (b : PPoint α)
    (hbmax : ∀ x ∈ done, lexLe x b) :
    ∀ st : List (PPoint α),
      TurnStack st → SupportsStack st done →
      List.Pairwise lexLe st.reverse →
      (∀ p ∈ st, p ∈ done) →
      (∀ t, st.getLast? = some t → ∀ x ∈ done, lexLe t x) →
      ∃ st', hhStep counterclockwise st b = b :: st' ∧
        st' <:+ st ∧
        (st' = [] ↔ st = []) ∧
        (∀ u v r, st' = u :: v :: r → 0 < cross_product v u b) ∧
        (∀ x ∈ done, (∀ t, st.head? = some t → lexLe x t) →
          ∀ t', st'.head? = some t' → 0 ≤ cross_product t' b x) ∧
        (∀ x ∈ done, ∀ t, st.head? = some t → 0 ≤ cross_product t b x →
          ∀ t', st'.head? = some t' → 0 ≤ cross_product t' b x) := by
  intro st
  induction st with
  | nil =>
    intro _ _ _ _ _
    refine ⟨[], rfl, List.suffix_rfl, Iff.rfl, ?_, ?_, ?_⟩
    · intro u v r h
      cases h
    · intro x _ _ t' ht'
      cases ht'
    · intro x _ t ht
      cases ht
  | cons a tail ih =>
    cases tail with
    | nil =>
      intro _ _ _ hmem hbot
      refine ⟨[a], rfl, List.suffix_rfl, by simp, ?_, ?_, ?_⟩
      · intro u v r h
        injection h with h1 h2
        cases h2
      · intro x hx hxtop t' ht'
        injection ht' with ht'
        rw [← ht']
        have hax : lexLe a x := hbot a rfl x hx
        have hxa : lexLe x a := hxtop a rfl
        have hxe : x = a := lexLe_antisymm hxa hax
        rw [hxe, cross_product_third_self]
      · intro x hx t ht hc t' ht'
        injection ht with h1
        injection ht' with h2
        rw [← h2]
        rw [← h1] at hc
        exact hc
    | cons o rest =>
      intro hturn hsupp hsort hmem hbot
      have hoa : lexLe o a := stack_pairwise_top hsort o (by simp)
      have hsupp_top : ∀ x ∈ done, 0 ≤ cross_product o a x := fun x hx =>
        hsupp [] a o rest rfl x hx
      have hab : lexLe a b := hbmax a (hmem a (by simp))
      by_cases hccw : (0 : α) < cross_product o a b
      · have hcond : counterclockwise o a b = true := by
          simp [counterclockwise, hccw]
        have hstep : hhStep counterclockwise (a :: o :: rest) b = b :: a :: o :: rest := by
          simp [hhStep, hcond]
        refine ⟨a :: o :: rest, hstep, List.suffix_rfl, by simp, ?_, ?_, ?_⟩
        · intro u v r h
          injection h with h1 h
          injection h with h2 h
          subst h1
          subst h2
          exact hccw
        · intro x hx hxtop t' ht'
          injection ht' with ht'
          rw [← ht']
          exact cross_stop_edge o a b x hoa (hxtop a rfl) hab (hsupp_top x hx) hccw
        · intro x hx t ht hc t' ht'
          injection ht with h1
          injection ht' with h2
          rw [← h2]
          rw [← h1] at hc
          exact hc
      · have hcross : cross_product o a b ≤ 0 := le_of_not_lt hccw
        have hcond : counterclockwise o a b = false := by
          simp [counterclockwise, hccw]
        have hstep : hhStep counterclockwise (a :: o :: rest) b =
            hhStep counterclockwise (o :: rest) b := by
          simp [hhStep, hcond]
        have hsuf0 : (o :: rest) <:+ (a :: o :: rest) := List.suffix_cons a (o :: rest)
        have hturn2 := turnStack_suffix hsuf0 hturn
        have hsupp2 := supportsStack_suffix hsuf0 hsupp
        have hsort2 : List.Pairwise lexLe (o :: rest).reverse :=
          List.Pairwise.sublist
            (by rw [List.reverse_cons a (o :: rest)]; exact List.sublist_append_left _ _) hsort
        have hmem2 : ∀ p ∈ o :: rest, p ∈ done := fun p hp => hmem p (List.mem_cons_of_mem a hp)
        have hbot2 : ∀ t, (o :: rest).getLast? = some t → ∀ x ∈ done, lexLe t x := by
          intro t ht
          apply hbot
          rw [List.getLast?_cons_cons]
          exact ht
        obtain ⟨st', e, hsuf, hiff, hexit, hmain, ha3⟩ := ih hturn2 hsupp2 hsort2 hmem2 hbot2
        refine ⟨st', by rw [hstep, e], hsuf.trans hsuf0, ?_, hexit, ?_, ?_⟩
        · constructor
          · intro h
            exact absurd (hiff.1 h) (by simp)
          · intro h
            cases h
        · intro x hx hxtop t' ht'
          rcases lexLe_total x o with hxo | hox
          · refine hmain x hx ?_ t' ht'
            intro t ht
            injection ht with ht
            rw [← ht]
            exact hxo
          · have hxa : lexLe x a := hxtop a rfl
            have hobx : 0 ≤ cross_product o b x :=
              cross_span_edge o a b x hox hxa hoa hab (hsupp_top x hx) hcross
            exact ha3 x hx o rfl hobx t' ht'
        · intro x hx t ht hc t' ht'
          injection ht with ht
          rw [← ht] at hc
          have hstep2 : 0 ≤ cross_product o b x :=
            cross_step_down o a b x (hsupp_top x hx) hcross hc
          exact ha3 x hx o rfl hstep2 t' ht'

end HullIdem2

section HullIdem3

variable {α : Type} [LinearOrderedCommRing α]

/-- One scan step preserves the invariant. -/
theorem scanInv_step (done st : List (PPoint α)) (b : PPoint α)
    (hsorted : List.Pairwise lexLe done) (hbmax : ∀ x ∈ done, lexLe x b)
    (inv : ScanInv done st) : ScanInv (done ++ [b]) (hhStep counterclockwise st b) := by
  have hsortst : List.Pairwise lexLe st.reverse := List.Pairwise.sublist inv.sub hsorted
  have hmem : ∀ p ∈ st, p ∈ done := fun p hp => inv.sub.subset (List.mem_reverse.2 hp)
  have hbot : ∀ t, st.getLast? = some t → ∀ x ∈ done, lexLe t x := by
    intro t ht x hx
    rw [inv.bottom] at ht
    exact sorted_head_le hsorted ht x hx
  obtain ⟨st', e, hsuf, hiff, hexit, hmain, ha3⟩ :=
    hhStep_pop_spec done b hbmax st inv.turn inv.supp hsortst hmem hbot
  rw [e]
  have hsub' : st'.reverse.Sublist done :=
    ((List.reverse_prefix.2 hsuf).sublist).trans inv.sub
  have hdone_of_st : st ≠ [] → done ≠ [] := by
    intro hst hd
    apply hst
    have hs := inv.sub
    rw [hd] at hs
    have := List.sublist_nil.1 hs
    exact List.reverse_eq_nil_iff.1 this
  refine ⟨?_, ?_, ?_, ?_, ?_, ?_, ?_⟩
  · rw [List.reverse_cons]
    exact hsub'.append (List.Sublist.refl [b])
  · intro _
    exact List.cons_ne_nil b st'
  · by_cases hst' : st' = []
    · have hst : st = [] := hiff.1 hst'
      have hd : done = [] := by
        by_contra hd
        exact inv.nonnil hd hst
      rw [hst', hd]
      rfl
    · obtain ⟨y, ys, hys⟩ := List.exists_cons_of_ne_nil hst'
      have hdone : done ≠ [] := hdone_of_st (fun h => hst' (hiff.2 h))
      rw [List.head?_append_of_ne_nil _ hdone]
      rw [hys, List.getLast?_cons_cons, ← hys, suffix_getLast? hsuf hst', inv.bottom]
  · rw [List.getLast?_concat]
    rfl
  · intro h2
    have hd : done ≠ [] := by
      intro h
      rw [h] at h2
      simp at h2
    have hst : st ≠ [] := inv.nonnil hd
    have hst' : st' ≠ [] := fun h => hst (hiff.1 h)
    have hpos : 0 < st'.length := List.length_pos.2 hst'
    simp only [List.length_cons]
    omega
  · intro l1 u v w l2 e2
    rcases List.cons_eq_append_iff.1 e2 with ⟨h1, h2⟩ | ⟨l1', h1, h2⟩
    · injection h2 with h2a h2b
      rw [h2a]
      exact hexit v w l2 h2b.symm
    · exact turnStack_suffix hsuf inv.turn l1' u v w l2 h2
  · intro l1 u v l2 e2 x hx
    rcases List.mem_append.1 hx with hxd | hxb
    · rcases List.cons_eq_append_iff.1 e2 with ⟨h1, h2⟩ | ⟨l1', h1, h2⟩
      · injection h2 with h2a h2b
        rw [h2a]
        refine hmain x hxd ?_ v (by rw [← h2b]; rfl)
        intro t ht
        rw [inv.top] at ht
        exact sorted_le_getLast hsorted ht x hxd
      · exact supportsStack_suffix hsuf inv.supp l1' u v l2 h2 x hxd
    · rw [List.mem_singleton] at hxb
      rw [hxb]
      rcases List.cons_eq_append_iff.1 e2 with ⟨h1, h2⟩ | ⟨l1', h1, h2⟩
      · injection h2 with h2a h2b
        rw [h2a, cross_product_self]
      · have hedge := stack_edges_b b st' (turnStack_suffix hsuf inv.turn)
          (List.Pairwise.sublist (List.reverse_prefix.2 hsuf).sublist hsortst)
          (fun p hp => hbmax p (hmem p (hsuf.subset hp)))
          (fun u1 v1 r1 e1 => le_of_lt (hexit u1 v1 r1 e1))
        exact hedge l1' u v l2 h2 b (List.mem_singleton_self b)

/-- The whole scan satisfies the invariant on any sorted input. -/
theorem scan_spec : ∀ (S : List (PPoint α)), List.Pairwise lexLe S →
    ScanInv S (S.foldl (hhStep counterclockwise) []) := by
  intro S
  induction S using List.reverseRecOn with
  | nil =>
    intro _
    refine ⟨by simp, fun h => absurd rfl h, rfl, rfl, fun h => h, ?_, ?_⟩
    · intro l1 u v w l2 e
      exact absurd e (by simp)
    · intro l1 u v l2 e
      exact absurd e (by simp)
  | append_singleton done b ih =>
    intro hS
    have h1 : List.Pairwise lexLe done := (List.pairwise_append.1 hS).1
    have h2 : ∀ x ∈ done, lexLe x b := fun x hx =>
      (List.pairwise_append.1 hS).2.2 x hx b (List.mem_singleton_self b)
    rw [List.foldl_concat]
    exact scanInv_step done _ b h1 h2 (ih h1)

/-- Chain-level specification of `half_hull` with the counterclockwise
predicate on a sorted input: the result is a sorted sublist with the same
first and last elements, strictly turning, whose edges support the whole
input; two or more input points leave two or more chain points. -/
theorem half_hull_chainSpec (S : List (PPoint α)) (hS : List.Pairwise lexLe S) :
    (half_hull counterclockwise S).Sublist S ∧
    List.Pairwise lexLe (half_hull counterclockwise S) ∧
    Turning (half_hull counterclockwise S) ∧
    Supports (half_hull counterclockwise S) S ∧
    (half_hull counterclockwise S).head? = S.head? ∧
    (half_hull counterclockwise S).getLast? = S.getLast? ∧
    (2 ≤ S.length → 2 ≤ (half_hull counterclockwise S).length) := by
  have inv := scan_spec S hS
  unfold half_hull
  refine ⟨inv.sub, List.Pairwise.sublist inv.sub hS, turnStack_reverse inv.turn,
    supportsStack_reverse inv.supp, ?_, ?_, ?_⟩
  · rw [List.head?_reverse]
    exact inv.bottom
  · rw [List.getLast?_reverse]
    exact inv.top
  · intro h2
    rw [List.length_reverse]
    exact inv.two h2

end HullIdem3

section HullIdem4

variable {α : Type} [LinearOrderedCommRing α]

/-- Two supporting chains from a common vertex cannot lexicographically
disagree on the successor: if `b` lies on the line of the first chain's
first edge, strictly beyond `a`, and the edge `h0 → b` also supports the
whole set, a contradiction follows. -/
theorem chain_succ_contra (X : List (PPoint α)) (h0 a b : PPoint α) (R1 : List (PPoint α))
    (hsor : List.Pairwise lexLe (h0 :: a :: R1))
    (hturn : Turning (h0 :: a :: R1))
    (hsupp : Supports (h0 :: a :: R1) X)
    (hmem : ∀ p ∈ h0 :: a :: R1, p ∈ X)
    (hbX : b ∈ X)
    (hcol : cross_product h0 a b = 0)
    (hab : lexLt a b)
    (hblast : ∀ t, (h0 :: a :: R1).getLast? = some t → lexLe b t)
    (hsupp2 : ∀ x ∈ X, 0 ≤ cross_product h0 b x) : False := by
  cases R1 with
  | nil =>
    have hba : lexLe b a := hblast a rfl
    exact lexLt_irrefl a (lexLt_of_lexLt_of_lexLe hab hba)
  | cons a2 R2 =>
    have P : 0 < cross_product h0 a a2 := hturn [] h0 a a2 R2 rfl
    have Q : 0 ≤ cross_product h0 b a2 := hsupp2 a2 (hmem a2 (by simp))
    have R : 0 ≤ cross_product a a2 b := hsupp [h0] a a2 R2 rfl b hbX
    have hha : lexLe h0 a := List.rel_of_pairwise_cons hsor (by simp)
    have key1 : cross_product a a2 b =
        cross_product h0 a a2 - cross_product h0 b a2 - cross_product h0 a b := by
      unfold cross_product; ring
    have key2 : cross_product h0 a a2 * (b.1 - h0.1) =
        cross_product h0 a b * (a2.1 - h0.1) + cross_product h0 b a2 * (a.1 - h0.1) := by
      unfold cross_product; ring
    rcases eq_or_lt_of_le (lexLe_fst hha) with heq | hlt
    · have ha1 : a.1 = h0.1 := heq.symm
      have e : cross_product h0 a a2 = -((a.2 - h0.2) * (a2.1 - h0.1)) := by
        unfold cross_product; rw [ha1]; ring
      have h2y : h0.2 ≤ a.2 := lexLe_snd_eq hha heq
      have haa2 : lexLe a a2 := List.rel_of_pairwise_cons hsor.of_cons (by simp)
      have ha21 : h0.1 ≤ a2.1 := by
        have := lexLe_fst haa2
        linarith
      nlinarith
    · rcases hab with hb1 | ⟨hb1eq, hb2⟩
      · have e1 : cross_product h0 a a2 * (b.1 - h0.1) =
            cross_product h0 b a2 * (a.1 - h0.1) := by
          rw [key2, hcol]; ring
        have hlt2 : cross_product h0 a a2 * (a.1 - h0.1) <
            cross_product h0 a a2 * (b.1 - h0.1) :=
          mul_lt_mul_of_pos_left (by linarith) P
        rw [e1] at hlt2
        have hQP : cross_product h0 a a2 < cross_product h0 b a2 :=
          lt_of_mul_lt_mul_right hlt2 (by linarith)
        linarith [key1]
      · have e0 : (a.1 - h0.1) * (b.2 - a.2) = 0 := by
          have e : cross_product h0 a b = (a.1 - h0.1) * (b.2 - a.2) := by
            unfold cross_product; rw [hb1eq.symm]; ring
          rw [← e, hcol]
        rcases mul_eq_zero.1 e0 with h' | h'
        · linarith
        · linarith

/-- Uniqueness: a strictly turning sorted chain through the points of `X`
whose edges support `X` is determined by its first and last elements. -/
theorem chain_unique (X : List (PPoint α)) :
    ∀ (D1 D2 : List (PPoint α)),
      List.Pairwise lexLe D1 → Turning D1 → Supports D1 X → (∀ p ∈ D1, p ∈ X) →
      List.Pairwise lexLe D2 → Turning D2 → Supports D2 X → (∀ p ∈ D2, p ∈ X) →
      D1.head? = D2.head? → D1.getLast? = D2.getLast? →
      2 ≤ D1.length → 2 ≤ D2.length → D1 = D2 := by
  intro D1
  induction D1 with
  | nil =>
    intro D2 _ _ _ _ _ _ _ _ _ _ hl _
    simp at hl
  | cons h0 T1 ih =>
    intro D2 hsor1 hturn1 hsupp1 hmem1 hsor2 hturn2 hsupp2 hmem2 hh hl hlen1 hlen2
    cases T1 with
    | nil => simp at hlen1
    | cons a R1 =>
    cases D2 with
    | nil => simp at hlen2
    | cons h2 T2 =>
    cases T2 with
    | nil => simp at hlen2
    | cons b R2 =>
    have hh0 : h0 = h2 := by
      injection hh
    subst hh0
    have hcol : cross_product h0 a b = 0 := by
      have c1 : 0 ≤ cross_product h0 a b := hsupp1 [] h0 a R1 rfl b (hmem2 b (by simp))
      have c2 : 0 ≤ cross_product h0 b a := hsupp2 [] h0 b R2 rfl a (hmem1 a (by simp))
      have hsw := cross_product_swap h0 a b
      linarith
    have hblast1 : ∀ t, (h0 :: a :: R1).getLast? = some t → lexLe b t := by
      intro t ht
      rw [hl] at ht
      exact sorted_le_getLast hsor2 ht b (by simp)
    have hblast2 : ∀ t, (h0 :: b :: R2).getLast? = some t → lexLe a t := by
      intro t ht
      rw [← hl] at ht
      exact sorted_le_getLast hsor1 ht a (by simp)
    have hae : a = b := by
      rcases lexLe_total a b with hle | hle
      · rcases lexLe_iff_lt_or_eq.1 hle with hlt | heq
        · exact (chain_succ_contra X h0 a b R1 hsor1 hturn1 hsupp1 hmem1
            (hmem2 b (by simp)) hcol hlt hblast1
            (fun x hx => hsupp2 [] h0 b R2 rfl x hx)).elim
        · exact heq
      · rcases lexLe_iff_lt_or_eq.1 hle with hlt | heq
        · have hcol2 : cross_product h0 b a = 0 := by
            have hsw := cross_product_swap h0 a b
            linarith
          exact (chain_succ_contra X h0 b a R2 hsor2 hturn2 hsupp2 hmem2
            (hmem1 a (by simp)) hcol2 hlt hblast2
            (fun x hx => hsupp1 [] h0 a R1 rfl x hx)).elim
        · exact heq.symm
    rw [← hae] at hsor2 hturn2 hsupp2 hmem2 hl hblast2 ⊢
    cases R1 with
    | nil =>
      cases R2 with
      | nil => rfl
      | cons c R2x =>
        exfalso
        have hgl : (h0 :: a :: c :: R2x).getLast? = some a := by
          rw [← hl]
          rfl
        have hac : lexLe a c := List.rel_of_pairwise_cons hsor2.of_cons (by simp)
        have hca : lexLe c a := sorted_le_getLast hsor2 hgl c (by simp)
        have hce : c = a := lexLe_antisymm hca hac
        have hturnv := hturn2 [] h0 a c R2x rfl
        rw [hce, cross_product_self] at hturnv
        exact lt_irrefl 0 hturnv
    | cons c R1x =>
      cases R2 with
      | nil =>
        exfalso
        have hgl : (h0 :: a :: c :: R1x).getLast? = some a := by
          rw [hl]
          rfl
        have hac : lexLe a c := List.rel_of_pairwise_cons hsor1.of_cons (by simp)
        have hca : lexLe c a := sorted_le_getLast hsor1 hgl c (by simp)
        have hce : c = a := lexLe_antisymm hca hac
        have hturnv := hturn1 [] h0 a c R1x rfl
        rw [hce, cross_product_self] at hturnv
        exact lt_irrefl 0 hturnv
      | cons d R2x =>
        have e1 : (h0 :: a :: c :: R1x).getLast? = (a :: c :: R1x).getLast? :=
          List.getLast?_cons_cons
        have e2 : (h0 :: a :: d :: R2x).getLast? = (a :: d :: R2x).getLast? :=
          List.getLast?_cons_cons
        have htl := ih (a :: d :: R2x) hsor1.of_cons (turning_tail hturn1) (supports_tail hsupp1)
          (fun p hp => hmem1 p (List.mem_cons_of_mem h0 hp))
          hsor2.of_cons (turning_tail hturn2) (supports_tail hsupp2)
          (fun p hp => hmem2 p (List.mem_cons_of_mem h0 hp))
          rfl (by rw [← e1, ← e2]; exact hl) (by simp) (by simp)
        rw [htl]

end HullIdem4

section HullIdem5

variable {α : Type} [LinearOrderedCommRing α]

/-- Point negation: reverses the lexicographic order and preserves turns. -/
def negP (p : PPoint α) : PPoint α := (-p.1, -p.2)

theorem negP_invol (p : PPoint α) : negP (negP p) = p := by
  simp [negP]

theorem cross_negP (o a b : PPoint α) :
    cross_product (negP o) (negP a) (negP b) = cross_product o a b := by
  simp only [cross_product, negP]
  ring

theorem ccw_negP (o a b : PPoint α) :
    counterclockwise (negP o) (negP a) (negP b) = counterclockwise o a b := by
  unfold counterclockwise
  rw [cross_negP]

theorem lexLe_negP {p q : PPoint α} : lexLe (negP p) (negP q) ↔ lexLe q p := by
  simp only [lexLe, negP]
  constructor
  · rintro (h | ⟨h1, h2⟩)
    · exact Or.inl (by linarith)
    · exact Or.inr ⟨by linarith, by linarith⟩
  · rintro (h | ⟨h1, h2⟩)
    · exact Or.inl (by linarith)
    · exact Or.inr ⟨by linarith, by linarith⟩

theorem hhStep_negP (st : List (PPoint α)) (b : PPoint α) :
    hhStep counterclockwise (st.map negP) (negP b) =
      (hhStep counterclockwise st b).map negP := by
  induction st with
  | nil => rfl
  | cons a tail ih =>
    cases tail with
    | nil => rfl
    | cons o rest =>
      by_cases h : counterclockwise o a b = true
      · have h2 : counterclockwise (negP o) (negP a) (negP b) = true := by
          rw [ccw_negP]
          exact h
        simp [hhStep, List.map_cons, h, h2]
      · have h1 : counterclockwise o a b = false := by
          cases hc : counterclockwise o a b
          · rfl
          · exact absurd hc h
        have h2 : counterclockwise (negP o) (negP a) (negP b) = false := by
          rw [ccw_negP]
          exact h1
        have e1 : hhStep counterclockwise (a :: o :: rest) b =
            hhStep counterclockwise (o :: rest) b := by
          simp [hhStep, h1]
        have e2 : hhStep counterclockwise (negP a :: negP o :: rest.map negP) (negP b) =
            hhStep counterclockwise (negP o :: rest.map negP) (negP b) := by
          simp [hhStep, h2]
        simp only [List.map_cons]
        rw [e1, e2]
        simp only [List.map_cons] at ih
        exact ih

theorem foldl_hhStep_negP (l : List (PPoint α)) :
    ∀ acc, (l.map negP).foldl (hhStep counterclockwise) (acc.map negP) =
      (l.foldl (hhStep counterclockwise) acc).map negP := by
  induction l with
  | nil => intro acc; rfl
  | cons a t ih =>
    intro acc
    simp only [List.map_cons, List.foldl_cons]
    rw [hhStep_negP]
    exact ih (hhStep counterclockwise acc a)

theorem half_hull_negP (l : List (PPoint α)) :
    half_hull counterclockwise (l.map negP) = (half_hull counterclockwise l).map negP := by
  unfold half_hull
  rw [List.map_reverse]
  congr 1
  exact foldl_hhStep_negP l []

theorem map_negP_negP (l : List (PPoint α)) : (l.map negP).map negP = l := by
  induction l with
  | nil => rfl
  | cons a t ih => simp [negP_invol, ih]

theorem pairwise_negP_rev (S : List (PPoint α)) (h : List.Pairwise lexLe S) :
    List.Pairwise lexLe (S.reverse.map negP) := by
  rw [List.pairwise_map, List.pairwise_reverse]
  exact h.imp (fun hab => lexLe_negP.2 hab)

theorem mem_negP_iff {p : PPoint α} {l : List (PPoint α)} :
    p ∈ l.map negP ↔ negP p ∈ l := by
  constructor
  · intro h
    obtain ⟨q, hq, hqe⟩ := List.mem_map.1 h
    rw [← hqe, negP_invol]
    exact hq
  · intro h
    have h2 := List.mem_map_of_mem negP h
    rw [negP_invol] at h2
    exact h2

theorem head?_dropLast_of (l : List (PPoint α)) (h : 2 ≤ l.length) :
    l.dropLast.head? = l.head? := by
  rw [List.head?_dropLast, if_pos]
  omega

theorem mem_dropLast_head {l : List (PPoint α)} {m : PPoint α} (h : 2 ≤ l.length)
    (hm : l.head? = some m) : m ∈ l.dropLast := by
  apply mem_of_head_eq
  rw [head?_dropLast_of l h]
  exact hm

theorem mem_chain_split {l : List (PPoint α)} {p M : PPoint α}
    (hgl : l.getLast? = some M) (hp : p ∈ l) : p ∈ l.dropLast ∨ p = M := by
  have hne : l ≠ [] := by
    intro h
    rw [h] at hgl
    cases hgl
  have hdec := List.dropLast_append_getLast hne
  rw [← hdec] at hp
  rcases List.mem_append.1 hp with h | h
  · exact Or.inl h
  · right
    rw [List.mem_singleton] at h
    rw [h]
    have := List.getLast?_eq_getLast l hne
    rw [this] at hgl
    injection hgl

theorem sorted_head_value {l : List (PPoint α)} {m : PPoint α}
    (hs : List.Pairwise lexLe l) (hmem : m ∈ l) (hle : ∀ x ∈ l, lexLe m x) :
    l.head? = some m := by
  cases l with
  | nil => cases hmem
  | cons a t =>
    have h1 : lexLe m a := hle a (by simp)
    have h2 : lexLe a m := sorted_head_le hs rfl m hmem
    rw [List.head?_cons, lexLe_antisymm h2 h1]

theorem sorted_getLast_value {l : List (PPoint α)} {M : PPoint α}
    (hs : List.Pairwise lexLe l) (hmem : M ∈ l) (hle : ∀ x ∈ l, lexLe x M) :
    l.getLast? = some M := by
  have hne : l ≠ [] := by
    intro h
    rw [h] at hmem
    cases hmem
  obtain ⟨t0, ht0⟩ : ∃ t0, l.getLast? = some t0 := by
    cases hgl : l.getLast? with
    | none =>
      rw [← List.getLast?_isSome] at hne
      rw [hgl] at hne
      cases hne
    | some y => exact ⟨y, rfl⟩
  have h1 : lexLe t0 M := hle t0 (mem_of_getLast_eq ht0)
  have h2 : lexLe M t0 := sorted_le_getLast hs ht0 M hmem
  rw [ht0, lexLe_antisymm h1 h2]

end HullIdem5

section HullIdem6

variable {α : Type} [LinearOrderedCommRing α]

/-- Idempotence core: re-running `convex_hull` on the assembled hull of a
sorted list of at least two points reproduces it. -/
theorem hull_idem_main (S C U : List (PPoint α)) (hS : List.Pairwise lexLe S)
    (h2 : 2 ≤ S.length)
    (hC : C = half_hull counterclockwise S)
    (hU : U = half_hull counterclockwise S.reverse) :
    convex_hull ((C.dropLast ++ U).dropLast) counterclockwise =
      (C.dropLast ++ U).dropLast := by
  obtain ⟨hCsub, hCsort, hCturn, hCsupp, hChead, hClast, hClen⟩ :=
    half_hull_chainSpec S hS
  rw [← hC] at hCsub hCsort hCturn hCsupp hChead hClast hClen
  have hTsort : List.Pairwise lexLe (S.reverse.map negP) := pairwise_negP_rev S hS
  obtain ⟨hEsub, hEsort, hEturn, hEsupp, hEhead, hElast, hElen⟩ :=
    half_hull_chainSpec (S.reverse.map negP) hTsort
  have hTlen : (S.reverse.map negP).length = S.length := by
    rw [List.length_map, List.length_reverse]
  have hClen2 : 2 ≤ C.length := hClen h2
  have hElen2 : 2 ≤ (half_hull counterclockwise (S.reverse.map negP)).length := by
    apply hElen
    omega
  have hUE : U = (half_hull counterclockwise (S.reverse.map negP)).map negP := by
    rw [hU, ← half_hull_negP, map_negP_negP]
  have hUlen2 : 2 ≤ U.length := by
    rw [hUE, List.length_map]
    exact hElen2
  have hUne : U ≠ [] := by
    intro h
    rw [h] at hUlen2
    simp at hUlen2
  have hSne : S ≠ [] := by
    intro h
    rw [h] at h2
    simp at h2
  obtain ⟨m, hm⟩ : ∃ m, S.head? = some m := by
    obtain ⟨a, t, he⟩ := List.exists_cons_of_ne_nil hSne
    exact ⟨a, by rw [he]; rfl⟩
  obtain ⟨M, hM⟩ : ∃ M, S.getLast? = some M := by
    cases hgl : S.getLast? with
    | none =>
      rw [← List.getLast?_isSome, hgl] at hSne
      simp at hSne
    | some y => exact ⟨y, rfl⟩
  have hmle : ∀ x ∈ S, lexLe m x := sorted_head_le hS hm
  have hMge : ∀ x ∈ S, lexLe x M := sorted_le_getLast hS hM
  have hChead2 : C.head? = some m := by rw [hChead, hm]
  have hClast2 : C.getLast? = some M := by rw [hClast, hM]
  have hThead : (S.reverse.map negP).head? = some (negP M) := by
    rw [List.head?_map, List.head?_reverse, hM]
    rfl
  have hTlast : (S.reverse.map negP).getLast? = some (negP m) := by
    rw [List.getLast?_map, List.getLast?_reverse, hm]
    rfl
  have hEhead2 : (half_hull counterclockwise (S.reverse.map negP)).head? =
      some (negP M) := by
    rw [hEhead, hThead]
  have hElast2 : (half_hull counterclockwise (S.reverse.map negP)).getLast? =
      some (negP m) := by
    rw [hElast, hTlast]
  have hUhead : U.head? = some M := by
    rw [hUE, List.head?_map, hEhead2]
    simp [negP_invol]
  have hUlast : U.getLast? = some m := by
    rw [hUE, List.getLast?_map, hElast2]
    simp [negP_invol]
  have hraw : (C.dropLast ++ U).dropLast = C.dropLast ++ U.dropLast :=
    List.dropLast_append_of_ne_nil C.dropLast hUne
  rw [hraw]
  have hCmemS : ∀ p ∈ C, p ∈ S := fun p hp => hCsub.subset hp
  have hUmemS : ∀ p ∈ U, p ∈ S := by
    intro p hp
    rw [hUE] at hp
    have h1 := hEsub.subset (mem_negP_iff.1 hp)
    have h3 := mem_negP_iff.1 h1
    rw [negP_invol] at h3
    exact List.mem_reverse.1 h3
  have hHmemS : ∀ p ∈ C.dropLast ++ U.dropLast, p ∈ S := by
    intro p hp
    rcases List.mem_append.1 hp with h | h
    · exact hCmemS p ((List.dropLast_sublist C).subset h)
    · exact hUmemS p ((List.dropLast_sublist U).subset h)
  have hmH : m ∈ C.dropLast ++ U.dropLast :=
    List.mem_append.2 (Or.inl (mem_dropLast_head hClen2 hChead2))
  have hMH : M ∈ C.dropLast ++ U.dropLast :=
    List.mem_append.2 (Or.inr (mem_dropLast_head hUlen2 hUhead))
  have hCmemH : ∀ p ∈ C, p ∈ C.dropLast ++ U.dropLast := by
    intro p hp
    rcases mem_chain_split hClast2 hp with h | h
    · exact List.mem_append.2 (Or.inl h)
    · rw [h]
      exact hMH
  have hUmemH : ∀ p ∈ U, p ∈ C.dropLast ++ U.dropLast := by
    intro p hp
    rcases mem_chain_split hUlast hp with h | h
    · exact List.mem_append.2 (Or.inr h)
    · rw [h]
      exact hmH
  have hS'sort : List.Pairwise lexLe
      (List.insertionSort lexLe (C.dropLast ++ U.dropLast)) :=
    List.sorted_insertionSort lexLe (C.dropLast ++ U.dropLast)
  have hS'mem : ∀ x, x ∈ List.insertionSort lexLe (C.dropLast ++ U.dropLast) ↔
      x ∈ C.dropLast ++ U.dropLast :=
    fun x => (List.perm_insertionSort lexLe (C.dropLast ++ U.dropLast)).mem_iff
  have hHlen : 2 ≤ (C.dropLast ++ U.dropLast).length := by
    rw [List.length_append, List.length_dropLast, List.length_dropLast]
    omega
  have hS'len : 2 ≤ (List.insertionSort lexLe (C.dropLast ++ U.dropLast)).length := by
    rw [List.length_insertionSort]
    exact hHlen
  have hS'head : (List.insertionSort lexLe (C.dropLast ++ U.dropLast)).head? = some m :=
    sorted_head_value hS'sort ((hS'mem m).2 hmH)
      (fun x hx => hmle x (hHmemS x ((hS'mem x).1 hx)))
  have hS'last : (List.insertionSort lexLe (C.dropLast ++ U.dropLast)).getLast? = some M :=
    sorted_getLast_value hS'sort ((hS'mem M).2 hMH)
      (fun x hx => hMge x (hHmemS x ((hS'mem x).1 hx)))
  obtain ⟨hDsub, hDsort, hDturn, hDsupp, hDhead, hDlast, hDlen⟩ :=
    half_hull_chainSpec (List.insertionSort lexLe (C.dropLast ++ U.dropLast)) hS'sort
  have hDC : half_hull counterclockwise
      (List.insertionSort lexLe (C.dropLast ++ U.dropLast)) = C :=
    chain_unique (List.insertionSort lexLe (C.dropLast ++ U.dropLast)) _ C
      hDsort hDturn hDsupp (fun p hp => hDsub.subset hp)
      hCsort hCturn
      (supports_mono (fun x hx => hHmemS x ((hS'mem x).1 hx)) hCsupp)
      (fun p hp => (hS'mem p).2 (hCmemH p hp))
      (by rw [hDhead, hS'head, hChead2])
      (by rw [hDlast, hS'last, hClast2])
      (hDlen hS'len) hClen2
  have hT'sort : List.Pairwise lexLe
      ((List.insertionSort lexLe (C.dropLast ++ U.dropLast)).reverse.map negP) :=
    pairwise_negP_rev _ hS'sort
  obtain ⟨hD2sub, hD2sort, hD2turn, hD2supp, hD2head, hD2last, hD2len⟩ :=
    half_hull_chainSpec
      ((List.insertionSort lexLe (C.dropLast ++ U.dropLast)).reverse.map negP) hT'sort
  have hT'head : ((List.insertionSort lexLe (C.dropLast ++ U.dropLast)).reverse.map
      negP).head? = some (negP M) := by
    rw [List.head?_map, List.head?_reverse, hS'last]
    rfl
  have hT'last : ((List.insertionSort lexLe (C.dropLast ++ U.dropLast)).reverse.map
      negP).getLast? = some (negP m) := by
    rw [List.getLast?_map, List.getLast?_reverse, hS'head]
    rfl
  have hT'len : 2 ≤ ((List.insertionSort lexLe (C.dropLast ++ U.dropLast)).reverse.map
      negP).length := by
    rw [List.length_map, List.length_reverse]
    exact hS'len
  have hEU : half_hull counterclockwise (S.reverse.map negP) = U.map negP := by
    rw [hUE, map_negP_negP]
  have hEsupp2 : Supports (half_hull counterclockwise (S.reverse.map negP))
      ((List.insertionSort lexLe (C.dropLast ++ U.dropLast)).reverse.map negP) := by
    apply supports_mono ?_ hEsupp
    intro x hx
    have h1 := mem_negP_iff.1 hx
    rw [List.mem_reverse] at h1
    have h3 := hHmemS (negP x) ((hS'mem (negP x)).1 h1)
    exact mem_negP_iff.2 (List.mem_reverse.2 h3)
  have hEmem2 : ∀ p ∈ half_hull counterclockwise (S.reverse.map negP),
      p ∈ (List.insertionSort lexLe (C.dropLast ++ U.dropLast)).reverse.map negP := by
    intro p hp
    rw [hEU] at hp
    have h1 := mem_negP_iff.1 hp
    have h2 := (hS'mem (negP p)).2 (hUmemH (negP p) h1)
    exact mem_negP_iff.2 (List.mem_reverse.2 h2)
  have hD2E : half_hull counterclockwise
      ((List.insertionSort lexLe (C.dropLast ++ U.dropLast)).reverse.map negP) =
      half_hull counterclockwise (S.reverse.map negP) :=
    chain_unique
      ((List.insertionSort lexLe (C.dropLast ++ U.dropLast)).reverse.map negP) _ _
      hD2sort hD2turn hD2supp (fun p hp => hD2sub.subset hp)
      hEsort hEturn hEsupp2 hEmem2
      (by rw [hD2head, hT'head, hEhead2])
      (by rw [hD2last, hT'last, hElast2])
      (hD2len hT'len) hElen2
  have hUrerun : half_hull counterclockwise
      (List.insertionSort lexLe (C.dropLast ++ U.dropLast)).reverse = U := by
    have h1 : (List.insertionSort lexLe (C.dropLast ++ U.dropLast)).reverse =
        ((List.insertionSort lexLe (C.dropLast ++ U.dropLast)).reverse.map negP).map
          negP :=
      (map_negP_negP _).symm
    rw [h1, half_hull_negP, hD2E, hEU, map_negP_negP]
  show convex_hull (C.dropLast ++ U.dropLast) counterclockwise = C.dropLast ++ U.dropLast
  unfold convex_hull
  rw [hDC, hUrerun, hraw]

/-- C9: convex-hull construction with the lexicographic key and the
counterclockwise predicate is idempotent. -/
theorem c9_theorem (pts : List (PPoint α)) :
    convex_hull (convex_hull pts counterclockwise) counterclockwise =
      convex_hull pts counterclockwise := by
  rcases hlen : (List.insertionSort lexLe pts).length with _ | n
  · have hnil : List.insertionSort lexLe pts = [] := List.length_eq_zero.1 hlen
    have h0 : convex_hull pts counterclockwise = [] := by
      unfold convex_hull
      rw [hnil]
      rfl
    rw [h0]
    rfl
  · cases n with
    | zero =>
      obtain ⟨p, hp⟩ := List.length_eq_one.1 hlen
      have h0 : convex_hull pts counterclockwise = [] := by
        unfold convex_hull
        rw [hp]
        rfl
      rw [h0]
      rfl
    | succ k =>
      have h2 : 2 ≤ (List.insertionSort lexLe pts).length := by omega
      exact hull_idem_main (List.insertionSort lexLe pts) _ _
        (List.sorted_insertionSort lexLe pts) h2 rfl rfl

end HullIdem6
